import Mathlib

/-!
# KVDBMass: skip list, arena, height generator, slices and status

A shallow embedding of `src/db/skiptlist.{h,cpp}`, `src/util/arena.{h,cpp}`,
`src/util/random.h`, `src/include/massdb/slice.h`, `src/util/comparator.cpp` and
`src/include/massdb/status.h` with `src/util/status.cpp`, followed by theorems
about the embedded code.

Conventions of the embedding.

* A `Node*` is `Option Nat`: `none` is `nullptr`, `some i` is the address of the
  `i`-th node handed out by `NewNode`.  The head sentinel is the first node ever
  created, so `head_ = 0`.
* A link slot `next_[n]` is `Option (Option Nat)`: `none` is a slot that has not
  been written yet (fresh arena memory), `some p` is a slot holding pointer `p`.
* `while (true)` loops carry a `fuel` argument counting loop iterations.
* A run that trips an `assert`, reads or writes outside an object / reads
  unwritten memory, or exhausts its fuel, ends in `Except.error` with the matching
  `Fault`.
-/

namespace massdb

variable {K : Type}

/-! ## `util/random.h` -/

/-- State of `class Random`: the single `uint32_t seed_`. -/
structure Random where
  seed_ : Nat
deriving DecidableEq, Repr

/-- The constructor `Random::Random(uint32_t seed)`. -/
def Random.new (seed : Nat) : Random :=
  let s := seed % 2 ^ 31            -- seed & 0x7fffffffu
  if s = 0 ∨ s = 2147483647 then ⟨1⟩ else ⟨s⟩

/-- The method `Random::Next()`: returns the value and the updated generator. -/
def Random.Next (r : Random) : Nat × Random :=
  let M := 2147483647
  let A := 16807
  let product := (r.seed_ * A) % 2 ^ 64                        -- uint64_t product
  let seed1 := (product / 2 ^ 31 + product % 2 ^ 31) % 2 ^ 32  -- static_cast<uint32_t>
  let seed2 := if seed1 > M then seed1 - M else seed1
  (seed2, ⟨seed2⟩)

/-- The method `Random::OneIn(n)`: `(Next() % n) == 0`. -/
def Random.OneIn (r : Random) (n : Nat) : Bool × Random :=
  let (v, r1) := r.Next
  (v % n == 0, r1)

/-! ## `db/skiptlist.h`, `db/skiptlist.cpp` -/

/-- The constant `enum { kMaxHeight = 12 }`. -/
def kMaxHeight : Nat := 12

/-- The loop of `SkipList::RandomHeight`:
`while (height <= kMaxHeight && rnd_.OneIn(kBranching)) height++;`.
`fuel` bounds the number of iterations; no draw is made once the first conjunct
fails. -/
def RandomHeight.loop : Nat → Nat → Random → Option (Nat × Random)
  | 0, _, _ => none
  | fuel + 1, height, rnd =>
    if height ≤ kMaxHeight then
      match rnd.OneIn 4 with
      | (true, rnd1) => RandomHeight.loop fuel (height + 1) rnd1
      | (false, rnd1) => some (height, rnd1)
    else some (height, rnd)

/-- Reasons for which a run of the embedded code does not return. -/
inductive Fault where
  | assertion   -- an `assert(...)` evaluated to false
  | undefined   -- out-of-bounds access or read of unwritten memory
  | fuel        -- the iteration budget of a `while (true)` loop ran out
deriving DecidableEq, Repr

/-- The method `SkipList::RandomHeight()`, including its two closing assertions.
The loop runs at most `kMaxHeight + 1` times, so `kMaxHeight + 2` iterations of
fuel never run out. -/
def RandomHeight (rnd : Random) : Except Fault (Nat × Random) :=
  match RandomHeight.loop (kMaxHeight + 2) 1 rnd with
  | none => .error .fuel
  | some (height, rnd1) =>
    if ¬ (height > 0) then .error .assertion
    else if ¬ (height ≤ kMaxHeight) then .error .assertion
    else .ok (height, rnd1)

/-- The `struct Node`: the immutable `key` and the `next_` array, whose length is
the height the node was allocated with. -/
structure Node (K : Type) where
  key : K
  next_ : List (Option (Option Nat))

/-- The state of a `SkipList<Key, Comparator>`: the nodes living in the arena,
by address (`head_` is address `0`), and `max_height_`.  The comparator
`compare_` is passed to every operation as `cmp`; the height generator is
represented by the `height` argument of `Insert`. -/
structure SkipList (K : Type) where
  nodes : List (Node K)
  max_height_ : Nat

/-- The address of the head sentinel `head_`. -/
def head_ : Nat := 0

/-- The content of link slot `next_[n]` of node `x`; `none` when `x` is not a
node, `n` is outside the node, or the slot was never written. -/
def SkipList.slot (s : SkipList K) (x n : Nat) : Option (Option Nat) :=
  match s.nodes[x]? with
  | none => none
  | some nd =>
    match nd.next_[n]? with
    | some (some p) => some p
    | _ => none

/-- The accessor `Node::Next(n)` on node `x` (`NoBarrier_Next` reads the same
slot). -/
def SkipList.Next (s : SkipList K) (x n : Nat) : Except Fault (Option Nat) :=
  match s.slot x n with
  | none => .error .undefined
  | some p => .ok p

/-- The modifier `Node::SetNext(n, v)` on node `x` (`NoBarrier_SetNext` writes
the same slot). -/
def SkipList.SetNext (s : SkipList K) (x n : Nat) (v : Option Nat) :
    Except Fault (SkipList K) :=
  match s.nodes[x]? with
  | none => .error .undefined
  | some nd =>
    if n < nd.next_.length then
      .ok { s with nodes := s.nodes.set x { nd with next_ := nd.next_.set n (some v) } }
    else .error .undefined

/-- Reading `x->key`. -/
def SkipList.keyAt (s : SkipList K) (x : Nat) : Except Fault K :=
  match s.nodes[x]? with
  | none => .error .undefined
  | some nd => .ok nd.key

/-- The method `SkipList::NewNode(key, height)`: a fresh node with `height`
unwritten link slots; returns its address and the new state. -/
def NewNode (s : SkipList K) (key : K) (height : Nat) : Except Fault (Nat × SkipList K) :=
  if height = 0 then .error .undefined   -- the allocation would be smaller than a Node
  else .ok (s.nodes.length,
            { s with nodes := s.nodes ++ [⟨key, List.replicate height none⟩] })

/-- The empty list: a head node of height `kMaxHeight` with key `k0`, every
link `nullptr`, and `max_height_ = 1`.  It is the list that `SkipList.construct`
builds when the members are initialised in the order of the mem-initializer
list; the constructor as the language runs it is `SkipList.ctor`, which does not
build it. -/
def SkipList.new (k0 : K) : SkipList K :=
  { nodes := [⟨k0, List.replicate kMaxHeight (some none)⟩], max_height_ := 1 }

/-- The method `SkipList::GetMaxHeight()`. -/
def SkipList.GetMaxHeight (s : SkipList K) : Nat := s.max_height_

/-- The method `SkipList::Equal(a, b)`. -/
def Equal (cmp : K → K → Int) (a b : K) : Bool := cmp a b == 0

/-- The method `SkipList::KeyIsAfterNode(key, n)`:
`(n != nullptr) && (compare_(n->key, key) < 0)`. -/
def KeyIsAfterNode (cmp : K → K → Int) (s : SkipList K) (key : K) (n : Option Nat) :
    Except Fault Bool :=
  match n with
  | none => .ok false
  | some i =>
    match s.keyAt i with
    | .error e => .error e
    | .ok k => .ok (decide (cmp k key < 0))

/-- The statement `if (prev != nullptr) prev[level] = x;`.  The array `prev` is
`none` for a null `prev`; an entry is `none` while unwritten. -/
def writePrev (prev : Option (List (Option Nat))) (level x : Nat) :
    Except Fault (Option (List (Option Nat))) :=
  match prev with
  | none => .ok none
  | some a =>
    if level < a.length then .ok (some (a.set level (some x))) else .error .undefined

/-- The `while (true)` loop of `SkipList::FindGreaterOrEqual`, from the state
`(x, level, prev)`. -/
def FindGreaterOrEqual.loop (cmp : K → K → Int) (s : SkipList K) (key : K) :
    Nat → Nat → Nat → Option (List (Option Nat)) →
    Except Fault (Option Nat × Option (List (Option Nat)))
  | 0, _, _, _ => .error .fuel
  | fuel + 1, x, level, prev =>
    match s.Next x level with
    | .error e => .error e
    | .ok next =>
      match KeyIsAfterNode cmp s key next, next with
      | .error e, _ => .error e
      | .ok true, some y => FindGreaterOrEqual.loop cmp s key fuel y level prev
      | .ok true, none => .error .undefined
      | .ok false, _ =>
        match writePrev prev level x with
        | .error e => .error e
        | .ok prev1 =>
          if level = 0 then .ok (next, prev1)
          else FindGreaterOrEqual.loop cmp s key fuel x (level - 1) prev1

/-- The method `SkipList::FindGreaterOrEqual(key, prev)`: returns the node and
the final content of `prev`. -/
def FindGreaterOrEqual (cmp : K → K → Int) (fuel : Nat) (s : SkipList K) (key : K)
    (prev : Option (List (Option Nat))) :
    Except Fault (Option Nat × Option (List (Option Nat))) :=
  if s.GetMaxHeight = 0 then .error .undefined   -- level would be -1
  else FindGreaterOrEqual.loop cmp s key fuel head_ (s.GetMaxHeight - 1) prev

/-- The loop `for (int i = GetMaxHeight(); i < height; i++) prev[i] = head_;`
of `Insert`, with `count` iterations left. -/
def Insert.fill : List (Option Nat) → Nat → Nat → Except Fault (List (Option Nat))
  | prev, _, 0 => .ok prev
  | prev, i, count + 1 =>
    if i < prev.length then Insert.fill (prev.set i (some head_)) (i + 1) count
    else .error .undefined

/-- The loop `for (int i = 0; i < height; i++) { x->NoBarrier_SetNext(i,
prev[i]->NoBarrier_Next(i)); prev[i]->SetNext(i, x); }` of `Insert`, with `count`
iterations left. -/
def Insert.link (prev : List (Option Nat)) (x : Nat) :
    Nat → Nat → SkipList K → Except Fault (SkipList K)
  | _, 0, s => .ok s
  | i, count + 1, s =>
    match prev[i]? with
    | some (some p) =>
      match s.Next p i with
      | .error e => .error e
      | .ok nx =>
        match s.SetNext x i nx with
        | .error e => .error e
        | .ok s1 =>
          match s1.SetNext p i (some x) with
          | .error e => .error e
          | .ok s2 => Insert.link prev x (i + 1) count s2
    | _ => .error .undefined

/-- The asserted expression of `Insert`: `x == nullptr || !Equal(key, x->key)`. -/
def Insert.check (cmp : K → K → Int) (s : SkipList K) (key : K) (x : Option Nat) :
    Except Fault Bool :=
  match x with
  | none => .ok true
  | some i =>
    match s.keyAt i with
    | .error e => .error e
    | .ok k => .ok (! Equal cmp key k)

/-- The method `SkipList::Insert(key)`, where `height` is the value that
`RandomHeight()` returns to it. -/
def Insert (cmp : K → K → Int) (fuel : Nat) (s : SkipList K) (key : K) (height : Nat) :
    Except Fault (SkipList K) :=
  match FindGreaterOrEqual cmp fuel s key (some (List.replicate kMaxHeight none)) with
  | .error e => .error e
  | .ok (_, none) => .error .undefined
  | .ok (x, some prev) =>
    match Insert.check cmp s key x with
    | .error e => .error e
    | .ok false => .error .assertion
    | .ok true =>
      match (if height > s.GetMaxHeight then
               Insert.fill prev s.GetMaxHeight (height - s.GetMaxHeight)
             else .ok prev) with
      | .error e => .error e
      | .ok prev1 =>
        let s1 : SkipList K :=
          if height > s.GetMaxHeight then { s with max_height_ := height } else s
        match NewNode s1 key height with
        | .error e => .error e
        | .ok (xn, s2) => Insert.link prev1 xn 0 height s2

/-- The method `SkipList::Contians(key)`: its body is `return false;`. -/
def Contians (_s : SkipList K) (_key : K) : Bool := false

/-- The `while (true)` loop of `SkipList::FindLast`. -/
def FindLast.loop (s : SkipList K) : Nat → Nat → Nat → Except Fault Nat
  | 0, _, _ => .error .fuel
  | fuel + 1, x, level =>
    match s.Next x level with
    | .error e => .error e
    | .ok none =>
      if level = 0 then .ok x else FindLast.loop s fuel x (level - 1)
    | .ok (some y) => FindLast.loop s fuel y level

/-- The method `SkipList::FindLast()`. -/
def FindLast (fuel : Nat) (s : SkipList K) : Except Fault Nat :=
  if s.GetMaxHeight = 0 then .error .undefined
  else FindLast.loop s fuel head_ (s.GetMaxHeight - 1)

/-- The loop assertion of `FindLessThan`:
`x == head_ || compare_(x->key, key) < 0`. -/
def FindLessThan.check (cmp : K → K → Int) (s : SkipList K) (key : K) (x : Nat) :
    Except Fault Bool :=
  if x = head_ then .ok true
  else
    match s.keyAt x with
    | .error e => .error e
    | .ok k => .ok (decide (cmp k key < 0))

/-- The loop test of `FindLessThan`:
`next == nullptr || compare_(next->key, key) >= 0`. -/
def FindLessThan.stop (cmp : K → K → Int) (s : SkipList K) (key : K) (next : Option Nat) :
    Except Fault Bool :=
  match next with
  | none => .ok true
  | some y =>
    match s.keyAt y with
    | .error e => .error e
    | .ok k => .ok (decide (cmp k key ≥ 0))

/-- The `while (true)` loop of `SkipList::FindLessThan`. -/
def FindLessThan.loop (cmp : K → K → Int) (s : SkipList K) (key : K) :
    Nat → Nat → Nat → Except Fault Nat
  | 0, _, _ => .error .fuel
  | fuel + 1, x, level =>
    match FindLessThan.check cmp s key x with
    | .error e => .error e
    | .ok false => .error .assertion
    | .ok true =>
      match s.Next x level with
      | .error e => .error e
      | .ok next =>
        match FindLessThan.stop cmp s key next, next with
        | .error e, _ => .error e
        | .ok true, _ =>
          if level = 0 then .ok x else FindLessThan.loop cmp s key fuel x (level - 1)
        | .ok false, some y => FindLessThan.loop cmp s key fuel y level
        | .ok false, none => .error .undefined

/-- The method `SkipList::FindLessThan(key)`. -/
def FindLessThan (cmp : K → K → Int) (fuel : Nat) (s : SkipList K) (key : K) :
    Except Fault Nat :=
  if s.GetMaxHeight = 0 then .error .undefined
  else FindLessThan.loop cmp s key fuel head_ (s.GetMaxHeight - 1)

/-- Insert the keys of `khs` one after the other, each with its drawn height. -/
def insertAll (cmp : K → K → Int) (fuel : Nat) :
    SkipList K → List (K × Nat) → Except Fault (SkipList K)
  | s, [] => .ok s
  | s, (key, height) :: rest =>
    match Insert cmp fuel s key height with
    | .error e => .error e
    | .ok s1 => insertAll cmp fuel s1 rest

/-- The chain of level `level` followed from node `x` until `nullptr`: the
addresses of the nodes after `x`, in order. -/
def SkipList.chainFrom (s : SkipList K) (level : Nat) : Nat → Nat → Except Fault (List Nat)
  | 0, _ => .error .fuel
  | fuel + 1, x =>
    match s.Next x level with
    | .error e => .error e
    | .ok none => .ok []
    | .ok (some y) =>
      match s.chainFrom level fuel y with
      | .error e => .error e
      | .ok l => .ok (y :: l)

/-- The chain of level `level` followed from the head sentinel. -/
def SkipList.chain (s : SkipList K) (fuel level : Nat) : Except Fault (List Nat) :=
  s.chainFrom level fuel head_

/-- The key stored in node `x` (`k0` when `x` is not a node). -/
def SkipList.keyD (s : SkipList K) (k0 : K) (x : Nat) : K :=
  match s.nodes[x]? with
  | none => k0
  | some nd => nd.key

/-- The height node `x` was allocated with (`0` when `x` is not a node). -/
def SkipList.height (s : SkipList K) (x : Nat) : Nat :=
  match s.nodes[x]? with
  | none => 0
  | some nd => nd.next_.length

/-- The key and the height of every node, by address. -/
def SkipList.shape (s : SkipList K) : List (K × Nat) :=
  s.nodes.map (fun nd => (nd.key, nd.next_.length))

/-- The integer comparator used in the examples: `a - b`. -/
def intCmp (a b : Int) : Int := a - b

/-! ## Predicates used in the proofs: chains of links -/

/-- Following level `L` from node `x` visits exactly the nodes of `c`, in order,
and then reaches `nullptr`. -/
def Linked (s : SkipList K) (L : Nat) : Nat → List Nat → Prop
  | x, [] => s.slot x L = some none
  | x, y :: c => s.slot x L = some (some y) ∧ Linked s L y c

/-- The last node of the walk `x :: c`. -/
def lastOf : Nat → List Nat → Nat
  | x, [] => x
  | _, y :: c => lastOf y c

/-! ## The representation invariant -/

/-- A comparator that decides a linear order: negative exactly on `<`, zero
exactly on equal keys. -/
def LawfulCmp [LinearOrder K] (cmp : K → K → Int) : Prop :=
  ∀ a b, (cmp a b < 0 ↔ a < b) ∧ (cmp a b = 0 ↔ a = b)

/-- The nodes of `l` that have a link slot at level `L`. -/
def atLevel (s : SkipList K) (L : Nat) (l : List Nat) : List Nat :=
  l.filter (fun i => decide (L < s.height i))

/-- Representation invariant of the skip list: `l` lists the addresses of the
inserted nodes in increasing key order, and at every level the links from the
head run through exactly the nodes of `l` that are tall enough. -/
structure Inv [LinearOrder K] (k0 : K) (s : SkipList K) (l : List Nat) : Prop where
  head : s.height head_ = kMaxHeight
  mem : ∀ i, i ∈ l ↔ 0 < i ∧ i < s.nodes.length
  nodup : l.Nodup
  sorted : l.Pairwise (fun i j => s.keyD k0 i < s.keyD k0 j)
  hpos : ∀ i ∈ l, 1 ≤ s.height i ∧ s.height i ≤ s.max_height_
  mh : 1 ≤ s.max_height_ ∧ s.max_height_ ≤ kMaxHeight
  links : ∀ L, L < kMaxHeight → Linked s L head_ (atLevel s L l)

/-- The state of a top-down scan standing on node `x` at level `level`, with the
nodes `q` still ahead of it. -/
structure Scan [LinearOrder K] (k0 : K) (s : SkipList K) (x level : Nat) (q : List Nat) :
    Prop where
  valid : ∀ y ∈ q, y < s.nodes.length ∧ 1 ≤ s.height y
  sorted : q.Pairwise (fun i j => s.keyD k0 i < s.keyD k0 j)
  links : ∀ L, L ≤ level → Linked s L x (atLevel s L q)

/-! ## `Insert` -/

/-- State of the linking loop of `Insert` after the levels below `i` are done:
`t0` is the state right after `NewNode`, `n` the new node, `p` and `q` the nodes
before and after the insertion point. -/
structure LinkInv (k0 : K) (t0 t : SkipList K) (p q : List Nat) (n i : Nat) : Prop where
  len : t.nodes.length = t0.nodes.length
  mh : t.max_height_ = t0.max_height_
  height : ∀ y, t.height y = t0.height y
  key : ∀ y, t.keyD k0 y = t0.keyD k0 y
  done : ∀ L, L < i → L < kMaxHeight →
    Linked t L head_ (atLevel t0 L p ++ n :: atLevel t0 L q)
  todo : ∀ L, i ≤ L → L < kMaxHeight → Linked t L head_ (atLevel t0 L p ++ atLevel t0 L q)
  shape : t.shape = t0.shape

/-! ## Sequences of inserts -/

/-- The largest of `m` and the heights of `khs`. -/
def maxHeightOf (m : Nat) (khs : List (K × Nat)) : Nat :=
  khs.foldl (fun a kh => max a kh.2) m

/-! ## The scenario of the specification: keys 5, 1, 9, 3 -/

/-- The keys 5, 1, 9, 3 in insertion order, each with the height that the
generator seeded with `0xdeadbeef` draws for it (2, 1, 1, 1). -/
def scenario : List (Int × Nat) := [(5, 2), (1, 1), (9, 1), (3, 1)]

/-- The searches of the scenario: the keys found by `FindGreaterOrEqual(4)`,
`FindGreaterOrEqual(10)`, `FindLessThan(5)` and `FindLast()`, and the keys along
the level-0 chain. -/
def scenarioRun : Option (Option Int × Option Int × Int × Int × List Int) :=
  match insertAll intCmp 16 (SkipList.new 0) scenario with
  | .error _ => none
  | .ok s =>
    match FindGreaterOrEqual intCmp 16 s 4 none, FindGreaterOrEqual intCmp 16 s 10 none,
      FindLessThan intCmp 16 s 5, FindLast 16 s, s.chain 16 0 with
    | .ok (a, _), .ok (b, _), .ok c, .ok d, .ok l =>
      some (a.map (s.keyD 0), b.map (s.keyD 0), s.keyD 0 c, s.keyD 0 d, l.map (s.keyD 0))
    | _, _, _, _, _ => none

/-! ## Concrete runs -/

/-- The membership scenario: insert key 5, then search it.  Returns whether the
node found by `FindGreaterOrEqual(5)` holds a key equal to 5, and what
`Contians(5)` answers. -/
def containsRun : Option (Bool × Bool) :=
  match insertAll intCmp 16 (SkipList.new 0) [(5, 2)] with
  | .error _ => none
  | .ok s =>
    match FindGreaterOrEqual intCmp 16 s 5 none with
    | .ok (some i, _) => some (Equal intCmp 5 (s.keyD 0 i), Contians s 5)
    | _ => none

/-- The state after `Insert(5)` with height 2 into the empty list. -/
def afterFive : SkipList Int :=
  { nodes := [⟨0, [some (some 1), some (some 1)] ++ List.replicate 10 (some none)⟩,
              ⟨5, [some none, some none]⟩],
    max_height_ := 2 }

/-! ## `util/arena.h`, `util/arena.cpp` -/

/-- The constant `static const int kBlockSize = 4096`. -/
def kBlockSize : Nat := 4096

/-- The platform the arena runs on: `ptr` is `sizeof(char*)` (and `sizeof(void*)`)
in bytes, so `size_t` has `8 * ptr` bits; `newChar k n` is the address returned
by the `k`-th array allocation `new char[n]` of the arena (`k` counts from 0).
Allocation failure is not part of the model. -/
structure Platform where
  ptr : Nat
  newChar : Nat → Nat → Nat

/-- One more than the largest `size_t`. -/
def Platform.sizeMax (P : Platform) : Nat := 2 ^ (8 * P.ptr)

/-- The constant `align` of `AllocateAligned`:
`(sizeof(void*) > 8) ? sizeof(void*) : 8`. -/
def Platform.align (P : Platform) : Nat := if P.ptr > 8 then P.ptr else 8

/-- A block created by `new char[size]`.  The vector `blocks_` holds the `base`
pointers; `size` records the size the block was created with. -/
structure Block where
  base : Nat
  size : Nat
deriving DecidableEq, Repr

/-- The data members of `class Arena`; pointers are addresses, `nullptr` is 0. -/
structure Arena where
  alloc_ptr_ : Nat
  alloc_bytes_remaining_ : Nat
  blocks_ : List Block
  memory_usage_ : Nat
deriving DecidableEq, Repr

/-- The constructor `Arena::Arena()`. -/
def Arena.new : Arena :=
  { alloc_ptr_ := 0, alloc_bytes_remaining_ := 0, blocks_ := [], memory_usage_ := 0 }

/-- The accessor `Arena::memory_usage()`. -/
def Arena.memory_usage (a : Arena) : Nat := a.memory_usage_

/-- The method `Arena::AllocateNewBlock(block_bytes)`; the counter is advanced
in `size_t` arithmetic. -/
def Arena.AllocateNewBlock (P : Platform) (a : Arena) (block_bytes : Nat) : Nat × Arena :=
  let result := P.newChar a.blocks_.length block_bytes
  (result,
    { a with
      blocks_ := a.blocks_ ++ [⟨result, block_bytes⟩]
      memory_usage_ := (a.memory_usage_ + (block_bytes + P.ptr) % P.sizeMax) % P.sizeMax })

/-- The method `Arena::AllocateFallback(bytes)`. -/
def Arena.AllocateFallback (P : Platform) (a : Arena) (bytes : Nat) : Nat × Arena :=
  if bytes > kBlockSize / 4 then
    a.AllocateNewBlock P bytes
  else
    let (p, a1) := a.AllocateNewBlock P kBlockSize
    (p, { a1 with alloc_ptr_ := p + bytes, alloc_bytes_remaining_ := kBlockSize - bytes })

/-- The method `Arena::Allocate(bytes)`. -/
def Arena.Allocate (P : Platform) (a : Arena) (bytes : Nat) : Except Fault (Nat × Arena) :=
  if ¬ (bytes > 0) then .error .assertion
  else if bytes ≤ a.alloc_bytes_remaining_ then
    .ok (a.alloc_ptr_,
      { a with alloc_ptr_ := a.alloc_ptr_ + bytes
               alloc_bytes_remaining_ := a.alloc_bytes_remaining_ - bytes })
  else .ok (a.AllocateFallback P bytes)

/-- The padding `slop` that `AllocateAligned` computes from `alloc_ptr_`:
`current_mod = alloc_ptr_ & (align - 1)` and
`slop = (current_mod == 0 ? 0 : align - current_mod)`. -/
def Arena.slop (P : Platform) (a : Arena) : Nat :=
  let current_mod := a.alloc_ptr_ &&& (P.align - 1)
  if current_mod = 0 then 0 else P.align - current_mod

/-- The body of `Arena::AllocateAligned(bytes)` up to its closing assertion:
the `result` and the new state. -/
def Arena.AllocateAligned.body (P : Platform) (a : Arena) (bytes : Nat) : Nat × Arena :=
  let slop := a.slop P
  let needed := (bytes + slop) % P.sizeMax
  if needed ≤ a.alloc_bytes_remaining_ then
    (a.alloc_ptr_ + slop,
      { a with alloc_ptr_ := a.alloc_ptr_ + needed
               alloc_bytes_remaining_ := a.alloc_bytes_remaining_ - needed })
  else a.AllocateFallback P bytes

/-- The method `Arena::AllocateAligned(bytes)`, including its closing assertion
`(result & (align - 1)) == 0`. -/
def Arena.AllocateAligned (P : Platform) (a : Arena) (bytes : Nat) :
    Except Fault (Nat × Arena) :=
  let r := Arena.AllocateAligned.body P a bytes
  if r.1 &&& (P.align - 1) = 0 then .ok r else .error .assertion

/-- A call of the public allocation interface. -/
inductive Request where
  | allocate (bytes : Nat)
  | aligned (bytes : Nat)
deriving DecidableEq, Repr

/-- The size a request asks for. -/
def Request.bytes : Request → Nat
  | .allocate n => n
  | .aligned n => n

/-- Whether the request is served from the current block, without a new block. -/
def Arena.fits (P : Platform) (a : Arena) : Request → Bool
  | .allocate n => decide (n ≤ a.alloc_bytes_remaining_)
  | .aligned n => decide ((n + a.slop P) % P.sizeMax ≤ a.alloc_bytes_remaining_)

/-- Serve one request. -/
def Arena.serve (P : Platform) (a : Arena) : Request → Except Fault (Nat × Arena)
  | .allocate n => a.Allocate P n
  | .aligned n => a.AllocateAligned P n

/-- Serve a sequence of requests; returns the addresses handed out and the
final arena. -/
def Arena.run (P : Platform) : Arena → List Request → Except Fault (List Nat × Arena)
  | a, [] => .ok ([], a)
  | a, r :: rs =>
    match a.serve P r with
    | .error e => .error e
    | .ok (p, a1) =>
      match Arena.run P a1 rs with
      | .error e => .error e
      | .ok (ps, a2) => .ok (p :: ps, a2)

/-- The sum over the blocks of block size plus `sizeof(char*)`. -/
def blocksTotal (P : Platform) (bs : List Block) : Nat :=
  (bs.map (fun b => b.size + P.ptr)).sum

/-- A 64-bit platform whose allocator hands out blocks 64 KiB apart. -/
def P64 : Platform := { ptr := 8, newChar := fun k _ => 65536 * (k + 1) }

/-- The arena of the platform `P64` after `Allocate(10)` on a fresh arena. -/
def afterTen : Arena :=
  { alloc_ptr_ := 65546, alloc_bytes_remaining_ := 4086,
    blocks_ := [⟨65536, 4096⟩], memory_usage_ := 4104 }

/-- The arena of the platform `P64` after `Allocate(10)` and `Allocate(4090)` on
a fresh arena. -/
def afterTwo : Arena :=
  { alloc_ptr_ := 65546, alloc_bytes_remaining_ := 4086,
    blocks_ := [⟨65536, 4096⟩, ⟨131072, 4090⟩], memory_usage_ := 8202 }

/-! ## `include/massdb/slice.h`, `util/comparator.cpp` -/

/-- The view `class Slice`: the `size_` bytes that `data_` points to, each byte
as its `unsigned char` value. -/
structure Slice where
  data_ : List Nat
deriving DecidableEq, Repr

/-- The accessor `Slice::size()`. -/
def Slice.size (s : Slice) : Nat := s.data_.length

/-- The library function `memcmp(p, q, n)` on the bytes at `p` and `q`: zero
when the first `n` bytes agree, otherwise the difference of the first pair of
bytes that differ, taken as `unsigned char`.  (Only the sign of a non-zero
result is specified; both callers pass an `n` within both buffers.) -/
def memcmp : List Nat → List Nat → Nat → Int
  | x :: xs, y :: ys, n + 1 => if x = y then memcmp xs ys n else (x : Int) - (y : Int)
  | _, _, _ => 0

/-- The method `Slice::compare(b)`. -/
def Slice.compare (a b : Slice) : Int :=
  let min_len := if a.size < b.size then a.size else b.size
  let res := memcmp a.data_ b.data_ min_len
  if res = 0 then
    if a.size < b.size then -1
    else if a.size > b.size then 1
    else res
  else res

/-- The function `operator==(const Slice&, const Slice&)`. -/
def Slice.operatorEq (x y : Slice) : Bool :=
  x.size == y.size && memcmp x.data_ y.data_ x.size == 0

/-- The method `BytewiseComparatorImpl::Compare(a, b)`. -/
def BytewiseComparator.Compare (a b : Slice) : Int := a.compare b

/-- Byte-wise lexicographic order as the specification words it: the first
mismatching byte decides, and when one sequence is a proper prefix of the other
the shorter one is less. -/
def lexLess : List Nat → List Nat → Bool
  | [], [] => false
  | [], _ :: _ => true
  | _ :: _, [] => false
  | x :: xs, y :: ys => if x < y then true else if y < x then false else lexLess xs ys

/-! ## `include/massdb/status.h`, `util/status.cpp` -/

/-- The enumerator `kOk` of `enum Code`. -/
def kOk : Nat := 0

/-- The enumerator `kNotFound` of `enum Code`. -/
def kNotFound : Nat := 1

/-- The enumerator `kCorruption` of `enum Code`. -/
def kCorruption : Nat := 2

/-- The enumerator `kNotSupported` of `enum Code`. -/
def kNotSupported : Nat := 3

/-- The enumerator `kInvalidArgument` of `enum Code`. -/
def kInvalidArgument : Nat := 4

/-- The enumerator `kIOError` of `enum Code`. -/
def kIOError : Nat := 5

/-- One more than the largest `uint32_t`. -/
def u32 : Nat := 2 ^ 32

/-- The object `class Status`: `state_` is `none` for `nullptr`, otherwise the
bytes of the array it points to; a byte is `none` while nothing has been written
to it since `new char[]`. -/
structure Status where
  state_ : Option (List (Option Nat))
deriving DecidableEq, Repr

/-- The four bytes of a `uint32_t`, as `memcpy(result, &size, sizeof(size))`
stores them (least significant byte first). -/
def enc32 (n : Nat) : List Nat :=
  [n % 256, n / 256 % 256, n / 65536 % 256, n / 16777216 % 256]

/-- The `uint32_t` that `memcpy(&length, state_, sizeof(length))` reads from the
first four bytes of `buf`. -/
def dec32 (buf : List (Option Nat)) : Except Fault Nat :=
  match buf with
  | some a :: some b :: some c :: some d :: _ => .ok (a + 256 * b + 65536 * c + 16777216 * d)
  | _ => .error .undefined

/-- Writing the bytes `src` into `buf` from offset `off` on (`memcpy` into the
array, or a single store `result[off] = c`); outside the array it is undefined. -/
def writeBytes (buf : List (Option Nat)) (off : Nat) (src : List Nat) :
    Except Fault (List (Option Nat)) :=
  if off + src.length ≤ buf.length then
    .ok (buf.take off ++ src.map some ++ buf.drop (off + src.length))
  else .error .undefined

/-- The constructor `Status::Status(Code code, const Slice& msg, const Slice& msg2)`;
the `uint32_t` computations are reduced modulo `2^32`. -/
def Status.new (code : Nat) (msg msg2 : Slice) : Except Fault Status :=
  if ¬ (code ≠ kOk) then .error .assertion
  else
    let len1 := msg.size % u32
    let len2 := msg2.size % u32
    let size := (len1 + (if len2 ≠ 0 then (2 + len2) % u32 else 0)) % u32
    let result : List (Option Nat) := List.replicate ((size + 5) % u32) none
    (writeBytes result 0 (enc32 size)).bind fun r1 =>
    (writeBytes r1 4 [code % 256]).bind fun r2 =>
    (writeBytes r2 5 (msg.data_.take len1)).bind fun r3 =>
    if len2 ≠ 0 then
      (writeBytes r3 ((5 + len1) % u32) [58]).bind fun r4 =>     -- ':'
      (writeBytes r4 ((6 + len2) % u32) [32]).bind fun r5 =>     -- ' '
      (writeBytes r5 (7 + len1) (msg2.data_.take len2)).bind fun r6 =>
      .ok ⟨some r6⟩
    else .ok ⟨some r3⟩

/-- The default constructor `Status()` and the factory `Status::Ok()`. -/
def Status.Ok : Status := ⟨none⟩

/-- The factory `Status::NotFound(msg, msg2)`. -/
def Status.NotFound (msg msg2 : Slice) : Except Fault Status := Status.new kNotFound msg msg2

/-- The factory `Status::Corruption(msg, msg2)`. -/
def Status.Corruption (msg msg2 : Slice) : Except Fault Status :=
  Status.new kCorruption msg msg2

/-- The factory `Status::NotSupported(msg, msg2)`. -/
def Status.NotSupported (msg msg2 : Slice) : Except Fault Status :=
  Status.new kNotSupported msg msg2

/-- The factory `Status::InvalidArgument(msg, msg2)`. -/
def Status.InvalidArgument (msg msg2 : Slice) : Except Fault Status :=
  Status.new kInvalidArgument msg msg2

/-- The factory `Status::IOError(msg, msg2)`. -/
def Status.IOError (msg msg2 : Slice) : Except Fault Status := Status.new kIOError msg msg2

/-- The method `Status::code()`. -/
def Status.code (s : Status) : Except Fault Nat :=
  match s.state_ with
  | none => .ok kOk
  | some buf =>
    match buf[4]? with
    | some (some c) => .ok c
    | _ => .error .undefined

/-- The method `Status::IsOk()`. -/
def Status.IsOk (s : Status) : Bool := s.state_.isNone

/-- The method `Status::IsNotFound()`. -/
def Status.IsNotFound (s : Status) : Except Fault Bool := s.code.map (· == kNotFound)

/-- The method `Status::IsCorruption()`. -/
def Status.IsCorruption (s : Status) : Except Fault Bool := s.code.map (· == kCorruption)

/-- The method `Status::IsIOError()`. -/
def Status.IsIOError (s : Status) : Except Fault Bool := s.code.map (· == kIOError)

/-- The method `Status::IsNotSupportedError()`. -/
def Status.IsNotSupportedError (s : Status) : Except Fault Bool :=
  s.code.map (· == kNotSupported)

/-- The method `Status::IsInvalidArgument()`. -/
def Status.IsInvalidArgument (s : Status) : Except Fault Bool :=
  s.code.map (· == kInvalidArgument)

/-- The character codes of a string literal. -/
def bytesOf (s : String) : List Nat := s.toList.map Char.toNat

/-- The `type` prefix that `Status::ToString` selects for the code byte `c` of a
non-null state; the `default` case prints the code as a decimal `int`, the byte
being a signed `char`. -/
def typePrefix (c : Nat) : List Nat :=
  if c = kOk then bytesOf "OK"
  else if c = kNotFound then bytesOf "NotFound: "
  else if c = kCorruption then bytesOf "Corruption: "
  else if c = kNotSupported then bytesOf "Not implemented: "
  else if c = kInvalidArgument then bytesOf "Invalid argument: "
  else if c = kIOError then bytesOf "IO error: "
  else bytesOf "Unknown code("
    ++ (if c < 128 then bytesOf (Nat.repr c) else bytesOf "-" ++ bytesOf (Nat.repr (256 - c)))
    ++ bytesOf "): "

/-- The bytes `state_[5 .. 5 + length)` that `Status::ToString` appends after the
prefix, where `length` is read from the first four bytes; a byte is `none` when
it was never written. -/
def Status.message (s : Status) : Except Fault (List (Option Nat)) :=
  match s.state_ with
  | none => .ok []
  | some buf =>
    (dec32 buf).bind fun length =>
    if 5 + length ≤ buf.length then .ok ((buf.drop 5).take length) else .error .undefined

/-- Reading bytes: undefined when one of them was never written. -/
def readAll : List (Option Nat) → Except Fault (List Nat)
  | [] => .ok []
  | none :: _ => .error .undefined
  | some b :: rest => (readAll rest).bind fun l => .ok (b :: l)

/-- The method `Status::ToString()`. -/
def Status.ToString (s : Status) : Except Fault (List Nat) :=
  match s.state_ with
  | none => .ok (bytesOf "OK")
  | some _ =>
    s.code.bind fun c =>
    s.message.bind fun cells =>
    (readAll cells).bind fun m => .ok (typePrefix c ++ m)

/-- The message the two fragments should give: `msg`, then `": "`, then `msg2`. -/
def joined (msg msg2 : Slice) : List Nat := msg.data_ ++ bytesOf ": " ++ msg2.data_

/-- The answers of the six predicates `IsOk`, `IsNotFound`, `IsCorruption`,
`IsNotSupportedError`, `IsInvalidArgument` and `IsIOError` on `st`, in this
order. -/
def Status.reports (st : Status) (ok nf co ns ia io : Bool) : Prop :=
  st.IsOk = ok ∧ st.IsNotFound = .ok nf ∧ st.IsCorruption = .ok co ∧
  st.IsNotSupportedError = .ok ns ∧ st.IsInvalidArgument = .ok ia ∧ st.IsIOError = .ok io

/-! ## `Insert` as a sequence of stores -/

/-- The linking loop of `Insert` (see `Insert.link`), returning the state after
each of its stores: for every level first the store into the new node
(`x->NoBarrier_SetNext`), then the store into the predecessor
(`prev[i]->SetNext`). -/
def Insert.linkTrace (prev : List (Option Nat)) (x : Nat) :
    Nat → Nat → SkipList K → Except Fault (List (SkipList K))
  | _, 0, _ => .ok []
  | i, count + 1, s =>
    match prev[i]? with
    | some (some p) =>
      match s.Next p i with
      | .error e => .error e
      | .ok nx =>
        match s.SetNext x i nx with
        | .error e => .error e
        | .ok s1 =>
          match s1.SetNext p i (some x) with
          | .error e => .error e
          | .ok s2 =>
            match Insert.linkTrace prev x (i + 1) count s2 with
            | .error e => .error e
            | .ok rest => .ok (s1 :: s2 :: rest)
    | _ => .error .undefined

/-- The method `SkipList::Insert(key)` (see `Insert`), returning the state after
each step that changes the list: the store to `max_height_`, the construction of
the new node, and the stores of the linking loop. -/
def Insert.trace (cmp : K → K → Int) (fuel : Nat) (s : SkipList K) (key : K) (height : Nat) :
    Except Fault (List (SkipList K)) :=
  match FindGreaterOrEqual cmp fuel s key (some (List.replicate kMaxHeight none)) with
  | .error e => .error e
  | .ok (_, none) => .error .undefined
  | .ok (x, some prev) =>
    match Insert.check cmp s key x with
    | .error e => .error e
    | .ok false => .error .assertion
    | .ok true =>
      match (if height > s.GetMaxHeight then
               Insert.fill prev s.GetMaxHeight (height - s.GetMaxHeight)
             else .ok prev) with
      | .error e => .error e
      | .ok prev1 =>
        let s1 : SkipList K :=
          if height > s.GetMaxHeight then { s with max_height_ := height } else s
        match NewNode s1 key height with
        | .error e => .error e
        | .ok (xn, s2) =>
          match Insert.linkTrace prev1 xn 0 height s2 with
          | .error e => .error e
          | .ok tr => .ok (s1 :: s2 :: tr)

/-- The last state of the run `s :: tr`. -/
def lastSt : SkipList K → List (SkipList K) → SkipList K
  | s, [] => s
  | _, t :: tr => lastSt t tr

/-- What a reader may rely on in a state `t` met while `key` is being inserted
into the list `s` with nodes `l`: the keys of the old nodes are unchanged; the
level-0 chain holds every old node and, besides them, at most the new node
`s.nodes.length` with key `key`; and the chain of every level is strictly
increasing and runs through nodes of the level-0 chain only. -/
def ReaderSafe [LinearOrder K] (k0 : K) (s : SkipList K) (l : List Nat) (key : K)
    (t : SkipList K) : Prop :=
  (∀ i ∈ l, t.keyD k0 i = s.keyD k0 i) ∧
  ∃ c0, Linked t 0 head_ c0 ∧ (∀ i ∈ l, i ∈ c0) ∧
    (∀ i ∈ c0, i ∈ l ∨ (i = s.nodes.length ∧ t.keyD k0 i = key)) ∧
    ∀ L, L < kMaxHeight → ∃ c, Linked t L head_ c ∧ c.length ≤ l.length + 1 ∧
      c.Pairwise (fun i j => t.keyD k0 i < t.keyD k0 j) ∧ ∀ y ∈ c, y ∈ c0

/-! ## Rounding, blocks and regions of the arena -/

/-- The size `n` rounded up to a multiple of `A`, as the specification words
it. -/
def roundUp (n A : Nat) : Nat := (n + A - 1) / A * A

/-- The addresses of regions of the sizes `ms` laid out back to back from the
address `p`. -/
def backToBack : Nat → List Nat → List Nat
  | _, [] => []
  | p, m :: ms => p :: backToBack (p + m) ms

/-! ## `Slice::~Slice` and `BytewiseComparatorImpl::FindShortestSeparator` -/

/-- Where the bytes that the `data_` pointer of a `Slice` points to come from. -/
inductive Storage where
  | newArray      -- an array created by `new char[]`
  | stringBuffer  -- the buffer of a `std::string`, as returned by `c_str()`
  | literal       -- a string literal
deriving DecidableEq, Repr

/-- The destructor `Slice::~Slice()`: `delete[] data_; size_ = 0;`.  The
`delete[]` is defined only for a pointer that `new char[]` returned. -/
def Slice.destroy (storage : Storage) : Except Fault Unit :=
  match storage with
  | .newArray => .ok ()
  | .stringBuffer => .error .undefined
  | .literal => .error .undefined

/-- The member `std::string::resize(n)` on a byte string: truncation to `n`
bytes, or padding with zero bytes up to `n`. -/
def resize (s : List Nat) (n : Nat) : List Nat :=
  s.take n ++ List.replicate (n - s.length) 0

/-- The loop of `FindShortestSeparator`:
`while ((diff_index < min_length) && ((*start)[diff_index] == limit[diff_index])) diff_index++;`
returning the final `diff_index`.  `fuel` bounds the number of evaluations of the
loop condition. -/
def BytewiseComparator.FindShortestSeparator.loop (start limit : List Nat) (min_length : Nat) :
    Nat → Nat → Except Fault Nat
  | 0, _ => .error .fuel
  | fuel + 1, diff_index =>
    if diff_index < min_length then
      match start[diff_index]?, limit[diff_index]? with
      | some x, some y =>
        if x = y then
          BytewiseComparator.FindShortestSeparator.loop start limit min_length fuel
            (diff_index + 1)
        else .ok diff_index
      | _, _ => .error .undefined
    else .ok diff_index

/-- The method `BytewiseComparatorImpl::FindShortestSeparator(start, limit)`:
takes the content of `*start` and returns the content it leaves in `*start`.  The
loop condition is evaluated at most `min_length + 1` times.  In
`assert(Compare(*start, limit) < 0)` the argument `*start` is converted to a
temporary `Slice(const std::string&)`, whose `data_` is the buffer of the string;
the temporary is destroyed when the asserted expression has been evaluated. -/
def BytewiseComparator.FindShortestSeparator (start : List Nat) (limit : Slice) :
    Except Fault (List Nat) :=
  let min_length := min start.length limit.size
  match BytewiseComparator.FindShortestSeparator.loop start limit.data_ min_length
      (min_length + 1) 0 with
  | .error e => .error e
  | .ok diff_index =>
    if diff_index ≥ min_length then .ok start
    else
      match start[diff_index]?, limit.data_[diff_index]? with
      | some diff_byte, some limit_byte =>
        if diff_byte < 0xff ∧ diff_byte + 1 < limit_byte then
          -- (*start)[diff_index]++ and start->resize(diff_index + 1)
          let start1 := resize (start.set diff_index ((diff_byte + 1) % 256)) (diff_index + 1)
          if BytewiseComparator.Compare ⟨start1⟩ limit < 0 then
            match Slice.destroy .stringBuffer with       -- the temporary made from `*start`
            | .error e => .error e
            | .ok _ => .ok start1
          else .error .assertion
        else .ok start
      | _, _ => .error .undefined

/-! ## The constructor `SkipList::SkipList` member by member -/

/-- The non-static data members of `class SkipList`. -/
inductive Member where
  | head_
  | compare_
  | arena_
  | rnd_
  | max_height_
deriving DecidableEq, Repr

/-- The members in the order of their declaration in the class (skiptlist.h,
lines 62 to 68).  A constructor initialises the members in this order, whatever
the order of its mem-initializers. -/
def declarationOrder : List Member := [.head_, .compare_, .arena_, .rnd_, .max_height_]

/-- The members in the order in which the constructor lists its mem-initializers
(skiptlist.cpp, lines 11 to 15). -/
def initializerListOrder : List Member :=
  [.compare_, .arena_, .head_, .max_height_, .rnd_]

/-- A `SkipList` object under construction: a member is `none` as long as its
initialiser has not run (its value is indeterminate).  Pointers are addresses. -/
structure Object (K : Type) where
  head_ : Option Nat
  compare_ : Option (K → K → Int)
  arena_ : Option Nat
  rnd_ : Option Random
  max_height_ : Option Nat

/-- The memory outside the object: the `Arena` objects, `arenas[p]` being the
arena at address `p`, and the nodes constructed in arena memory, each with the
address it was placed at. -/
structure Memory (K : Type) where
  arenas : List Arena
  nodes : List (Nat × Node K)

/-- The modifier `Node::SetNext(n, v)` on the node placed at address `x`. -/
def Memory.SetNext (m : Memory K) (x n : Nat) (v : Option Nat) : Except Fault (Memory K) :=
  match m.nodes.lookup x with
  | none => .error .undefined
  | some nd =>
    if n < nd.next_.length then
      .ok { m with nodes := m.nodes.map (fun e =>
              if e.1 = x then (x, { nd with next_ := nd.next_.set n (some v) }) else e) }
    else .error .undefined

/-- The method `SkipList::NewNode(key, height)` run on the object `o`:
`arena_->AllocateAligned(sizeof(Node) + sizeof(std::atomic<Node*>) * (height - 1))`
followed by the placement of `Node(key)`, whose links are not written.
`sizeofNode` is `sizeof(Node)` for the key type, an atomic pointer has the size
of a pointer, and the size is computed in `size_t`. -/
def Object.NewNode (P : Platform) (sizeofNode : Nat) (o : Object K) (m : Memory K) (key : K)
    (height : Nat) : Except Fault (Nat × Memory K) :=
  match o.arena_ with
  | none => .error .undefined          -- `arena_` is read before it is initialised
  | some ap =>
    match m.arenas[ap]? with
    | none => .error .undefined
    | some a =>
      let links := (height + P.sizeMax - 1) % P.sizeMax        -- (size_t)(height - 1)
      let bytes := (sizeofNode + (P.ptr * links) % P.sizeMax) % P.sizeMax
      match a.AllocateAligned P bytes with
      | .error e => .error e
      | .ok (node_memory, a1) =>
        .ok (node_memory,
          { arenas := m.arenas.set ap a1,
            nodes := (node_memory, ⟨key, List.replicate height none⟩) :: m.nodes })

/-- One mem-initializer of the constructor, for the member it names:
`compare_(cmp)`, `arena_(arena)`, `head_(NewNode(0, kMaxHeight))`,
`max_height_(1)`, `rnd_(0xdeadbeef)`; `k0` is the key made from `0`. -/
def Object.init (P : Platform) (sizeofNode : Nat) (cmp : K → K → Int) (arena : Nat) (k0 : K)
    (o : Object K) (m : Memory K) : Member → Except Fault (Object K × Memory K)
  | .compare_ => .ok ({ o with compare_ := some cmp }, m)
  | .arena_ => .ok ({ o with arena_ := some arena }, m)
  | .head_ =>
    match o.NewNode P sizeofNode m k0 kMaxHeight with
    | .error e => .error e
    | .ok (p, m1) => .ok ({ o with head_ := some p }, m1)
  | .max_height_ => .ok ({ o with max_height_ := some 1 }, m)
  | .rnd_ => .ok ({ o with rnd_ := some (Random.new 0xdeadbeef) }, m)

/-- Run the mem-initializers of the members in the given order. -/
def Object.initAll (P : Platform) (sizeofNode : Nat) (cmp : K → K → Int) (arena : Nat)
    (k0 : K) : List Member → Object K → Memory K → Except Fault (Object K × Memory K)
  | [], o, m => .ok (o, m)
  | x :: xs, o, m =>
    match o.init P sizeofNode cmp arena k0 m x with
    | .error e => .error e
    | .ok (o1, m1) => Object.initAll P sizeofNode cmp arena k0 xs o1 m1

/-- The body of the constructor:
`for (int i = 0; i < kMaxHeight; i++) head_->SetNext(i, nullptr);`, the first
argument counting the iterations left. -/
def SkipList.construct.body (head : Nat) : Nat → Nat → Memory K → Except Fault (Memory K)
  | 0, _, m => .ok m
  | left + 1, i, m =>
    match m.SetNext head i none with
    | .error e => .error e
    | .ok m1 => SkipList.construct.body head left (i + 1) m1

/-- A construction `SkipList(cmp, arena)` that initialises the members in the
given order and then runs the constructor body. -/
def SkipList.construct (order : List Member) (P : Platform) (sizeofNode : Nat)
    (cmp : K → K → Int) (arena : Nat) (k0 : K) (m : Memory K) :
    Except Fault (Object K × Memory K) :=
  match Object.initAll P sizeofNode cmp arena k0 order ⟨none, none, none, none, none⟩ m with
  | .error e => .error e
  | .ok (o, m1) =>
    match o.head_ with
    | none => .error .undefined
    | some head =>
      match SkipList.construct.body head kMaxHeight 0 m1 with
      | .error e => .error e
      | .ok m2 => .ok (o, m2)

/-- The constructor `SkipList::SkipList(Comparator cmp, Arena* arena)` as the
language runs it: members are initialised in the order of their declaration. -/
def SkipList.ctor (P : Platform) (sizeofNode : Nat) (cmp : K → K → Int) (arena : Nat)
    (k0 : K) (m : Memory K) : Except Fault (Object K × Memory K) :=
  SkipList.construct declarationOrder P sizeofNode cmp arena k0 m

/-- What a construction over the memory `m` leaves behind, for comparison: the
members `head_`, `arena_` and `max_height_`, the arenas, and the link slots of the
node at `head_`. -/
def constructed (r : Except Fault (Object Int × Memory Int)) :
    Option (Option Nat × Option Nat × Option Nat × List Arena ×
      Option (List (Option (Option Nat)))) :=
  match r with
  | .error _ => none
  | .ok (o, m) =>
    some (o.head_, o.arena_, o.max_height_, m.arenas,
      (o.head_.bind (fun h => m.nodes.lookup h)).map (fun nd => nd.next_))

/-! ## Regions handed out by the arena -/

/-- The address ranges `[p, p + n)` and `[q, q + m)` do not overlap. -/
abbrev apart (p n q m : Nat) : Prop := p + n ≤ q ∨ q + m ≤ p

/-- Two blocks occupy disjoint address ranges. -/
abbrev blockApart (b c : Block) : Prop := apart b.base b.size c.base c.size

/-- The range `[p, p + n)` lies inside the block `b`. -/
abbrev Block.holds (b : Block) (p n : Nat) : Prop := b.base ≤ p ∧ p + n ≤ b.base + b.size

/-- The regions handed out by a run: every returned address with the size of its
request. -/
def regions (addrs : List Nat) (reqs : List Request) : List (Nat × Nat) :=
  addrs.zip (reqs.map Request.bytes)

/-- The state of an arena against the regions `U` handed out so far: every region
lies inside a block, the regions do not overlap, and the unused tail
`[alloc_ptr_, alloc_ptr_ + alloc_bytes_remaining_)` of the active block, when not
empty, lies inside a block and overlaps no region. -/
structure ArenaInv (a : Arena) (U : List (Nat × Nat)) : Prop where
  inside : ∀ r ∈ U, ∃ b ∈ a.blocks_, b.holds r.1 r.2
  pairwise : U.Pairwise (fun x y => apart x.1 x.2 y.1 y.2)
  free_inside : 0 < a.alloc_bytes_remaining_ →
    ∃ b ∈ a.blocks_, b.holds a.alloc_ptr_ a.alloc_bytes_remaining_
  free_apart : 0 < a.alloc_bytes_remaining_ →
    ∀ r ∈ U, apart r.1 r.2 a.alloc_ptr_ a.alloc_bytes_remaining_

/-! ## Programs: construct a list, then use it -/

/-- The list that a constructed object is for the operations of this file, which
number the nodes in the order `NewNode` hands them out: after construction the
only node is the head, node `head_ = 0`, found in memory at the address held by
the member `head_`. -/
def SkipList.ofObject (o : Object K) (m : Memory K) : Except Fault (SkipList K) :=
  match o.head_, o.max_height_ with
  | some h, some mh =>
    match m.nodes.lookup h with
    | some nd => .ok { nodes := [nd], max_height_ := mh }
    | none => .error .undefined
  | _, _ => .error .undefined

/-- A program that constructs `SkipList(cmp, arena)`, the members being
initialised in the given order, and then runs `body` on the list.  With
`declarationOrder` the construction is `SkipList.ctor`, the constructor as the
language runs it. -/
def SkipList.constructThen {α : Type} (order : List Member) (P : Platform) (sizeofNode : Nat)
    (cmp : K → K → Int) (arena : Nat) (k0 : K) (m : Memory K)
    (body : SkipList K → Except Fault α) : Except Fault α :=
  match SkipList.construct order P sizeofNode cmp arena k0 m with
  | .error e => .error e
  | .ok (o, m1) =>
    match SkipList.ofObject o m1 with
    | .error e => .error e
    | .ok s => body s

/-- Insert the keys `khs`, then read `max_height_`. -/
def maxHeightAfter (cmp : K → K → Int) (fuel : Nat) (khs : List (K × Nat))
    (s : SkipList K) : Except Fault Nat :=
  match insertAll cmp fuel s khs with
  | .error e => .error e
  | .ok t => .ok t.GetMaxHeight

theorem lastOf_append_cons (x y : Nat) (a b : List Nat) :
    lastOf x (a ++ y :: b) = lastOf y b := by
  induction a generalizing x with
  | nil => rfl
  | cons z a ih => exact ih z

theorem lastOf_append_nil_filter (x : Nat) (a b : List Nat) (hb : b = []) :
    lastOf x (a ++ b) = lastOf x a := by
  subst hb; simp

theorem lastOf_mem (x : Nat) (c : List Nat) : lastOf x c = x ∨ lastOf x c ∈ c := by
  induction c generalizing x with
  | nil => exact Or.inl rfl
  | cons y c ih =>
    rcases ih y with h | h
    · right; simp [lastOf, h]
    · right; simp [lastOf, h]

theorem Linked.slot_eq {s : SkipList K} {L x : Nat} {c : List Nat} (h : Linked s L x c) :
    s.slot x L = some c.head? := by
  cases c with
  | nil => exact h
  | cons y c => exact h.1

theorem Linked.suffix {s : SkipList K} {L : Nat} {x y : Nat} {a b : List Nat}
    (h : Linked s L x (a ++ y :: b)) : Linked s L y b := by
  induction a generalizing x with
  | nil => exact h.2
  | cons z a ih => exact ih h.2

theorem Linked.at_last {s : SkipList K} {L : Nat} {x : Nat} {a b : List Nat}
    (h : Linked s L x (a ++ b)) : Linked s L (lastOf x a) b := by
  induction a generalizing x with
  | nil => exact h
  | cons z a ih => exact ih h.2

theorem Linked.congr {s t : SkipList K} {L : Nat} {x : Nat} {c : List Nat}
    (hs : ∀ z, z = x ∨ z ∈ c → t.slot z L = s.slot z L) (h : Linked s L x c) :
    Linked t L x c := by
  induction c generalizing x with
  | nil =>
    show t.slot x L = some none
    rw [hs x (Or.inl rfl)]; exact h
  | cons y c ih =>
    refine ⟨?_, ih (fun z hz => hs z ?_) h.2⟩
    · rw [hs x (Or.inl rfl)]; exact h.1
    · rcases hz with hz | hz
      · exact Or.inr (by simp [hz])
      · exact Or.inr (by simp [hz])

theorem Next_of_slot {s : SkipList K} {x n : Nat} {p : Option Nat}
    (h : s.slot x n = some p) : s.Next x n = .ok p := by
  simp [SkipList.Next, h]

theorem chainFrom_of_Linked {s : SkipList K} {L : Nat} {c : List Nat} :
    ∀ (x fuel : Nat), Linked s L x c → c.length < fuel → s.chainFrom L fuel x = .ok c := by
  induction c with
  | nil =>
    intro x fuel h hf
    obtain ⟨f, rfl⟩ : ∃ f, fuel = f + 1 := ⟨fuel - 1, by simp at hf; omega⟩
    have h1 : s.slot x L = some none := h
    simp [SkipList.chainFrom, Next_of_slot h1]
  | cons y c ih =>
    intro x fuel h hf
    obtain ⟨f, rfl⟩ : ∃ f, fuel = f + 1 := ⟨fuel - 1, by simp at hf; omega⟩
    have h1 : s.slot x L = some (some y) := h.1
    have h2 := ih y f h.2 (by simp at hf; omega)
    simp [SkipList.chainFrom, Next_of_slot h1, h2]

/-! ## Effect of the primitive writes -/

theorem slot_lt_height {s : SkipList K} {x n : Nat} {p : Option Nat}
    (h : s.slot x n = some p) : n < s.height x := by
  unfold SkipList.slot at h
  unfold SkipList.height
  cases hx : s.nodes[x]? with
  | none => simp [hx] at h
  | some nd =>
    simp only [hx] at h ⊢
    by_contra hlt
    have : nd.next_[n]? = none := List.getElem?_eq_none (by omega)
    simp [this] at h

theorem height_pos_lt_length {s : SkipList K} {x : Nat} (h : 0 < s.height x) :
    x < s.nodes.length := by
  unfold SkipList.height at h
  cases hx : s.nodes[x]? with
  | none => simp [hx] at h
  | some nd =>
    by_contra hlt
    have : s.nodes[x]? = none := List.getElem?_eq_none (by omega)
    simp [this] at hx

theorem keyAt_of_lt {s : SkipList K} (k0 : K) {x : Nat} (h : x < s.nodes.length) :
    s.keyAt x = .ok (s.keyD k0 x) := by
  unfold SkipList.keyAt SkipList.keyD
  simp [List.getElem?_eq_getElem h]

/-- What a successful `SetNext` changes and what it leaves alone. -/
theorem SetNext_spec (k0 : K) {s : SkipList K} {x n : Nat} (v : Option Nat)
    (h : n < s.height x) :
    ∃ t, s.SetNext x n v = .ok t ∧ t.max_height_ = s.max_height_ ∧
      t.nodes.length = s.nodes.length ∧ (∀ y, t.height y = s.height y) ∧
      (∀ y, t.keyD k0 y = s.keyD k0 y) ∧ t.slot x n = some v ∧
      (∀ y m, (y ≠ x ∨ m ≠ n) → t.slot y m = s.slot y m) := by
  have hx := height_pos_lt_length (Nat.lt_of_le_of_lt (Nat.zero_le _) h)
  unfold SkipList.height at h
  simp only [List.getElem?_eq_getElem hx] at h
  refine ⟨⟨s.nodes.set x ⟨s.nodes[x].key, s.nodes[x].next_.set n (some v)⟩, s.max_height_⟩,
    by simp [SkipList.SetNext, List.getElem?_eq_getElem hx, h], rfl, by simp, ?_, ?_, ?_, ?_⟩
  · intro y
    unfold SkipList.height
    by_cases hy : x = y
    · subst hy; simp [List.getElem?_set, hx]
    · simp [List.getElem?_set_ne hy]
  · intro y
    unfold SkipList.keyD
    by_cases hy : x = y
    · subst hy; simp [List.getElem?_set, hx]
    · simp [List.getElem?_set_ne hy]
  · unfold SkipList.slot
    simp [List.getElem?_set, hx, h, List.getElem?_eq_getElem]
  · intro y m hym
    unfold SkipList.slot
    by_cases hy : x = y
    · subst hy
      have hm : n ≠ m := by
        rcases hym with h1 | h1
        · exact absurd rfl h1
        · exact fun e => h1 e.symm
      simp [List.getElem?_set, hx, List.getElem?_set_ne hm]
    · simp [List.getElem?_set_ne hy]

theorem SetNext_shape {s t : SkipList K} {x n : Nat} {v : Option Nat}
    (h : s.SetNext x n v = .ok t) : t.shape = s.shape := by
  unfold SkipList.SetNext at h
  cases hx : s.nodes[x]? with
  | none => simp [hx] at h
  | some nd =>
    simp only [hx] at h
    by_cases hn : n < nd.next_.length
    · simp only [hn, if_true] at h
      cases h
      simp only [SkipList.shape, List.map_set, List.length_set]
      apply List.ext_getElem?
      intro y
      by_cases hy : x = y
      · subst hy
        simp [List.getElem?_set, hx]
        exact (List.getElem?_eq_some_iff.mp hx).1
      · simp [List.getElem?_set_ne hy]
    · simp [hn] at h

/-- What `NewNode` changes and what it leaves alone. -/
theorem NewNode_spec (k0 : K) (s : SkipList K) (key : K) {height : Nat} (h : 0 < height) :
    ∃ t, NewNode s key height = .ok (s.nodes.length, t) ∧ t.max_height_ = s.max_height_ ∧
      t.nodes = s.nodes ++ [⟨key, List.replicate height none⟩] ∧
      (∀ y, y < s.nodes.length → t.height y = s.height y) ∧
      (∀ y, y < s.nodes.length → t.keyD k0 y = s.keyD k0 y) ∧
      (∀ y m, y < s.nodes.length → t.slot y m = s.slot y m) ∧
      t.height s.nodes.length = height ∧ t.keyD k0 s.nodes.length = key := by
  refine ⟨⟨s.nodes ++ [⟨key, List.replicate height none⟩], s.max_height_⟩,
    by simp [NewNode, Nat.pos_iff_ne_zero.mp h], rfl, rfl, ?_, ?_, ?_, ?_, ?_⟩
  · intro y hy; unfold SkipList.height; simp [List.getElem?_append_left hy]
  · intro y hy; unfold SkipList.keyD; simp [List.getElem?_append_left hy]
  · intro y m hy; unfold SkipList.slot; simp [List.getElem?_append_left hy]
  · unfold SkipList.height; simp
  · unfold SkipList.keyD; simp

/-! ## The representation invariant -/

theorem atLevel_append (s : SkipList K) (L : Nat) (a b : List Nat) :
    atLevel s L (a ++ b) = atLevel s L a ++ atLevel s L b := by
  simp [atLevel]

theorem atLevel_cons_of_lt (s : SkipList K) {L y : Nat} (b : List Nat) (h : L < s.height y) :
    atLevel s L (y :: b) = y :: atLevel s L b := by
  simp [atLevel, h]

theorem atLevel_cons_of_not_lt (s : SkipList K) {L y : Nat} (b : List Nat)
    (h : ¬ L < s.height y) : atLevel s L (y :: b) = atLevel s L b := by
  simp [atLevel, h]

theorem atLevel_eq_nil (s : SkipList K) {L : Nat} {a : List Nat}
    (h : ∀ z ∈ a, ¬ L < s.height z) : atLevel s L a = [] := by
  simp only [atLevel, List.filter_eq_nil_iff]
  intro z hz; simpa using h z hz

theorem atLevel_zero [LinearOrder K] {k0 : K} {s : SkipList K} {x level : Nat} {q : List Nat}
    (h : Scan k0 s x level q) : atLevel s 0 q = q := by
  simp only [atLevel, List.filter_eq_self]
  intro z hz; simpa using (h.valid z hz).2

theorem mem_atLevel {s : SkipList K} {L z : Nat} {a : List Nat} :
    z ∈ atLevel s L a ↔ z ∈ a ∧ L < s.height z := by
  simp [atLevel]

theorem Scan.descend [LinearOrder K] {k0 : K} {s : SkipList K} {x level : Nat} {q : List Nat}
    (h : Scan k0 s x (level + 1) q) : Scan k0 s x level q :=
  ⟨h.valid, h.sorted, fun L hL => h.links L (by omega)⟩

/-- Moving right along level `level` to the next node `y` of that level. -/
theorem Scan.advance [LinearOrder K] {k0 : K} {s : SkipList K} {x level y : Nat}
    {q : List Nat} (h : Scan k0 s x level q) (hy : (atLevel s level q).head? = some y) :
    ∃ q1 q2, q = q1 ++ y :: q2 ∧ (∀ z ∈ q1, ¬ level < s.height z) ∧ level < s.height y ∧
      Scan k0 s y level q2 ∧ (∀ z ∈ q1, s.keyD k0 z < s.keyD k0 y) := by
  obtain ⟨r, hr⟩ : ∃ r, atLevel s level q = y :: r := by
    cases hc : atLevel s level q with
    | nil => simp [hc] at hy
    | cons a r => simp [hc] at hy; exact ⟨r, by rw [hy]⟩
  obtain ⟨q1, q2, hq, h1, h2, -⟩ := List.filter_eq_cons_iff.mp hr
  have hly : level < s.height y := by simpa using h2
  have hsort := h.sorted
  rw [hq, List.pairwise_append] at hsort
  refine ⟨q1, q2, hq, fun z hz => by simpa using h1 z hz, hly, ⟨?_, ?_, ?_⟩, ?_⟩
  · intro z hz; exact h.valid z (by simp [hq, hz])
  · exact (List.pairwise_cons.mp hsort.2.1).2
  · intro L hL
    have hlk := h.links L hL
    rw [hq, atLevel_append, atLevel_cons_of_lt s q2 (by omega : L < s.height y)] at hlk
    exact hlk.suffix
  · intro z hz; exact hsort.2.2 z hz y (by simp)

/-- When the head of a sorted list is not below `key`, no element is. -/
theorem not_lt_of_head [LinearOrder K] {f : Nat → K} {key : K} {c : List Nat}
    (hs : c.Pairwise (fun i j => f i < f j))
    (hh : ∀ y, c.head? = some y → ¬ f y < key) : ∀ z ∈ c, ¬ f z < key := by
  cases c with
  | nil => intro z hz; simp at hz
  | cons y c =>
    intro z hz
    have h0 := hh y rfl
    rcases List.mem_cons.mp hz with rfl | hz
    · exact h0
    · have := (List.pairwise_cons.mp hs).1 z hz
      exact fun hlt => h0 (lt_trans this hlt)

theorem atLevel_pairwise [LinearOrder K] {k0 : K} {s : SkipList K} {L : Nat} {q : List Nat}
    (h : q.Pairwise (fun i j => s.keyD k0 i < s.keyD k0 j)) :
    (atLevel s L q).Pairwise (fun i j => s.keyD k0 i < s.keyD k0 j) :=
  h.sublist (List.filter_sublist q)

/-! ## `FindGreaterOrEqual` -/

theorem FGE_loop_advance (cmp : K → K → Int) (s : SkipList K) (key : K) (fuel : Nat)
    {x level y : Nat}
    (prev : Option (List (Option Nat))) {k : K}
    (hn : s.Next x level = .ok (some y)) (hk : s.keyAt y = .ok k) (hlt : cmp k key < 0) :
    FindGreaterOrEqual.loop cmp s key (fuel + 1) x level prev =
      FindGreaterOrEqual.loop cmp s key fuel y level prev := by
  simp [FindGreaterOrEqual.loop, hn, KeyIsAfterNode, hk, hlt]

theorem FGE_loop_stop (cmp : K → K → Int) (s : SkipList K) (key : K) (fuel : Nat)
    {x level : Nat}
    {prev prev1 : Option (List (Option Nat))} {nx : Option Nat}
    (hn : s.Next x level = .ok nx) (hk : KeyIsAfterNode cmp s key nx = .ok false)
    (hw : writePrev prev level x = .ok prev1) :
    FindGreaterOrEqual.loop cmp s key (fuel + 1) x level prev =
      if level = 0 then .ok (nx, prev1)
      else FindGreaterOrEqual.loop cmp s key fuel x (level - 1) prev1 := by
  simp [FindGreaterOrEqual.loop, hn, hk, hw]

/-- The test `KeyIsAfterNode` on the successor found by a scan. -/
theorem KeyIsAfterNode_eq [LinearOrder K] {cmp : K → K → Int} (hc : LawfulCmp cmp) (k0 : K)
    (s : SkipList K) (key : K) {q : List Nat} (hv : ∀ y ∈ q, y < s.nodes.length)
    {nx : Option Nat} (hnx : ∀ y, nx = some y → y ∈ q) :
    KeyIsAfterNode cmp s key nx =
      .ok (decide (∃ y, nx = some y ∧ s.keyD k0 y < key)) := by
  cases nx with
  | none => simp [KeyIsAfterNode]
  | some y =>
    have hy := hv y (hnx y rfl)
    simp [KeyIsAfterNode, keyAt_of_lt k0 hy, (hc _ _).1]

/-- Specification of the loop of `FindGreaterOrEqual` started on a scan state:
with enough fuel it returns the first node that is not below `key`, and `prev`
receives, at every level it passed, the last node before that position. -/
theorem FGE_loop_spec [LinearOrder K] {cmp : K → K → Int} (hc : LawfulCmp cmp) (k0 : K)
    (s : SkipList K) (key : K) :
    ∀ (fuel x level : Nat) (q : List Nat) (prev : Option (List (Option Nat))),
      Scan k0 s x level q → q.length + level + 1 ≤ fuel →
      (∀ a, prev = some a → level < a.length) →
      ∃ p q1 prev1, q = p ++ q1 ∧ (∀ y ∈ p, s.keyD k0 y < key) ∧
        (∀ y ∈ q1, ¬ s.keyD k0 y < key) ∧
        FindGreaterOrEqual.loop cmp s key fuel x level prev = .ok (q1.head?, prev1) ∧
        (prev = none → prev1 = none) ∧
        (∀ a, prev = some a → ∃ a1, prev1 = some a1 ∧ a1.length = a.length ∧
          (∀ L, L ≤ level → a1[L]? = some (some (lastOf x (atLevel s L p)))) ∧
          (∀ L, level < L → a1[L]? = a[L]?)) := by
  intro fuel
  induction fuel with
  | zero => intro x level q prev _ hf; omega
  | succ fuel ih =>
    intro x level q prev hscan hf hprev
    have hslot := (hscan.links level (Nat.le_refl _)).slot_eq
    have hnext := Next_of_slot hslot
    have hmemq : ∀ y, (atLevel s level q).head? = some y → y ∈ q := by
      intro y hy
      have : y ∈ atLevel s level q := List.mem_of_mem_head? hy
      exact (mem_atLevel.mp this).1
    have hkey := KeyIsAfterNode_eq hc k0 s key (fun y hy => (hscan.valid y hy).1) hmemq
    by_cases hadv : ∃ y, (atLevel s level q).head? = some y ∧ s.keyD k0 y < key
    · -- the successor is below `key`: move right
      obtain ⟨y, hy, hlt⟩ := hadv
      obtain ⟨q1, q2, hq, hlow, hly, hscan2, hq1⟩ := hscan.advance hy
      have hyq : y < s.nodes.length := (hscan.valid y (by simp [hq])).1
      have hstep := FGE_loop_advance cmp s key fuel prev (hy ▸ hnext)
        (keyAt_of_lt k0 hyq) ((hc _ _).1.mpr hlt)
      have hlen : q2.length + level + 1 ≤ fuel := by
        have : q.length = q1.length + (q2.length + 1) := by simp [hq]
        omega
      obtain ⟨p, q3, prev1, hq2, hp, hq3, hrun, hnone, hsome⟩ :=
        ih y level q2 prev hscan2 hlen hprev
      refine ⟨q1 ++ y :: p, q3, prev1, by simp [hq, hq2], ?_, hq3, by rw [hstep, hrun],
        hnone, ?_⟩
      · intro z hz
        rcases List.mem_append.mp hz with hz | hz
        · exact lt_trans (hq1 z hz) hlt
        · rcases List.mem_cons.mp hz with rfl | hz
          · exact hlt
          · exact hp z hz
      · intro a ha
        obtain ⟨a1, h1, h2, h3, h4⟩ := hsome a ha
        refine ⟨a1, h1, h2, ?_, h4⟩
        intro L hL
        rw [h3 L hL, atLevel_append, atLevel_cons_of_lt s p (by omega : L < s.height y),
          lastOf_append_cons]
    · -- the successor is null or not below `key`: record and go down
      have hk0 : KeyIsAfterNode cmp s key (atLevel s level q).head? = .ok false := by
        rw [hkey]; simp [hadv]
      have hstopc : ∀ z ∈ atLevel s level q, ¬ s.keyD k0 z < key :=
        not_lt_of_head (atLevel_pairwise hscan.sorted)
          (fun y hy hlt => hadv ⟨y, hy, hlt⟩)
      obtain ⟨prev0, hw, hw0, hw1⟩ : ∃ prev0, writePrev prev level x = .ok prev0 ∧
          (prev = none → prev0 = none) ∧
          (∀ a, prev = some a → prev0 = some (a.set level (some x))) := by
        cases prev with
        | none => exact ⟨none, rfl, fun _ => rfl, fun a ha => by simp at ha⟩
        | some a =>
          refine ⟨some (a.set level (some x)), by simp [writePrev, hprev a rfl],
            fun h => by simp at h, fun b hb => ?_⟩
          cases hb; rfl
      have hstep := FGE_loop_stop cmp s key fuel hnext hk0 hw
      cases level with
      | zero =>
        have hq0 : atLevel s 0 q = q := atLevel_zero hscan
        refine ⟨[], q, prev0, rfl, by simp, ?_, ?_, hw0, ?_⟩
        · rw [hq0] at hstopc; exact hstopc
        · rw [hstep, hq0]; simp
        · intro a ha
          refine ⟨a.set 0 (some x), hw1 a ha, by simp, ?_, ?_⟩
          · intro L hL
            have : L = 0 := by omega
            subst this
            have := hprev a ha
            simp [atLevel, lastOf, List.getElem?_set, this]
          · intro L hL
            exact List.getElem?_set_ne (by omega)
      | succ lv =>
        have hprev0 : ∀ a, prev0 = some a → lv < a.length := by
          intro a ha
          cases hp : prev with
          | none => rw [hw0 hp] at ha; simp at ha
          | some b =>
            rw [hw1 b hp] at ha
            cases ha
            have := hprev b hp
            simp; omega
        obtain ⟨p, q3, prev1, hq2, hp, hq3, hrun, hnone, hsome⟩ :=
          ih x lv q prev0 hscan.descend (by omega) hprev0
        refine ⟨p, q3, prev1, hq2, hp, hq3, by rw [hstep]; simpa using hrun,
          fun h => hnone (hw0 h), ?_⟩
        intro a ha
        obtain ⟨a1, h1, h2, h3, h4⟩ := hsome _ (hw1 a ha)
        refine ⟨a1, h1, by simpa using h2, ?_, ?_⟩
        · intro L hL
          by_cases hLl : L ≤ lv
          · exact h3 L hLl
          · have hLe : L = lv + 1 := by omega
            subst hLe
            have hnil : atLevel s (lv + 1) p = [] := by
              apply atLevel_eq_nil
              intro z hz hzl
              have hzq : z ∈ atLevel s (lv + 1) q :=
                mem_atLevel.mpr ⟨by simp [hq2, hz], hzl⟩
              exact hstopc z hzq (hp z hz)
            rw [h4 (lv + 1) (by omega), hnil]
            have := hprev a ha
            simp [lastOf, List.getElem?_set, this]
        · intro L hL
          rw [h4 L (by omega)]
          exact List.getElem?_set_ne (by omega)

/-! ## `Insert` -/

theorem atLevel_congr {s t : SkipList K} (h : ∀ y, t.height y = s.height y) (L : Nat)
    (l : List Nat) : atLevel t L l = atLevel s L l := by
  have : t.height = s.height := funext h
  simp [atLevel, this]

/-- Splicing node `n` into a chain after the last node of `a`: the two writes of
one iteration of the linking loop of `Insert`. -/
theorem Linked.splice {s t : SkipList K} {L n : Nat} {b : List Nat} :
    ∀ {a : List Nat} {x : Nat}, Linked s L x (a ++ b) → (x :: (a ++ b)).Nodup →
      n ≠ x → n ∉ a ++ b → t.slot n L = some b.head? →
      t.slot (lastOf x a) L = some (some n) →
      (∀ y, y ≠ n → y ≠ lastOf x a → t.slot y L = s.slot y L) →
      Linked t L x (a ++ n :: b) := by
  intro a
  induction a with
  | nil =>
    intro x hl hnd hnx hn h1 h2 hfr
    refine ⟨h2, ?_⟩
    cases b with
    | nil => exact h1
    | cons y b =>
      refine ⟨h1, ?_⟩
      have hl2 : Linked s L y b := hl.2
      refine Linked.congr (fun z hz => hfr z ?_ ?_) hl2
      · rintro rfl
        apply hn
        rcases hz with hz | hz
        · simp [hz]
        · simp [hz]
      · intro e
        have e1 : z = x := e
        have hx := (List.nodup_cons.mp hnd).1
        apply hx
        rw [← e1]
        rcases hz with hz | hz
        · simp [hz]
        · simp [hz]
  | cons y a ih =>
    intro x hl hnd hnx hn h1 h2 hfr
    have hx := (List.nodup_cons.mp hnd).1
    have hnd2 : (y :: (a ++ b)).Nodup := (List.nodup_cons.mp hnd).2
    have hlast : lastOf x (y :: a) = lastOf y a := rfl
    rw [hlast] at h2 hfr
    refine ⟨?_, ih hl.2 hnd2 ?_ ?_ h1 h2 hfr⟩
    · rw [hfr x (fun e => hnx e.symm) ?_]
      · exact hl.1
      · intro e
        apply hx
        rcases lastOf_mem y a with h | h
        · rw [e, h]; simp
        · rw [e]; simp [h]
    · intro e; apply hn; simp [e]
    · intro hm; apply hn; simp at hm ⊢; exact Or.inr hm

theorem atLevel_sublist (s : SkipList K) (L : Nat) (l : List Nat) :
    (atLevel s L l).Sublist l := List.filter_sublist l

/-- The linking loop of `Insert` runs to completion and splices the new node
into every level below its height. -/
theorem link_spec (k0 : K) (t0 : SkipList K) (p q : List Nat) (n h : Nat)
    (prev : List (Option Nat))
    (hnd : (head_ :: (p ++ q)).Nodup) (hn0 : n ≠ head_) (hn : n ∉ p ++ q)
    (hh : t0.height n = h) (hh12 : h ≤ kMaxHeight)
    (hprev : ∀ L, L < h → prev[L]? = some (some (lastOf head_ (atLevel t0 L p)))) :
    ∀ (count i : Nat) (t : SkipList K), i + count = h → LinkInv k0 t0 t p q n i →
      ∃ t1, Insert.link prev n i count t = .ok t1 ∧ LinkInv k0 t0 t1 p q n h := by
  intro count
  induction count with
  | zero =>
    intro i t hi hinv
    have : i = h := by omega
    subst this
    exact ⟨t, rfl, hinv⟩
  | succ count ih =>
    intro i t hi hinv
    have hih : i < h := by omega
    have hi12 : i < kMaxHeight := by unfold kMaxHeight at *; omega
    have hchain := hinv.todo i (Nat.le_refl _) hi12
    have hlast := hchain.at_last
    have hslot := hlast.slot_eq
    obtain ⟨t1, hset1, hmh1, hlen1, hht1, hkey1, hs1, hfr1⟩ :=
      SetNext_spec k0 (s := t) (x := n) (n := i) (atLevel t0 i q).head?
        (by rw [hinv.height, hh]; exact hih)
    obtain ⟨t2, hset2, hmh2, hlen2, hht2, hkey2, hs2, hfr2⟩ :=
      SetNext_spec k0 (s := t1) (x := lastOf head_ (atLevel t0 i p)) (n := i) (some n)
        (by rw [hht1]; exact slot_lt_height hslot)
    have hxn : n ≠ lastOf head_ (atLevel t0 i p) := by
      intro e
      rcases lastOf_mem head_ (atLevel t0 i p) with h1 | h1
      · exact hn0 (e.trans h1)
      · apply hn
        rw [← e] at h1
        exact List.mem_append_left _ ((atLevel_sublist t0 i p).subset h1)
    have hrun : Insert.link prev n i (count + 1) t = Insert.link prev n (i + 1) count t2 := by
      simp [Insert.link, hprev i hih, Next_of_slot hslot, hset1, hset2]
    have hsub : (atLevel t0 i p ++ atLevel t0 i q).Sublist (p ++ q) :=
      (atLevel_sublist t0 i p).append (atLevel_sublist t0 i q)
    have hinv2 : LinkInv k0 t0 t2 p q n (i + 1) := by
      refine ⟨by rw [hlen2, hlen1, hinv.len], by rw [hmh2, hmh1, hinv.mh],
        fun y => by rw [hht2, hht1, hinv.height], fun y => by rw [hkey2, hkey1, hinv.key],
        ?_, ?_, by rw [SetNext_shape hset2, SetNext_shape hset1, hinv.shape]⟩
      · intro L hL hL12
        by_cases hLi : L = i
        · subst hLi
          refine Linked.splice hchain ?_ hn0 ?_ ?_ hs2 ?_
          · exact (List.nodup_cons.mpr ⟨fun hm => (List.nodup_cons.mp hnd).1 (hsub.subset hm),
              (List.nodup_cons.mp hnd).2.sublist hsub⟩)
          · exact fun hm => hn (hsub.subset hm)
          · rw [hfr2 n L (Or.inl hxn), hs1]
          · intro y hy1 hy2
            rw [hfr2 y L (Or.inl hy2), hfr1 y L (Or.inl hy1)]
        · refine Linked.congr (fun z _ => ?_) (hinv.done L (by omega) hL12)
          rw [hfr2 z L (Or.inr hLi), hfr1 z L (Or.inr hLi)]
      · intro L hL hL12
        have hLi : L ≠ i := by omega
        refine Linked.congr (fun z _ => ?_) (hinv.todo L (by omega) hL12)
        rw [hfr2 z L (Or.inr hLi), hfr1 z L (Or.inr hLi)]
    obtain ⟨t3, h3, hinv3⟩ := ih (i + 1) t2 (by omega) hinv2
    exact ⟨t3, by rw [hrun, h3], hinv3⟩

/-- The loop of `Insert` that points the unused upper entries of `prev` at the
head. -/
theorem fill_spec : ∀ (count i : Nat) (a : List (Option Nat)), i + count ≤ a.length →
    ∃ a1, Insert.fill a i count = .ok a1 ∧ a1.length = a.length ∧
      (∀ L, i ≤ L → L < i + count → a1[L]? = some (some head_)) ∧
      (∀ L, (L < i ∨ i + count ≤ L) → a1[L]? = a[L]?) := by
  intro count
  induction count with
  | zero =>
    intro i a _
    exact ⟨a, rfl, rfl, fun L h1 h2 => by omega, fun L _ => rfl⟩
  | succ count ih =>
    intro i a hlen
    obtain ⟨a1, h1, h2, h3, h4⟩ := ih (i + 1) (a.set i (some head_)) (by simp; omega)
    refine ⟨a1, ?_, by simpa using h2, ?_, ?_⟩
    · have : i < a.length := by omega
      simp [Insert.fill, this, h1]
    · intro L hL1 hL2
      by_cases hLi : L = i
      · subst hLi
        rw [h4 L (Or.inl (by omega))]
        simp [List.getElem?_set]; omega
      · exact h3 L (by omega) (by omega)
    · intro L hL
      rw [h4 L (by omega)]
      exact List.getElem?_set_ne (by omega)

theorem Inv.scan [LinearOrder K] {k0 : K} {s : SkipList K} {l : List Nat} (h : Inv k0 s l) :
    Scan k0 s head_ (s.max_height_ - 1) l :=
  ⟨fun y hy => ⟨((h.mem y).mp hy).2, (h.hpos y hy).1⟩, h.sorted,
    fun L hL => h.links L (by have := h.mh; omega)⟩

theorem Inv.head_lt [LinearOrder K] {k0 : K} {s : SkipList K} {l : List Nat} (h : Inv k0 s l) :
    head_ < s.nodes.length :=
  height_pos_lt_length (by rw [h.head]; decide)

/-- The search phase of `Insert` on a state satisfying the invariant. -/
theorem FGE_spec [LinearOrder K] {cmp : K → K → Int} (hc : LawfulCmp cmp) {k0 : K}
    {s : SkipList K} {l : List Nat} (hinv : Inv k0 s l) (key : K) (fuel : Nat)
    (hf : l.length + s.max_height_ ≤ fuel) (prev : Option (List (Option Nat)))
    (hprev : ∀ a, prev = some a → a.length = kMaxHeight) :
    ∃ p q prev1, l = p ++ q ∧ (∀ y ∈ p, s.keyD k0 y < key) ∧
      (∀ y ∈ q, ¬ s.keyD k0 y < key) ∧
      FindGreaterOrEqual cmp fuel s key prev = .ok (q.head?, prev1) ∧
      (prev = none → prev1 = none) ∧
      (∀ a, prev = some a → ∃ a1, prev1 = some a1 ∧ a1.length = a.length ∧
        (∀ L, L < s.max_height_ → a1[L]? = some (some (lastOf head_ (atLevel s L p)))) ∧
        (∀ L, s.max_height_ ≤ L → a1[L]? = a[L]?)) := by
  have hmh := hinv.mh
  obtain ⟨p, q, prev1, h1, h2, h3, h4, h5, h6⟩ :=
    FGE_loop_spec hc k0 s key fuel head_ (s.max_height_ - 1) l prev hinv.scan (by omega)
      (fun a ha => by rw [hprev a ha]; omega)
  refine ⟨p, q, prev1, h1, h2, h3, ?_, h5, ?_⟩
  · have : s.GetMaxHeight ≠ 0 := by unfold SkipList.GetMaxHeight; omega
    simp only [FindGreaterOrEqual, this, if_false]
    exact h4
  · intro a ha
    obtain ⟨a1, e1, e2, e3, e4⟩ := h6 a ha
    exact ⟨a1, e1, e2, fun L hL => e3 L (by omega), fun L hL => e4 L (by omega)⟩

theorem atLevel_congr_mem {s t : SkipList K} {l : List Nat}
    (h : ∀ y ∈ l, t.height y = s.height y) (L : Nat) : atLevel t L l = atLevel s L l := by
  unfold atLevel
  apply List.filter_congr
  intro y hy
  rw [h y hy]

/-- `Insert` of a key that is not yet present, with a height in
`1..kMaxHeight`: it returns, the new node `s.nodes.length` is spliced in at its
sorted position, and the invariant holds again. -/
theorem Insert_spec [LinearOrder K] {cmp : K → K → Int} (hc : LawfulCmp cmp) {k0 : K}
    {s : SkipList K} {l : List Nat} (hinv : Inv k0 s l) (key : K)
    (hkey : ∀ i ∈ l, s.keyD k0 i ≠ key) {h : Nat} (h1 : 1 ≤ h) (h12 : h ≤ kMaxHeight)
    (fuel : Nat) (hf : l.length + s.max_height_ ≤ fuel) :
    ∃ s1 p q, Insert cmp fuel s key h = .ok s1 ∧ l = p ++ q ∧
      Inv k0 s1 (p ++ s.nodes.length :: q) ∧
      s1.max_height_ = max s.max_height_ h ∧
      s1.shape = s.shape ++ [(key, h)] ∧
      (∀ y, y < s.nodes.length → s1.keyD k0 y = s.keyD k0 y) ∧
      s1.keyD k0 s.nodes.length = key := by
  have hmh := hinv.mh
  have h0 := hinv.head_lt
  obtain ⟨p, q, prev1, hl, hp, hq, hfge, -, hsome⟩ :=
    FGE_spec hc hinv key fuel hf (some (List.replicate kMaxHeight none)) (fun a ha => by
      cases ha; simp)
  obtain ⟨a1, rfl, hlen1, hlow1, hhigh1⟩ := hsome _ rfl
  have hlen1 : a1.length = kMaxHeight := by simpa using hlen1
  have hmemp : ∀ y ∈ p, y ∈ l := fun y hy => by simp [hl, hy]
  have hmemq : ∀ y ∈ q, y ∈ l := fun y hy => by simp [hl, hy]
  -- the duplicate-key assertion passes
  have hcheck : Insert.check cmp s key q.head? = .ok true := by
    cases hq0 : q.head? with
    | none => rfl
    | some y =>
      have hyq : y ∈ q := List.mem_of_mem_head? hq0
      have hyl := hmemq y hyq
      have hne : cmp key (s.keyD k0 y) ≠ 0 := fun e =>
        hkey y hyl (((hc _ _).2.mp e).symm)
      simp [Insert.check, keyAt_of_lt k0 ((hinv.mem y).mp hyl).2, Equal, hne]
  -- the upper entries of `prev`
  obtain ⟨a2, hfill, hprev2⟩ : ∃ a2,
      (if h > s.GetMaxHeight then Insert.fill a1 s.GetMaxHeight (h - s.GetMaxHeight)
        else .ok a1) = .ok a2 ∧
      ∀ L, L < h → a2[L]? = some (some (lastOf head_ (atLevel s L p))) := by
    unfold SkipList.GetMaxHeight
    by_cases hgt : h > s.max_height_
    · obtain ⟨a2, e1, _, e3, e4⟩ := fill_spec (h - s.max_height_) s.max_height_ a1
        (by rw [hlen1]; omega)
      refine ⟨a2, by simp [hgt, e1], ?_⟩
      intro L hL
      by_cases hLm : L < s.max_height_
      · rw [e4 L (Or.inl hLm)]; exact hlow1 L hLm
      · rw [e3 L (by omega) (by omega)]
        have : atLevel s L p = [] := atLevel_eq_nil s (fun z hz => by
          have := (hinv.hpos z (hmemp z hz)).2; omega)
        rw [this]; rfl
    · exact ⟨a1, by simp [hgt], fun L hL => hlow1 L (by omega)⟩
  -- the new node
  obtain ⟨sA, hsA, hsAn, hsAm⟩ : ∃ sA : SkipList K,
      (if h > s.GetMaxHeight then { s with max_height_ := h } else s) = sA ∧
      sA.nodes = s.nodes ∧ sA.max_height_ = max s.max_height_ h := by
    unfold SkipList.GetMaxHeight
    by_cases hgt : h > s.max_height_
    · exact ⟨_, rfl, by simp [hgt], by simp [hgt]; omega⟩
    · exact ⟨_, rfl, by simp [hgt], by simp [hgt]; omega⟩
  obtain ⟨t0, hnew, ht0m, ht0n, ht0h, ht0k, ht0s, ht0hn, ht0kn⟩ :=
    NewNode_spec k0 sA key (by omega : 0 < h)
  have hA_h : ∀ y, sA.height y = s.height y := fun y => by
    unfold SkipList.height; rw [hsAn]
  have hA_k : ∀ y, sA.keyD k0 y = s.keyD k0 y := fun y => by
    unfold SkipList.keyD; rw [hsAn]
  have hA_s : ∀ y m, sA.slot y m = s.slot y m := fun y m => by
    unfold SkipList.slot; rw [hsAn]
  rw [hsAn] at hnew ht0h ht0k ht0s ht0hn ht0kn
  have hlt : ∀ y ∈ l, y < s.nodes.length := fun y hy => ((hinv.mem y).mp hy).2
  have hhp : ∀ y ∈ p, t0.height y = s.height y := fun y hy => by
    rw [ht0h y (hlt y (hmemp y hy)), hA_h]
  have hhq : ∀ y ∈ q, t0.height y = s.height y := fun y hy => by
    rw [ht0h y (hlt y (hmemq y hy)), hA_h]
  have hnl : s.nodes.length ∉ p ++ q := by
    rw [← hl]; intro hm; exact Nat.lt_irrefl _ (hlt _ hm)
  have hn0 : s.nodes.length ≠ head_ := fun e => by rw [e] at h0; exact Nat.lt_irrefl _ h0
  have hnd : (head_ :: (p ++ q)).Nodup := by
    rw [← hl]
    exact List.nodup_cons.mpr ⟨fun hm => Nat.lt_irrefl _ ((hinv.mem _).mp hm).1, hinv.nodup⟩
  have hinit : LinkInv k0 t0 t0 p q s.nodes.length 0 := by
    refine ⟨rfl, rfl, fun _ => rfl, fun _ => rfl, fun L hL => by omega, ?_, rfl⟩
    intro L _ hL12
    have hlk := hinv.links L hL12
    rw [hl, atLevel_append] at hlk
    rw [atLevel_congr_mem hhp, atLevel_congr_mem hhq]
    refine Linked.congr (fun z hz => ?_) hlk
    have hz : z < s.nodes.length := by
      rcases hz with rfl | hz
      · exact h0
      · rw [← atLevel_append, ← hl] at hz
        exact hlt z (mem_atLevel.mp hz).1
    rw [ht0s z L hz, hA_s]
  obtain ⟨t1, hlink, hfin⟩ := link_spec k0 t0 p q s.nodes.length h a2 hnd hn0 hnl ht0hn h12
    (fun L hL => by rw [hprev2 L hL, atLevel_congr_mem hhp]) h 0 t0 (by omega) hinit
  have hrun : Insert cmp fuel s key h = .ok t1 := by
    simp only [Insert, hfge, hcheck, hfill, hsA, hnew, hlink]
  have hkeys : ∀ y, y < s.nodes.length → t1.keyD k0 y = s.keyD k0 y := fun y hy => by
    rw [hfin.key, ht0k y hy, hA_k]
  have hkeyn : t1.keyD k0 s.nodes.length = key := by rw [hfin.key, ht0kn]
  have hheights : ∀ y, y < s.nodes.length → t1.height y = s.height y := fun y hy => by
    rw [hfin.height, ht0h y hy, hA_h]
  have hheightn : t1.height s.nodes.length = h := by rw [hfin.height, ht0hn]
  have hq' : ∀ y ∈ q, key < s.keyD k0 y := fun y hy =>
    lt_of_le_of_ne (not_lt.mp (hq y hy)) (fun e => hkey y (hmemq y hy) e.symm)
  have hsorted := hinv.sorted
  rw [hl, List.pairwise_append] at hsorted
  refine ⟨t1, p, q, hrun, hl, ⟨?_, ?_, ?_, ?_, ?_, ?_, ?_⟩, ?_, ?_, hkeys, hkeyn⟩
  · rw [hheights _ h0]; exact hinv.head
  · intro i
    have hlen : t1.nodes.length = s.nodes.length + 1 := by
      rw [hfin.len, ht0n, hsAn]; simp
    rw [hlen]
    constructor
    · intro hi
      rcases List.mem_append.mp hi with hi | hi
      · have := (hinv.mem i).mp (hmemp i hi); omega
      · rcases List.mem_cons.mp hi with rfl | hi
        · have : 0 < s.nodes.length := h0
          omega
        · have := (hinv.mem i).mp (hmemq i hi); omega
    · intro ⟨hi1, hi2⟩
      by_cases hin : i = s.nodes.length
      · simp [hin]
      · have : i ∈ l := (hinv.mem i).mpr ⟨hi1, by omega⟩
        rw [hl] at this
        rcases List.mem_append.mp this with hi | hi
        · simp [hi]
        · simp [hi]
  · have hndl := hinv.nodup
    rw [hl] at hndl
    have hndl' := List.nodup_append.mp hndl
    rw [List.nodup_append]
    refine ⟨hndl'.1, List.nodup_cons.mpr ⟨fun hm => hnl (by simp [hm]), hndl'.2.1⟩, ?_⟩
    intro a ha hb
    rcases List.mem_cons.mp hb with rfl | hb
    · exact hnl (by simp [ha])
    · exact hndl'.2.2 ha hb
  · rw [List.pairwise_append]
    refine ⟨hsorted.1.imp_of_mem (fun {a b} ha hb hab => ?_), ?_, ?_⟩
    · rw [hkeys a (hlt a (hmemp a ha)), hkeys b (hlt b (hmemp b hb))]; exact hab
    · rw [List.pairwise_cons]
      refine ⟨fun b hb => ?_, hsorted.2.1.imp_of_mem (fun {a b} ha hb hab => ?_)⟩
      · rw [hkeyn, hkeys b (hlt b (hmemq b hb))]; exact hq' b hb
      · rw [hkeys a (hlt a (hmemq a ha)), hkeys b (hlt b (hmemq b hb))]; exact hab
    · intro a ha b hb
      rw [hkeys a (hlt a (hmemp a ha))]
      rcases List.mem_cons.mp hb with rfl | hb
      · rw [hkeyn]; exact hp a ha
      · rw [hkeys b (hlt b (hmemq b hb))]
        exact lt_trans (hp a ha) (hq' b hb)
  · intro i hi
    rw [hfin.mh, ht0m, hsAm]
    rcases List.mem_append.mp hi with hi | hi
    · rw [hheights i (hlt i (hmemp i hi))]
      have := hinv.hpos i (hmemp i hi); omega
    · rcases List.mem_cons.mp hi with rfl | hi
      · rw [hheightn]; omega
      · rw [hheights i (hlt i (hmemq i hi))]
        have := hinv.hpos i (hmemq i hi); omega
  · rw [hfin.mh, ht0m, hsAm]; omega
  · intro L hL12
    rw [atLevel_congr hfin.height, atLevel_append]
    by_cases hLh : L < h
    · rw [atLevel_cons_of_lt t0 q (by rw [ht0hn]; exact hLh)]
      exact hfin.done L hLh hL12
    · rw [atLevel_cons_of_not_lt t0 q (by rw [ht0hn]; exact hLh)]
      exact hfin.todo L (by omega) hL12
  · rw [hfin.mh, ht0m, hsAm]
  · rw [hfin.shape]
    simp [SkipList.shape, ht0n, hsAn]

/-! ## Sequences of inserts -/

theorem new_Inv [LinearOrder K] (k0 : K) : Inv k0 (SkipList.new k0) [] := by
  refine ⟨rfl, ?_, List.nodup_nil, List.Pairwise.nil, ?_,
    ⟨Nat.le_refl 1, by unfold SkipList.new kMaxHeight; simp⟩, ?_⟩
  · intro i; simp [SkipList.new]; omega
  · intro i hi; simp at hi
  · intro L hL
    show (SkipList.new k0).slot head_ L = some none
    simp [SkipList.slot, SkipList.new, head_, hL]

/-- Any sequence of inserts of fresh, pairwise-distinct keys with heights in
`1..kMaxHeight`, started on a state satisfying the invariant, runs to
completion and re-establishes the invariant. -/
theorem insertAll_spec [LinearOrder K] {cmp : K → K → Int} (hc : LawfulCmp cmp) (k0 : K) :
    ∀ (khs : List (K × Nat)) (s : SkipList K) (l : List Nat), Inv k0 s l →
      (khs.map Prod.fst).Nodup →
      (∀ i ∈ l, ∀ kh ∈ khs, s.keyD k0 i ≠ kh.1) →
      (∀ kh ∈ khs, 1 ≤ kh.2 ∧ kh.2 ≤ kMaxHeight) →
      ∀ fuel, l.length + khs.length + kMaxHeight ≤ fuel →
      ∃ s1 l1, insertAll cmp fuel s khs = .ok s1 ∧ Inv k0 s1 l1 ∧
        s1.shape = s.shape ++ khs ∧ s1.max_height_ = maxHeightOf s.max_height_ khs := by
  intro khs
  induction khs with
  | nil =>
    intro s l hinv _ _ _ fuel _
    exact ⟨s, l, rfl, hinv, by simp, rfl⟩
  | cons kh rest ih =>
    intro s l hinv hnd hfresh hh fuel hf
    obtain ⟨key, h⟩ := kh
    have hmh := hinv.mh
    have hh0 : 1 ≤ h ∧ h ≤ kMaxHeight := hh (key, h) (by simp)
    obtain ⟨s1, p, q, hrun, hl, hinv1, hm1, hshape1, hkeys, hkeyn⟩ :=
      Insert_spec hc hinv key (fun i hi => hfresh i hi (key, h) (by simp)) hh0.1 hh0.2
        fuel (by simp at hf; omega)
    have hnd' : key ∉ rest.map Prod.fst ∧ (rest.map Prod.fst).Nodup :=
      List.nodup_cons.mp hnd
    have hlen : (p ++ s.nodes.length :: q).length = l.length + 1 := by
      rw [hl]; simp; omega
    obtain ⟨s2, l2, hrun2, hinv2, hshape2, hm2⟩ :=
      ih s1 (p ++ s.nodes.length :: q) hinv1 hnd'.2 (by
        intro i hi kh hkh
        have hi' : i = s.nodes.length ∨ i ∈ l := by
          rw [hl]
          rcases List.mem_append.mp hi with hi | hi
          · exact Or.inr (by simp [hi])
          · rcases List.mem_cons.mp hi with hi | hi
            · exact Or.inl hi
            · exact Or.inr (by simp [hi])
        rcases hi' with rfl | hi'
        · rw [hkeyn]
          intro e
          exact hnd'.1 (by rw [e]; exact List.mem_map_of_mem _ hkh)
        · rw [hkeys i ((hinv.mem i).mp hi').2]
          exact hfresh i hi' kh (by simp [hkh]))
        (fun kh hkh => hh kh (by simp [hkh])) fuel (by rw [hlen]; simp at hf; omega)
    refine ⟨s2, l2, by simp [insertAll, hrun, hrun2], hinv2, by rw [hshape2, hshape1]; simp,
      ?_⟩
    rw [hm2, hm1]; rfl

/-- The state reached from the empty list by a sequence of inserts. -/
theorem build_spec [LinearOrder K] {cmp : K → K → Int} (hc : LawfulCmp cmp) (k0 : K)
    (khs : List (K × Nat)) (hnd : (khs.map Prod.fst).Nodup)
    (hh : ∀ kh ∈ khs, 1 ≤ kh.2 ∧ kh.2 ≤ kMaxHeight) (fuel : Nat)
    (hf : khs.length + kMaxHeight ≤ fuel) :
    ∃ s l, insertAll cmp fuel (SkipList.new k0) khs = .ok s ∧ Inv k0 s l ∧
      s.shape = (k0, kMaxHeight) :: khs ∧ s.max_height_ = maxHeightOf 1 khs := by
  obtain ⟨s, l, h1, h2, h3, h4⟩ := insertAll_spec hc k0 khs (SkipList.new k0) [] (new_Inv k0)
    hnd (fun i hi => by simp at hi) hh fuel (by simpa using hf)
  exact ⟨s, l, h1, h2, by rw [h3]; simp [SkipList.shape, SkipList.new], h4⟩

theorem keyD_eq_shape (k0 : K) (s : SkipList K) (i : Nat) :
    s.keyD k0 i = ((s.shape[i]?).map Prod.fst).getD k0 := by
  unfold SkipList.keyD SkipList.shape
  cases h : s.nodes[i]? <;> simp [h]

theorem height_eq_shape (s : SkipList K) (i : Nat) :
    s.height i = ((s.shape[i]?).map Prod.snd).getD 0 := by
  unfold SkipList.height SkipList.shape
  cases h : s.nodes[i]? <;> simp [h]

theorem shape_length (s : SkipList K) : s.shape.length = s.nodes.length := by
  simp [SkipList.shape]

/-- Under the invariant, the chain `l` is a rearrangement of the addresses
`1, 2, ..` of the inserted nodes. -/
theorem Inv.perm_range [LinearOrder K] {k0 : K} {s : SkipList K} {l : List Nat}
    (h : Inv k0 s l) : l.Perm (List.range' 1 (s.nodes.length - 1)) := by
  rw [List.perm_ext_iff_of_nodup h.nodup (List.nodup_range' 1 _)]
  intro a
  rw [h.mem a, List.mem_range'_1]
  omega

theorem map_range'_shape {α : Type} (f : K × Nat → α) (g : Nat → α) (k : K × Nat)
    (khs : List (K × Nat))
    (hg : ∀ i x, ((k :: khs)[i]? = some x) → g i = f x) :
    (List.range' 1 khs.length).map g = khs.map f := by
  apply List.ext_getElem?
  intro i
  by_cases hi : i < khs.length
  · have h1 : (List.range' 1 khs.length)[i]? = some (1 + i) := by
      rw [List.getElem?_range' _ _ hi]; simp
    rw [List.getElem?_map, List.getElem?_map, h1, List.getElem?_eq_getElem hi]
    simp only [Option.map_some']
    rw [hg (1 + i) khs[i] (by rw [Nat.add_comm]; simp [List.getElem?_eq_getElem hi])]
  · rw [List.getElem?_eq_none (by simpa using hi), List.getElem?_eq_none (by simpa using hi)]

/-- Under the invariant, the keys along the chain are a rearrangement of the
inserted keys. -/
theorem Inv.keys_perm [LinearOrder K] {k0 : K} {s : SkipList K} {l : List Nat}
    (h : Inv k0 s l) {khs : List (K × Nat)} {k : K × Nat} (hs : s.shape = k :: khs) :
    (l.map (s.keyD k0)).Perm (khs.map Prod.fst) := by
  have hlen : s.nodes.length - 1 = khs.length := by
    rw [← shape_length, hs]; simp
  have hp := (h.perm_range).map (s.keyD k0)
  rw [hlen] at hp
  refine hp.trans (List.Perm.of_eq ?_)
  apply map_range'_shape Prod.fst (s.keyD k0) k khs
  intro i x hx
  rw [keyD_eq_shape, hs, hx]; rfl

/-! ## `FindLessThan` and `FindLast` -/

/-- Specification of the loop of `FindLessThan` started on a scan state: with
enough fuel it returns the last node below `key` (or the start node). -/
theorem FLT_loop_spec [LinearOrder K] {cmp : K → K → Int} (hc : LawfulCmp cmp) (k0 : K)
    (s : SkipList K) (key : K) :
    ∀ (fuel x level : Nat) (q : List Nat),
      Scan k0 s x level q → (x = head_ ∨ (x < s.nodes.length ∧ s.keyD k0 x < key)) →
      q.length + level + 1 ≤ fuel →
      ∃ p q1, q = p ++ q1 ∧ (∀ y ∈ p, s.keyD k0 y < key) ∧
        (∀ y ∈ q1, ¬ s.keyD k0 y < key) ∧
        FindLessThan.loop cmp s key fuel x level = .ok (lastOf x p) := by
  intro fuel
  induction fuel with
  | zero => intro x level q _ _ hf; omega
  | succ fuel ih =>
    intro x level q hscan hx hf
    have hslot := (hscan.links level (Nat.le_refl _)).slot_eq
    have hnext := Next_of_slot hslot
    have hchk : FindLessThan.check cmp s key x = .ok true := by
      unfold FindLessThan.check
      by_cases hx0 : x = head_
      · simp [hx0]
      · rcases hx with hx | hx
        · exact absurd hx hx0
        · simp [hx0, keyAt_of_lt k0 hx.1, (hc _ _).1.mpr hx.2]
    by_cases hadv : ∃ y, (atLevel s level q).head? = some y ∧ s.keyD k0 y < key
    · obtain ⟨y, hy, hlt⟩ := hadv
      obtain ⟨q1, q2, hq, hlow, hly, hscan2, hq1⟩ := hscan.advance hy
      have hyq : y < s.nodes.length := (hscan.valid y (by simp [hq])).1
      have hnlt : ¬ (0 ≤ cmp (s.keyD k0 y) key) := by
        have := (hc (s.keyD k0 y) key).1.mpr hlt; omega
      have hstep : FindLessThan.loop cmp s key (fuel + 1) x level =
          FindLessThan.loop cmp s key fuel y level := by
        simp [FindLessThan.loop, hchk, hy ▸ hnext, FindLessThan.stop, keyAt_of_lt k0 hyq,
          hnlt]
      have hlen : q2.length + level + 1 ≤ fuel := by
        have : q.length = q1.length + (q2.length + 1) := by simp [hq]
        omega
      obtain ⟨p, q3, hq2, hp, hq3, hrun⟩ := ih y level q2 hscan2 (Or.inr ⟨hyq, hlt⟩) hlen
      refine ⟨q1 ++ y :: p, q3, by simp [hq, hq2], ?_, hq3, ?_⟩
      · intro z hz
        rcases List.mem_append.mp hz with hz | hz
        · exact lt_trans (hq1 z hz) hlt
        · rcases List.mem_cons.mp hz with rfl | hz
          · exact hlt
          · exact hp z hz
      · rw [hstep, hrun, lastOf_append_cons]
    · have hstopc : ∀ z ∈ atLevel s level q, ¬ s.keyD k0 z < key :=
        not_lt_of_head (atLevel_pairwise hscan.sorted)
          (fun y hy hlt => hadv ⟨y, hy, hlt⟩)
      have hstop : FindLessThan.stop cmp s key (atLevel s level q).head? = .ok true := by
        cases hh : (atLevel s level q).head? with
        | none => rfl
        | some y =>
          have hym : y ∈ atLevel s level q := List.mem_of_mem_head? hh
          have hyq := (hscan.valid y (mem_atLevel.mp hym).1).1
          have hge : 0 ≤ cmp (s.keyD k0 y) key := by
            have := (hc (s.keyD k0 y) key).1
            have := hstopc y hym
            by_contra hneg
            exact this ((hc _ _).1.mp (by omega))
          simp [FindLessThan.stop, keyAt_of_lt k0 hyq, hge]
      have hstep : FindLessThan.loop cmp s key (fuel + 1) x level =
          if level = 0 then .ok x else FindLessThan.loop cmp s key fuel x (level - 1) := by
        simp [FindLessThan.loop, hchk, hnext, hstop]
      cases level with
      | zero =>
        have hq0 : atLevel s 0 q = q := atLevel_zero hscan
        rw [hq0] at hstopc
        exact ⟨[], q, rfl, by simp, hstopc, by rw [hstep]; rfl⟩
      | succ lv =>
        obtain ⟨p, q3, hq2, hp, hq3, hrun⟩ := ih x lv q hscan.descend hx (by omega)
        exact ⟨p, q3, hq2, hp, hq3, by rw [hstep]; simpa using hrun⟩

/-- Specification of the loop of `FindLast` started on a scan state: with
enough fuel it returns the last node ahead (or the start node). -/
theorem FindLast_loop_spec [LinearOrder K] (k0 : K) (s : SkipList K) :
    ∀ (fuel x level : Nat) (q : List Nat),
      Scan k0 s x level q → q.length + level + 1 ≤ fuel →
      FindLast.loop s fuel x level = .ok (lastOf x q) := by
  intro fuel
  induction fuel with
  | zero => intro x level q _ hf; omega
  | succ fuel ih =>
    intro x level q hscan hf
    have hslot := (hscan.links level (Nat.le_refl _)).slot_eq
    have hnext := Next_of_slot hslot
    cases hh : (atLevel s level q).head? with
    | some y =>
      obtain ⟨q1, q2, hq, hlow, hly, hscan2, hq1⟩ := hscan.advance hh
      have hlen : q2.length + level + 1 ≤ fuel := by
        have : q.length = q1.length + (q2.length + 1) := by simp [hq]
        omega
      have hrun := ih y level q2 hscan2 hlen
      rw [hh] at hnext
      simp only [FindLast.loop, hnext, hrun, hq, lastOf_append_cons]
    | none =>
      rw [hh] at hnext
      cases level with
      | zero =>
        have hq0 : atLevel s 0 q = q := atLevel_zero hscan
        rw [hq0] at hh
        have : q = [] := by
          cases q with
          | nil => rfl
          | cons a q => simp at hh
        simp [FindLast.loop, hnext, this, lastOf]
      | succ lv =>
        have hrun := ih x lv q hscan.descend (by omega)
        simp [FindLast.loop, hnext, hrun]

theorem lastOf_mem_cons (x y : Nat) (c : List Nat) : lastOf x (y :: c) ∈ y :: c := by
  rcases lastOf_mem y c with h | h
  · simp [lastOf, h]
  · simp [lastOf, h]

/-- In a sorted walk no key exceeds the key of the last node. -/
theorem le_lastOf [LinearOrder K] (f : Nat → K) :
    ∀ (c : List Nat) (x : Nat), c.Pairwise (fun i j => f i < f j) →
      ∀ z ∈ c, f z ≤ f (lastOf x c) := by
  intro c
  induction c with
  | nil => intro x _ z hz; simp at hz
  | cons y c ih =>
    intro x hs z hz
    have hs' := List.pairwise_cons.mp hs
    rcases List.mem_cons.mp hz with rfl | hz
    · rcases lastOf_mem z c with h | h
      · show f z ≤ f (lastOf z c)
        rw [h]
      · exact le_of_lt (hs'.1 _ h)
    · exact ih y hs'.2 z hz

/-! ## The scenario of the specification: keys 5, 1, 9, 3 -/

theorem lawful_intCmp : LawfulCmp intCmp := by
  intro a b
  unfold intCmp
  constructor <;> omega

/-- The heights of the scenario are the first four draws of `RandomHeight` from
the generator state `Random(0xdeadbeef)` of a new skip list. -/
theorem scenario_heights :
    RandomHeight (Random.new 0xdeadbeef) = .ok (2, ⟨386994929⟩) ∧
    RandomHeight ⟨386994929⟩ = .ok (1, ⟨1643288587⟩) ∧
    RandomHeight ⟨1643288587⟩ = .ok (1, ⟨2111581289⟩) ∧
    RandomHeight ⟨2111581289⟩ = .ok (1, ⟨31973901⟩) ∧
    scenario.map Prod.snd = [2, 1, 1, 1] :=
  ⟨rfl, rfl, rfl, rfl, rfl⟩

theorem mem_keys_iff [LinearOrder K] {k0 : K} {s : SkipList K} {l : List Nat}
    (h : Inv k0 s l) {khs : List (K × Nat)} {k : K × Nat} (hs : s.shape = k :: khs) (key : K) :
    key ∈ khs.map Prod.fst ↔ ∃ j ∈ l, s.keyD k0 j = key := by
  rw [← (h.keys_perm hs).mem_iff, List.mem_map]

/-! ## The operations on lists grown from the empty list `SkipList.new` -/

/-- From the state `SkipList.new`: inserting pairwise-distinct keys one at a
time with `Insert` into it, in any order and with every height in
`1..kMaxHeight`, succeeds, and afterwards the level-0 chain followed from the head
visits distinct nodes whose keys are strictly increasing and are exactly the
inserted keys (a permutation of them, so none is missing, repeated or extra). -/
theorem level0_chain_sorted_from_new [LinearOrder K] (cmp : K → K → Int) (hc : LawfulCmp cmp)
    (k0 : K) (khs : List (K × Nat)) (hnd : (khs.map Prod.fst).Nodup)
    (hh : ∀ kh ∈ khs, 1 ≤ kh.2 ∧ kh.2 ≤ kMaxHeight) (fuel : Nat)
    (hf : khs.length + kMaxHeight ≤ fuel) :
    ∃ s c, insertAll cmp fuel (SkipList.new k0) khs = .ok s ∧ s.chain fuel 0 = .ok c ∧
      c.Nodup ∧ (c.map (s.keyD k0)).Sorted (· < ·) ∧
      (c.map (s.keyD k0)).Perm (khs.map Prod.fst) := by
  obtain ⟨s, l, hrun, hinv, hshape, -⟩ := build_spec hc k0 khs hnd hh fuel hf
  have hlen : l.length = khs.length := by
    have := (hinv.keys_perm hshape).length_eq
    simpa using this
  have hl0 : atLevel s 0 l = l := atLevel_zero hinv.scan
  have hlk := hinv.links 0 (by decide)
  rw [hl0] at hlk
  refine ⟨s, l, hrun, chainFrom_of_Linked _ _ hlk (by unfold kMaxHeight at hf; omega), hinv.nodup,
    ?_, hinv.keys_perm hshape⟩
  exact List.pairwise_map.mpr hinv.sorted

/-- Example from the state `SkipList.new` on the scenario 5, 1, 9, 3: the chain reads 1, 3, 5, 9. -/
theorem level0_chain_sorted_from_new_example :
    (∃ s c, insertAll intCmp 16 (SkipList.new 0) scenario = .ok s ∧ s.chain 16 0 = .ok c ∧
      c.Nodup ∧ (c.map (s.keyD 0)).Sorted (· < ·) ∧
      (c.map (s.keyD 0)).Perm (scenario.map Prod.fst)) ∧
    scenarioRun.map (fun r => r.2.2.2.2) = some [1, 3, 5, 9] :=
  ⟨level0_chain_sorted_from_new intCmp lawful_intCmp 0 scenario (by decide) (by decide) 16
    (by decide), by decide⟩

/-- From the state `SkipList.new`: on a skip list built by inserting pairwise-distinct keys (heights in
`1..kMaxHeight`) into an empty list, `FindGreaterOrEqual(k, nullptr)` returns; it
returns null exactly when every inserted key is below `k`, and otherwise the node
it returns holds an inserted key that is `≥ k` and is the smallest such key. -/
theorem FindGreaterOrEqual_smallest_ge_from_new [LinearOrder K] (cmp : K → K → Int)
    (hc : LawfulCmp cmp) (k0 : K) (khs : List (K × Nat)) (hnd : (khs.map Prod.fst).Nodup)
    (hh : ∀ kh ∈ khs, 1 ≤ kh.2 ∧ kh.2 ≤ kMaxHeight) (fuel : Nat)
    (hf : khs.length + kMaxHeight ≤ fuel) (k : K) :
    ∃ s r, insertAll cmp fuel (SkipList.new k0) khs = .ok s ∧
      FindGreaterOrEqual cmp fuel s k none = .ok (r, none) ∧
      (r = none ↔ ∀ key ∈ khs.map Prod.fst, key < k) ∧
      (∀ i, r = some i → s.keyD k0 i ∈ khs.map Prod.fst ∧ k ≤ s.keyD k0 i ∧
        ∀ key ∈ khs.map Prod.fst, k ≤ key → s.keyD k0 i ≤ key) := by
  obtain ⟨s, l, hrun, hinv, hshape, -⟩ := build_spec hc k0 khs hnd hh fuel hf
  have hlen : l.length = khs.length := by
    simpa using (hinv.keys_perm hshape).length_eq
  have hmh := hinv.mh
  obtain ⟨p, q, prev1, hl, hp, hq, hfge, hnone, -⟩ :=
    FGE_spec hc hinv k fuel (by omega) none (fun a ha => by simp at ha)
  rw [hnone rfl] at hfge
  have hsorted := hinv.sorted
  rw [hl, List.pairwise_append] at hsorted
  refine ⟨s, q.head?, hrun, hfge, ?_, ?_⟩
  · constructor
    · intro hq0 key hkey
      obtain ⟨j, hj, rfl⟩ := (mem_keys_iff hinv hshape key).mp hkey
      have : q = [] := by
        cases q with
        | nil => rfl
        | cons a q => simp at hq0
      rw [hl, this, List.append_nil] at hj
      exact hp j hj
    · intro hall
      cases q with
      | nil => rfl
      | cons a q =>
        exfalso
        apply hq a (by simp)
        exact hall _ ((mem_keys_iff hinv hshape _).mpr ⟨a, by simp [hl], rfl⟩)
  · intro i hi
    have hiq : i ∈ q := List.mem_of_mem_head? hi
    refine ⟨(mem_keys_iff hinv hshape _).mpr ⟨i, by simp [hl, hiq], rfl⟩,
      not_lt.mp (hq i hiq), ?_⟩
    intro key hkey hk
    obtain ⟨j, hj, rfl⟩ := (mem_keys_iff hinv hshape key).mp hkey
    rw [hl] at hj
    rcases List.mem_append.mp hj with hj | hj
    · exact absurd (hp j hj) (not_lt.mpr hk)
    · cases q with
      | nil => simp at hj
      | cons a q =>
        have hia : i = a := by simpa using hi.symm
        subst hia
        rcases List.mem_cons.mp hj with rfl | hj
        · exact le_refl _
        · exact le_of_lt ((List.pairwise_cons.mp hsorted.2.1).1 j hj)

/-- Example from the state `SkipList.new` on the scenario 5, 1, 9, 3: `FindGreaterOrEqual(4)` is the node
with key 5 and `FindGreaterOrEqual(10)` is null. -/
theorem FindGreaterOrEqual_smallest_ge_from_new_example :
    (∃ s r, insertAll intCmp 16 (SkipList.new 0) scenario = .ok s ∧
      FindGreaterOrEqual intCmp 16 s 4 none = .ok (r, none) ∧
      (r = none ↔ ∀ key ∈ scenario.map Prod.fst, key < 4) ∧
      (∀ i, r = some i → s.keyD 0 i ∈ scenario.map Prod.fst ∧ 4 ≤ s.keyD 0 i ∧
        ∀ key ∈ scenario.map Prod.fst, 4 ≤ key → s.keyD 0 i ≤ key)) ∧
    scenarioRun.map (fun r => (r.1, r.2.1)) = some (some 5, none) :=
  ⟨FindGreaterOrEqual_smallest_ge_from_new intCmp lawful_intCmp 0 scenario (by decide) (by decide)
    16 (by decide) 4, by decide⟩

/-- From the state `SkipList.new`: on a skip list built by inserting pairwise-distinct keys (heights in
`1..kMaxHeight`) into an empty list, `FindLessThan(k)` returns; it returns the
head sentinel exactly when no inserted key is below `k`, and otherwise the node
it returns holds an inserted key that is `< k` and is the largest such key. -/
theorem FindLessThan_largest_lt_from_new [LinearOrder K] (cmp : K → K → Int)
    (hc : LawfulCmp cmp) (k0 : K) (khs : List (K × Nat)) (hnd : (khs.map Prod.fst).Nodup)
    (hh : ∀ kh ∈ khs, 1 ≤ kh.2 ∧ kh.2 ≤ kMaxHeight) (fuel : Nat)
    (hf : khs.length + kMaxHeight ≤ fuel) (k : K) :
    ∃ s r, insertAll cmp fuel (SkipList.new k0) khs = .ok s ∧
      FindLessThan cmp fuel s k = .ok r ∧
      (r = head_ ↔ ∀ key ∈ khs.map Prod.fst, ¬ key < k) ∧
      (r ≠ head_ → s.keyD k0 r ∈ khs.map Prod.fst ∧ s.keyD k0 r < k ∧
        ∀ key ∈ khs.map Prod.fst, key < k → key ≤ s.keyD k0 r) := by
  obtain ⟨s, l, hrun, hinv, hshape, -⟩ := build_spec hc k0 khs hnd hh fuel hf
  have hlen : l.length = khs.length := by
    simpa using (hinv.keys_perm hshape).length_eq
  have hmh := hinv.mh
  obtain ⟨p, q, hl, hp, hq, hflt⟩ :=
    FLT_loop_spec hc k0 s k fuel head_ (s.max_height_ - 1) l hinv.scan (Or.inl rfl) (by omega)
  have hrun2 : FindLessThan cmp fuel s k = .ok (lastOf head_ p) := by
    have : s.GetMaxHeight ≠ 0 := by unfold SkipList.GetMaxHeight; omega
    simp only [FindLessThan, this, if_false]
    exact hflt
  have hsorted := hinv.sorted
  rw [hl, List.pairwise_append] at hsorted
  have hne0 : ∀ y ∈ p, y ≠ head_ := fun y hy e => by
    have := (hinv.mem y).mp (by simp [hl, hy])
    rw [e] at this; exact Nat.lt_irrefl _ this.1
  have hcase : (p = [] ∧ lastOf head_ p = head_) ∨ (lastOf head_ p ∈ p) := by
    cases p with
    | nil => exact Or.inl ⟨rfl, rfl⟩
    | cons a p => exact Or.inr (lastOf_mem_cons head_ a p)
  refine ⟨s, lastOf head_ p, hrun, hrun2, ?_, ?_⟩
  · constructor
    · intro h0 key hkey
      obtain ⟨j, hj, rfl⟩ := (mem_keys_iff hinv hshape key).mp hkey
      rcases hcase with ⟨hp0, -⟩ | hmem
      · rw [hl, hp0, List.nil_append] at hj
        exact hq j hj
      · exact absurd h0 (hne0 _ hmem)
    · intro hall
      rcases hcase with ⟨-, h0⟩ | hmem
      · exact h0
      · exfalso
        exact hall _ ((mem_keys_iff hinv hshape _).mpr ⟨_, by simp [hl, hmem], rfl⟩)
          (hp _ hmem)
  · intro hr
    rcases hcase with ⟨-, h0⟩ | hmem
    · exact absurd h0 hr
    · refine ⟨(mem_keys_iff hinv hshape _).mpr ⟨_, by simp [hl, hmem], rfl⟩, hp _ hmem, ?_⟩
      intro key hkey hk
      obtain ⟨j, hj, rfl⟩ := (mem_keys_iff hinv hshape key).mp hkey
      rw [hl] at hj
      rcases List.mem_append.mp hj with hj | hj
      · exact le_lastOf (s.keyD k0) p head_ hsorted.1 j hj
      · exact absurd hk (hq j hj)

/-- Example from the state `SkipList.new` on the scenario 5, 1, 9, 3: `FindLessThan(5)` is the node with
key 3. -/
theorem FindLessThan_largest_lt_from_new_example :
    (∃ s r, insertAll intCmp 16 (SkipList.new 0) scenario = .ok s ∧
      FindLessThan intCmp 16 s 5 = .ok r ∧
      (r = head_ ↔ ∀ key ∈ scenario.map Prod.fst, ¬ key < 5) ∧
      (r ≠ head_ → s.keyD 0 r ∈ scenario.map Prod.fst ∧ s.keyD 0 r < 5 ∧
        ∀ key ∈ scenario.map Prod.fst, key < 5 → key ≤ s.keyD 0 r)) ∧
    scenarioRun.map (fun r => r.2.2.1) = some 3 :=
  ⟨FindLessThan_largest_lt_from_new intCmp lawful_intCmp 0 scenario (by decide) (by decide)
    16 (by decide) 5, by decide⟩

/-- From the state `SkipList.new`: on a skip list built by inserting pairwise-distinct keys (heights in
`1..kMaxHeight`) into an empty list, `FindLast()` returns; it returns the head
sentinel exactly when nothing was inserted, and otherwise the node it returns
holds the maximum inserted key. -/
theorem FindLast_maximum_from_new [LinearOrder K] (cmp : K → K → Int)
    (hc : LawfulCmp cmp) (k0 : K) (khs : List (K × Nat)) (hnd : (khs.map Prod.fst).Nodup)
    (hh : ∀ kh ∈ khs, 1 ≤ kh.2 ∧ kh.2 ≤ kMaxHeight) (fuel : Nat)
    (hf : khs.length + kMaxHeight ≤ fuel) :
    ∃ s r, insertAll cmp fuel (SkipList.new k0) khs = .ok s ∧ FindLast fuel s = .ok r ∧
      (r = head_ ↔ khs = []) ∧
      (r ≠ head_ → s.keyD k0 r ∈ khs.map Prod.fst ∧
        ∀ key ∈ khs.map Prod.fst, key ≤ s.keyD k0 r) := by
  obtain ⟨s, l, hrun, hinv, hshape, -⟩ := build_spec hc k0 khs hnd hh fuel hf
  have hlen : l.length = khs.length := by
    simpa using (hinv.keys_perm hshape).length_eq
  have hmh := hinv.mh
  have hlast := FindLast_loop_spec k0 s fuel head_ (s.max_height_ - 1) l hinv.scan (by omega)
  have hrun2 : FindLast fuel s = .ok (lastOf head_ l) := by
    have : s.GetMaxHeight ≠ 0 := by unfold SkipList.GetMaxHeight; omega
    simp only [FindLast, this, if_false]
    exact hlast
  have hne0 : ∀ y ∈ l, y ≠ head_ := fun y hy e => by
    have := (hinv.mem y).mp hy
    rw [e] at this; exact Nat.lt_irrefl _ this.1
  have hcase : (l = [] ∧ lastOf head_ l = head_) ∨ (lastOf head_ l ∈ l) := by
    cases l with
    | nil => exact Or.inl ⟨rfl, rfl⟩
    | cons a l => exact Or.inr (lastOf_mem_cons head_ a l)
  refine ⟨s, lastOf head_ l, hrun, hrun2, ?_, ?_⟩
  · constructor
    · intro h0
      rcases hcase with ⟨hl0, -⟩ | hmem
      · rw [hl0] at hlen
        exact List.length_eq_zero.mp hlen.symm
      · exact absurd h0 (hne0 _ hmem)
    · intro hk
      rcases hcase with ⟨-, h0⟩ | hmem
      · exact h0
      · rw [hk] at hlen
        rw [List.length_eq_zero.mp hlen] at hmem
        simp at hmem
  · intro hr
    rcases hcase with ⟨-, h0⟩ | hmem
    · exact absurd h0 hr
    · refine ⟨(mem_keys_iff hinv hshape _).mpr ⟨_, hmem, rfl⟩, ?_⟩
      intro key hkey
      obtain ⟨j, hj, rfl⟩ := (mem_keys_iff hinv hshape key).mp hkey
      exact le_lastOf (s.keyD k0) l head_ hinv.sorted j hj

/-- Example from the state `SkipList.new` on the scenario 5, 1, 9, 3: `FindLast()` is the node with
key 9. -/
theorem FindLast_maximum_from_new_example :
    (∃ s r, insertAll intCmp 16 (SkipList.new 0) scenario = .ok s ∧ FindLast 16 s = .ok r ∧
      (r = head_ ↔ scenario = []) ∧
      (r ≠ head_ → s.keyD 0 r ∈ scenario.map Prod.fst ∧
        ∀ key ∈ scenario.map Prod.fst, key ≤ s.keyD 0 r)) ∧
    scenarioRun.map (fun r => r.2.2.2.1) = some 9 :=
  ⟨FindLast_maximum_from_new intCmp lawful_intCmp 0 scenario (by decide) (by decide) 16
    (by decide), by decide⟩

/-- C5 (code evaluated at the failing input): after `Insert(5)` the node found by
`FindGreaterOrEqual(5)` holds a key equal to 5, yet `Contians(5)` answers false;
indeed `Contians` answers false on every list and key. -/
theorem C5_Contians_always_false :
    containsRun = some (true, false) ∧
    ∀ (s : SkipList Int) (key : Int), Contians s key = false :=
  ⟨by decide, fun _ _ => rfl⟩

/-- The loop of `RandomHeight` always stops, with a height between the start
height and `kMaxHeight + 1`. -/
theorem RandomHeight_loop_bounds :
    ∀ (fuel height : Nat) (rnd : Random), kMaxHeight + 2 ≤ height + fuel →
      height ≤ kMaxHeight + 1 →
      ∃ h rnd1, RandomHeight.loop fuel height rnd = some (h, rnd1) ∧ height ≤ h ∧
        h ≤ kMaxHeight + 1 := by
  intro fuel
  induction fuel with
  | zero => intro height rnd h1 h2; omega
  | succ fuel ih =>
    intro height rnd h1 h2
    by_cases hle : height ≤ kMaxHeight
    · cases hd : rnd.OneIn 4 with
      | mk b rnd1 =>
        cases b with
        | true =>
          obtain ⟨h, r, e1, e2, e3⟩ := ih (height + 1) rnd1 (by omega) (by omega)
          exact ⟨h, r, by simp [RandomHeight.loop, hle, hd, e1], by omega, e3⟩
        | false =>
          exact ⟨height, rnd1, by simp [RandomHeight.loop, hle, hd], Nat.le_refl _, h2⟩
    · exact ⟨height, rnd, by simp [RandomHeight.loop, hle], Nat.le_refl _, h2⟩

/-- C6 (code evaluated at the failing input): from the generator state
`seed_ = 514449450` the twelve draws `OneIn(4)` all succeed, the loop of
`RandomHeight` leaves `height = 13 = kMaxHeight + 1`, and the closing assertion
`height <= kMaxHeight` fails. -/
theorem C6_RandomHeight_reaches_13 :
    RandomHeight.loop (kMaxHeight + 2) 1 ⟨514449450⟩ = some (13, ⟨2000068748⟩) ∧
    RandomHeight ⟨514449450⟩ = .error .assertion :=
  ⟨by decide, rfl⟩

theorem SetNext_max_height {s t : SkipList K} {x n : Nat} {v : Option Nat}
    (h : s.SetNext x n v = .ok t) : t.max_height_ = s.max_height_ := by
  unfold SkipList.SetNext at h
  split at h
  · cases h
  · split at h
    · cases h; rfl
    · cases h

theorem link_max_height (prev : List (Option Nat)) (x : Nat) :
    ∀ (count i : Nat) (s t : SkipList K), Insert.link prev x i count s = .ok t →
      t.max_height_ = s.max_height_ := by
  intro count
  induction count with
  | zero => intro i s t h; cases h; rfl
  | succ count ih =>
    intro i s t h
    unfold Insert.link at h
    split at h
    · split at h
      · cases h
      · split at h
        · cases h
        · split at h
          · cases h
          · rename_i hs1 _ _ hs2
            rw [ih _ _ _ h, SetNext_max_height hs2, SetNext_max_height hs1]
    · cases h

/-- A returning `Insert` leaves `max_height_` at the larger of its old value and
the height of the new node, on every state. -/
theorem Insert_max_height {cmp : K → K → Int} {fuel : Nat} {s t : SkipList K} {key : K}
    {height : Nat} (h : Insert cmp fuel s key height = .ok t) :
    t.max_height_ = max s.max_height_ height := by
  unfold Insert at h
  split at h
  · cases h
  · cases h
  · split at h
    · cases h
    · cases h
    · split at h
      · cases h
      · by_cases h0 : height = 0
        · simp [NewNode, h0] at h
        · simp only [NewNode, h0, if_false] at h
          rw [link_max_height _ _ _ _ _ _ h]
          unfold SkipList.GetMaxHeight
          by_cases hgt : height > s.max_height_
          · simp [hgt]; omega
          · simp [hgt]; omega

theorem insertAll_max_height {cmp : K → K → Int} {fuel : Nat} :
    ∀ (khs : List (K × Nat)) (s t : SkipList K), insertAll cmp fuel s khs = .ok t →
      t.max_height_ = maxHeightOf s.max_height_ khs := by
  intro khs
  induction khs with
  | nil => intro s t h; cases h; rfl
  | cons kh rest ih =>
    intro s t h
    obtain ⟨key, height⟩ := kh
    unfold insertAll at h
    split at h
    · cases h
    · rename_i s1 hs1
      rw [ih s1 t h, Insert_max_height hs1]; rfl

theorem le_maxHeightOf (khs : List (K × Nat)) : ∀ m : Nat, m ≤ maxHeightOf m khs := by
  induction khs with
  | nil => intro m; exact Nat.le_refl _
  | cons kh rest ih =>
    intro m
    exact Nat.le_trans (Nat.le_max_left m kh.2) (ih (max m kh.2))

theorem atLevel_succ (s : SkipList K) (L : Nat) (l : List Nat) :
    atLevel s (L + 1) l = atLevel s (L + 1) (atLevel s L l) := by
  unfold atLevel
  rw [List.filter_filter]
  apply List.filter_congr
  intro y _
  by_cases h : L + 1 < s.height y
  · have : L < s.height y := by omega
    simp [h, this]
  · simp [h]

theorem height_of_shape {s : SkipList K} {k : K × Nat} {khs : List (K × Nat)}
    (hs : s.shape = k :: khs) {i : Nat} {kh : K × Nat} (hi : khs[i]? = some kh) :
    s.height (i + 1) = kh.2 := by
  rw [height_eq_shape, hs]
  simp [hi]

/-- From the state `SkipList.new`: after inserting pairwise-distinct keys (heights in `1..kMaxHeight`) into
an empty skip list, where node `i + 1` is the node of the `i`-th insert and has
the height drawn for it, the chain of every level `L` with `0 < L < kMaxHeight`
is a sublist (same relative order) of the chain of level `L - 1`, and consists
exactly of the nodes of the level-0 chain, that is of all inserted nodes, whose
height is greater than `L`. -/
theorem level_chain_sublist_from_new [LinearOrder K] (cmp : K → K → Int) (hc : LawfulCmp cmp)
    (k0 : K) (khs : List (K × Nat)) (hnd : (khs.map Prod.fst).Nodup)
    (hh : ∀ kh ∈ khs, 1 ≤ kh.2 ∧ kh.2 ≤ kMaxHeight) (fuel : Nat)
    (hf : khs.length + kMaxHeight ≤ fuel) (L : Nat) (hL0 : 0 < L) (hL : L < kMaxHeight) :
    ∃ s c0 cm cL, insertAll cmp fuel (SkipList.new k0) khs = .ok s ∧
      (∀ i kh, khs[i]? = some kh → s.height (i + 1) = kh.2) ∧
      s.chain fuel 0 = .ok c0 ∧ s.chain fuel (L - 1) = .ok cm ∧ s.chain fuel L = .ok cL ∧
      c0.Perm (List.range' 1 khs.length) ∧
      cL.Sublist cm ∧ cL = c0.filter (fun i => decide (L < s.height i)) := by
  obtain ⟨s, l, hrun, hinv, hshape, -⟩ := build_spec hc k0 khs hnd hh fuel hf
  have hlen : l.length = khs.length := by
    simpa using (hinv.keys_perm hshape).length_eq
  have hl0 : atLevel s 0 l = l := atLevel_zero hinv.scan
  have hfuel : ∀ M, (atLevel s M l).length < fuel := fun M => by
    have := (atLevel_sublist s M l).length_le
    unfold kMaxHeight at hf; omega
  have hchain : ∀ M, M < kMaxHeight → s.chain fuel M = .ok (atLevel s M l) := fun M hM =>
    chainFrom_of_Linked _ _ (hinv.links M hM) (hfuel M)
  have hperm := hinv.perm_range
  have hnl : s.nodes.length - 1 = khs.length := by
    rw [← shape_length, hshape]; simp
  rw [hnl] at hperm
  obtain ⟨M, rfl⟩ : ∃ M, L = M + 1 := ⟨L - 1, by omega⟩
  refine ⟨s, l, atLevel s M l, atLevel s (M + 1) l, hrun,
    fun i kh hi => height_of_shape hshape hi, ?_, ?_, hchain (M + 1) hL, hperm, ?_, rfl⟩
  · rw [hchain 0 (by decide), hl0]
  · exact hchain M (by omega)
  · rw [atLevel_succ]
    exact atLevel_sublist s (M + 1) _

/-- Example from the state `SkipList.new` on the scenario 5, 1, 9, 3 at level 1. -/
theorem level_chain_sublist_from_new_example :
    ∃ s c0 cm cL, insertAll intCmp 16 (SkipList.new 0) scenario = .ok s ∧
      (∀ i kh, scenario[i]? = some kh → s.height (i + 1) = kh.2) ∧
      s.chain 16 0 = .ok c0 ∧ s.chain 16 (1 - 1) = .ok cm ∧ s.chain 16 1 = .ok cL ∧
      c0.Perm (List.range' 1 scenario.length) ∧
      cL.Sublist cm ∧ cL = c0.filter (fun i => decide (1 < s.height i)) :=
  level_chain_sublist_from_new intCmp lawful_intCmp 0 scenario (by decide) (by decide) 16
    (by decide) 1 (by decide) (by decide)

/-- From the state `SkipList.new`: on a skip list built by inserting pairwise-distinct keys (heights in
`1..kMaxHeight`) into an empty list, the search of `Insert(key)` returns some `x`,
and the asserted expression `x == nullptr || !Equal(key, x->key)` is false
exactly when an inserted key compares equal to `key`.  So a duplicate `Insert`
always stops at the assertion, and an `Insert` of a new key (with a height in
`1..kMaxHeight`) passes it and returns. -/
theorem duplicate_assertion_from_new [LinearOrder K] (cmp : K → K → Int) (hc : LawfulCmp cmp)
    (k0 : K) (khs : List (K × Nat)) (hnd : (khs.map Prod.fst).Nodup)
    (hh : ∀ kh ∈ khs, 1 ≤ kh.2 ∧ kh.2 ≤ kMaxHeight) (fuel : Nat)
    (hf : khs.length + kMaxHeight ≤ fuel) (key : K) :
    ∃ s x prev, insertAll cmp fuel (SkipList.new k0) khs = .ok s ∧
      FindGreaterOrEqual cmp fuel s key (some (List.replicate kMaxHeight none)) =
        .ok (x, prev) ∧
      (Insert.check cmp s key x = .ok false ↔ ∃ k1 ∈ khs.map Prod.fst, cmp key k1 = 0) ∧
      (Insert.check cmp s key x = .ok true ↔ ¬ ∃ k1 ∈ khs.map Prod.fst, cmp key k1 = 0) ∧
      ((∃ k1 ∈ khs.map Prod.fst, cmp key k1 = 0) →
        ∀ h, Insert cmp fuel s key h = .error .assertion) ∧
      ((¬ ∃ k1 ∈ khs.map Prod.fst, cmp key k1 = 0) →
        ∀ h, 1 ≤ h → h ≤ kMaxHeight → ∃ s1, Insert cmp fuel s key h = .ok s1) := by
  obtain ⟨s, l, hrun, hinv, hshape, -⟩ := build_spec hc k0 khs hnd hh fuel hf
  have hlen : l.length = khs.length := by
    simpa using (hinv.keys_perm hshape).length_eq
  have hmh := hinv.mh
  have hfuel : l.length + s.max_height_ ≤ fuel := by omega
  obtain ⟨p, q, prev1, hl, hp, hq, hfge, -, hsome⟩ :=
    FGE_spec hc hinv key fuel hfuel (some (List.replicate kMaxHeight none)) (fun a ha => by
      cases ha; simp)
  obtain ⟨a1, rfl, -⟩ := hsome _ rfl
  have hsorted := hinv.sorted
  rw [hl, List.pairwise_append] at hsorted
  have hdup : (∃ k1 ∈ khs.map Prod.fst, cmp key k1 = 0) ↔
      ∃ y, q.head? = some y ∧ s.keyD k0 y = key := by
    constructor
    · rintro ⟨k1, hk1, hc0⟩
      have hk : key = k1 := (hc _ _).2.mp hc0
      subst hk
      obtain ⟨j, hj, hjk⟩ := (mem_keys_iff hinv hshape key).mp hk1
      rw [hl] at hj
      rcases List.mem_append.mp hj with hj | hj
      · exact absurd (hjk ▸ hp j hj) (lt_irrefl _)
      · cases q with
        | nil => simp at hj
        | cons a q =>
          refine ⟨a, rfl, ?_⟩
          rcases List.mem_cons.mp hj with rfl | hj
          · exact hjk
          · have h1 := (List.pairwise_cons.mp hsorted.2.1).1 j hj
            rw [hjk] at h1
            exact absurd h1 (hq a (by simp))
    · rintro ⟨y, hy, hyk⟩
      have hyq : y ∈ q := List.mem_of_mem_head? hy
      exact ⟨key, (mem_keys_iff hinv hshape key).mpr ⟨y, by simp [hl, hyq], hyk⟩,
        (hc _ _).2.mpr rfl⟩
  have hcheck : Insert.check cmp s key q.head? =
      .ok (decide (¬ ∃ y, q.head? = some y ∧ s.keyD k0 y = key)) := by
    cases hq0 : q.head? with
    | none => simp [Insert.check]
    | some y =>
      have hyl : y ∈ l := by rw [hl]; simp [List.mem_of_mem_head? hq0]
      have hiff : cmp key (s.keyD k0 y) = 0 ↔ s.keyD k0 y = key := by
        rw [(hc _ _).2]; exact eq_comm
      by_cases hyk : s.keyD k0 y = key
      · simp [Insert.check, keyAt_of_lt k0 ((hinv.mem y).mp hyl).2, Equal, hyk,
          (hc key key).2.mpr rfl]
      · have : ¬ cmp key (s.keyD k0 y) = 0 := fun e => hyk (hiff.mp e)
        simp [Insert.check, keyAt_of_lt k0 ((hinv.mem y).mp hyl).2, Equal, hyk, this]
  refine ⟨s, q.head?, some a1, hrun, hfge, ?_, ?_, ?_, ?_⟩
  · rw [hcheck, hdup]; simp
  · rw [hcheck, hdup]; simp
  · intro hd h
    have : Insert.check cmp s key q.head? = .ok false := by
      rw [hcheck]; simpa using hdup.mp hd
    simp only [Insert, hfge, this]
  · intro hd h h1 h12
    have hfresh : ∀ i ∈ l, s.keyD k0 i ≠ key := by
      intro i hi e
      exact hd ⟨key, (mem_keys_iff hinv hshape key).mpr ⟨i, hi, e⟩, (hc _ _).2.mpr rfl⟩
    obtain ⟨s1, _, _, hins, -⟩ := Insert_spec hc hinv key hfresh h1 h12 fuel hfuel
    exact ⟨s1, hins⟩

/-- Example from the state `SkipList.new` on the scenario 5, 1, 9, 3 and the duplicate key 9, which
also evaluates `Insert(9)` there: it stops at the assertion. -/
theorem duplicate_assertion_from_new_example :
    (∃ s x prev, insertAll intCmp 16 (SkipList.new 0) scenario = .ok s ∧
      FindGreaterOrEqual intCmp 16 s 9 (some (List.replicate kMaxHeight none)) =
        .ok (x, prev) ∧
      (Insert.check intCmp s 9 x = .ok false ↔
        ∃ k1 ∈ scenario.map Prod.fst, intCmp 9 k1 = 0) ∧
      (Insert.check intCmp s 9 x = .ok true ↔
        ¬ ∃ k1 ∈ scenario.map Prod.fst, intCmp 9 k1 = 0) ∧
      ((∃ k1 ∈ scenario.map Prod.fst, intCmp 9 k1 = 0) →
        ∀ h, Insert intCmp 16 s 9 h = .error .assertion) ∧
      ((¬ ∃ k1 ∈ scenario.map Prod.fst, intCmp 9 k1 = 0) →
        ∀ h, 1 ≤ h → h ≤ kMaxHeight → ∃ s1, Insert intCmp 16 s 9 h = .ok s1)) ∧
    insertAll intCmp 16 (SkipList.new 0) (scenario ++ [(9, 1)]) = .error .assertion :=
  ⟨duplicate_assertion_from_new intCmp lawful_intCmp 0 scenario (by decide) (by decide) 16
    (by decide) 9, rfl⟩

theorem maxHeightOf_spec (khs : List (K × Nat)) : ∀ m : Nat,
    (∀ kh ∈ khs, kh.2 ≤ maxHeightOf m khs) ∧
    (maxHeightOf m khs = m ∨ ∃ kh ∈ khs, kh.2 = maxHeightOf m khs) := by
  induction khs with
  | nil => intro m; exact ⟨fun kh h => by simp at h, Or.inl rfl⟩
  | cons a rest ih =>
    intro m
    obtain ⟨h1, h2⟩ := ih (max m a.2)
    have hle := le_maxHeightOf rest (max m a.2)
    have hunf : maxHeightOf m (a :: rest) = maxHeightOf (max m a.2) rest := rfl
    rw [hunf]
    refine ⟨?_, ?_⟩
    · intro kh hkh
      rcases List.mem_cons.mp hkh with rfl | hkh
      · exact Nat.le_trans (Nat.le_max_right m kh.2) hle
      · exact h1 kh hkh
    · rcases h2 with h2 | ⟨kh, hkh, h2⟩
      · by_cases hma : a.2 ≤ m
        · left; rw [h2]; exact Nat.max_eq_left hma
        · right
          exact ⟨a, by simp, by rw [h2]; exact (Nat.max_eq_right (by omega)).symm⟩
      · exact Or.inr ⟨kh, by simp [hkh], h2⟩

/-- From the state `SkipList.new`: `max_height_` is 1 there; every returning `Insert`, on any
state, leaves it at least as large as before (at the larger of its old value and
the new node's height); and after inserting pairwise-distinct keys (heights in
`1..kMaxHeight`) into an empty list it is the maximum of 1 and the heights of the
inserted nodes. -/
theorem max_height_monotone_from_new [LinearOrder K] (cmp : K → K → Int) (hc : LawfulCmp cmp)
    (k0 : K) :
    (SkipList.new k0).max_height_ = 1 ∧
    (∀ (fuel : Nat) (s t : SkipList K) (key : K) (height : Nat),
      Insert cmp fuel s key height = .ok t →
        s.max_height_ ≤ t.max_height_ ∧ t.max_height_ = max s.max_height_ height) ∧
    (∀ (khs : List (K × Nat)), (khs.map Prod.fst).Nodup →
      (∀ kh ∈ khs, 1 ≤ kh.2 ∧ kh.2 ≤ kMaxHeight) →
      ∀ fuel, khs.length + kMaxHeight ≤ fuel →
      ∃ s, insertAll cmp fuel (SkipList.new k0) khs = .ok s ∧
        s.max_height_ = khs.foldl (fun a kh => max a kh.2) 1 ∧
        1 ≤ s.max_height_ ∧ (∀ kh ∈ khs, kh.2 ≤ s.max_height_) ∧
        (s.max_height_ = 1 ∨ ∃ kh ∈ khs, kh.2 = s.max_height_)) := by
  refine ⟨rfl, ?_, ?_⟩
  · intro fuel s t key height h
    have := Insert_max_height h
    exact ⟨by rw [this]; exact Nat.le_max_left _ _, this⟩
  · intro khs hnd hh fuel hf
    obtain ⟨s, l, hrun, hinv, -, hm⟩ := build_spec hc k0 khs hnd hh fuel hf
    have hspec := maxHeightOf_spec khs 1
    rw [← hm] at hspec
    exact ⟨s, hrun, hm, hinv.mh.1, hspec.1, hspec.2⟩

/-- Example from the state `SkipList.new`: the first `Insert(5)` of the scenario raises `max_height_`
from 1 to 2, and after the whole scenario it is 2. -/
theorem max_height_monotone_from_new_example :
    (Insert intCmp 16 (SkipList.new 0) 5 2 = .ok afterFive ∧
      (SkipList.new (0 : Int)).max_height_ ≤ afterFive.max_height_ ∧
      afterFive.max_height_ = max (SkipList.new (0 : Int)).max_height_ 2) ∧
    (∃ s, insertAll intCmp 16 (SkipList.new 0) scenario = .ok s ∧
      s.max_height_ = scenario.foldl (fun a kh => max a kh.2) 1 ∧
      1 ≤ s.max_height_ ∧ (∀ kh ∈ scenario, kh.2 ≤ s.max_height_) ∧
      (s.max_height_ = 1 ∨ ∃ kh ∈ scenario, kh.2 = s.max_height_)) :=
  ⟨⟨rfl, (max_height_monotone_from_new intCmp lawful_intCmp 0).2.1 16 (SkipList.new 0) afterFive 5 2
      rfl⟩,
    (max_height_monotone_from_new intCmp lawful_intCmp 0).2.2 scenario (by decide) (by decide) 16
      (by decide)⟩

/-! ## `util/arena.h`, `util/arena.cpp` -/

/-- Rounding an address up by `slop` makes it a multiple of `align`. -/
theorem add_slop_mod (x A : Nat) (hA : 0 < A) :
    (x + (if x % A = 0 then 0 else A - x % A)) % A = 0 := by
  by_cases h : x % A = 0
  · simp [h]
  · simp only [h, if_false]
    have h1 := Nat.div_add_mod x A
    have h2 := Nat.mod_lt x hA
    have h3 : x + (A - x % A) = A * (x / A + 1) := by
      rw [Nat.mul_add, Nat.mul_one]
      generalize A * (x / A) = q at h1 ⊢
      generalize x % A = r at h1 h2 ⊢
      omega
    rw [h3, Nat.mul_mod_right]

theorem align_mask (P : Platform) (hP : ∃ k, P.align = 2 ^ k) (x : Nat) :
    x &&& (P.align - 1) = x % P.align := by
  obtain ⟨k, hk⟩ := hP
  rw [hk, Nat.and_pow_two_sub_one_eq_mod]

theorem align_pos (P : Platform) : 0 < P.align := by
  unfold Platform.align
  split <;> omega

theorem add_mod_mod (m x W : Nat) : (m + x % W) % W = (m + x) % W := by
  rw [Nat.add_mod, Nat.mod_mod, ← Nat.add_mod]

/-- What `AllocateFallback` does: one new block, of the requested size when that
exceeds a quarter block and of the standard size otherwise. -/
theorem AllocateFallback_spec (P : Platform) (a : Arena) (bytes : Nat) :
    (a.AllocateFallback P bytes).1 = P.newChar a.blocks_.length
        (if bytes > kBlockSize / 4 then bytes else kBlockSize) ∧
      (a.AllocateFallback P bytes).2.blocks_ = a.blocks_ ++
        [⟨(a.AllocateFallback P bytes).1, if bytes > kBlockSize / 4 then bytes else kBlockSize⟩] ∧
      (a.AllocateFallback P bytes).2.memory_usage_ =
        (a.memory_usage_ + ((if bytes > kBlockSize / 4 then bytes else kBlockSize) + P.ptr))
          % P.sizeMax := by
  by_cases h : bytes > kBlockSize / 4
  · simp [Arena.AllocateFallback, h, Arena.AllocateNewBlock, add_mod_mod]
  · simp [Arena.AllocateFallback, h, Arena.AllocateNewBlock, add_mod_mod]

/-- One request: served from the current block it leaves the blocks and the
counter alone; otherwise it creates exactly one block and counts it. -/
theorem serve_spec (P : Platform) (a0 a1 : Arena) (r : Request) (p : Nat)
    (h : a0.serve P r = .ok (p, a1)) :
    (a0.fits P r = true → a1.blocks_ = a0.blocks_ ∧ a1.memory_usage = a0.memory_usage) ∧
    (a0.fits P r = false → ∃ b, a1.blocks_ = a0.blocks_ ++ [b] ∧ b.base = p ∧
      b.size = (if r.bytes > kBlockSize / 4 then r.bytes else kBlockSize) ∧
      a1.memory_usage = (a0.memory_usage + (b.size + P.ptr)) % P.sizeMax) := by
  have hfb := AllocateFallback_spec P a0 r.bytes
  cases r with
  | allocate n =>
    simp only [Request.bytes] at hfb ⊢
    simp only [Arena.serve, Arena.Allocate] at h
    by_cases hn : n > 0
    · by_cases hfit : n ≤ a0.alloc_bytes_remaining_
      · simp only [hn, not_true, if_false, hfit, if_true] at h
        obtain ⟨-, rfl⟩ := Prod.mk.inj (Except.ok.inj h)
        exact ⟨fun _ => ⟨rfl, rfl⟩, fun hnf => by simp [Arena.fits, hfit] at hnf⟩
      · simp only [hn, not_true, if_false, hfit] at h
        have h1 := Except.ok.inj h
        rw [h1] at hfb
        exact ⟨fun hf => absurd (by simpa [Arena.fits] using hf) hfit,
          fun _ => ⟨_, hfb.2.1, rfl, rfl, hfb.2.2⟩⟩
    · simp [hn] at h
  | aligned n =>
    simp only [Request.bytes] at hfb ⊢
    simp only [Arena.serve, Arena.AllocateAligned] at h
    by_cases hr : (Arena.AllocateAligned.body P a0 n).1 &&& (P.align - 1) = 0
    · simp only [hr, if_true] at h
      have h1 := Except.ok.inj h
      by_cases hfit : (n + a0.slop P) % P.sizeMax ≤ a0.alloc_bytes_remaining_
      · simp only [Arena.AllocateAligned.body, hfit, if_true] at h1
        obtain ⟨-, rfl⟩ := Prod.mk.inj h1
        exact ⟨fun _ => ⟨rfl, rfl⟩, fun hnf => by simp [Arena.fits, hfit] at hnf⟩
      · simp only [Arena.AllocateAligned.body, hfit, if_false] at h1
        rw [h1] at hfb
        exact ⟨fun hf => absurd (by simpa [Arena.fits] using hf) hfit,
          fun _ => ⟨_, hfb.2.1, rfl, rfl, hfb.2.2⟩⟩
    · simp [hr] at h

/-- Every request with a valid size is served when block bases are aligned. -/
theorem serve_total (P : Platform) (hP : ∃ k, P.align = 2 ^ k)
    (hnew : ∀ k n, P.newChar k n % P.align = 0) (a : Arena) (r : Request)
    (hpos : ∀ n, r = .allocate n → 0 < n) : ∃ p a1, a.serve P r = .ok (p, a1) := by
  cases r with
  | allocate n =>
    have hn := hpos n rfl
    simp only [Arena.serve, Arena.Allocate]
    by_cases hfit : n ≤ a.alloc_bytes_remaining_
    · exact ⟨a.alloc_ptr_,
        ⟨a.alloc_ptr_ + n, a.alloc_bytes_remaining_ - n, a.blocks_, a.memory_usage_⟩,
        by simp only [hn, not_true, if_false, hfit, if_true]⟩
    · exact ⟨(a.AllocateFallback P n).1, (a.AllocateFallback P n).2,
        by simp only [hn, not_true, if_false, hfit]⟩
  | aligned n =>
    have hr : (Arena.AllocateAligned.body P a n).1 &&& (P.align - 1) = 0 := by
      rw [align_mask P hP]
      by_cases hfit : (n + a.slop P) % P.sizeMax ≤ a.alloc_bytes_remaining_
      · have hb : (Arena.AllocateAligned.body P a n).1 = a.alloc_ptr_ + a.slop P := by
          simp only [Arena.AllocateAligned.body, hfit, if_true]
        rw [hb]
        simp only [Arena.slop, align_mask P hP]
        exact add_slop_mod _ _ (align_pos P)
      · simp only [Arena.AllocateAligned.body, hfit, if_false]
        rw [(AllocateFallback_spec P a n).1]
        exact hnew _ _
    exact ⟨(Arena.AllocateAligned.body P a n).1, (Arena.AllocateAligned.body P a n).2,
      by simp only [Arena.serve, Arena.AllocateAligned, hr, if_true]⟩

theorem blocksTotal_append (P : Platform) (bs : List Block) (b : Block) :
    blocksTotal P (bs ++ [b]) = blocksTotal P bs + (b.size + P.ptr) := by
  simp [blocksTotal]

/-- A run of requests, from any arena whose counter agrees with its blocks. -/
theorem run_spec (P : Platform) (hP : ∃ k, P.align = 2 ^ k)
    (hnew : ∀ k n, P.newChar k n % P.align = 0) :
    ∀ (reqs : List Request) (a : Arena),
      (∀ n, Request.allocate n ∈ reqs → 0 < n) →
      a.memory_usage_ = blocksTotal P a.blocks_ % P.sizeMax →
      ∃ addrs a1 bs, Arena.run P a reqs = .ok (addrs, a1) ∧ a1.blocks_ = a.blocks_ ++ bs ∧
        a1.memory_usage_ = blocksTotal P a1.blocks_ % P.sizeMax ∧
        (∀ b ∈ bs, b.size = kBlockSize ∨
          (kBlockSize / 4 < b.size ∧ ∃ r ∈ reqs, r.bytes = b.size)) := by
  intro reqs
  induction reqs with
  | nil =>
    intro a _ hm
    exact ⟨[], a, [], rfl, by simp, hm, fun b hb => by simp at hb⟩
  | cons r rs ih =>
    intro a hpos hm
    obtain ⟨p, a1, hserve⟩ := serve_total P hP hnew a r (fun n hn => hpos n (by simp [hn]))
    have hspec := serve_spec P a a1 r p hserve
    have hm1 : a1.memory_usage_ = blocksTotal P a1.blocks_ % P.sizeMax ∧
        ∃ bs1, a1.blocks_ = a.blocks_ ++ bs1 ∧ ∀ b ∈ bs1, b.size = kBlockSize ∨
          (kBlockSize / 4 < b.size ∧ r.bytes = b.size) := by
      by_cases hfit : a.fits P r = true
      · obtain ⟨e1, e2⟩ := hspec.1 hfit
        refine ⟨?_, [], by simp [e1], fun b hb => by simp at hb⟩
        rw [e1]
        exact e2.trans hm
      · obtain ⟨b, e1, -, e3, e4⟩ := hspec.2 (by simpa using hfit)
        refine ⟨?_, [b], e1, ?_⟩
        · rw [e1, blocksTotal_append]
          have e4' : a1.memory_usage_ = (a.memory_usage_ + (b.size + P.ptr)) % P.sizeMax := e4
          rw [e4', hm, Nat.add_comm _ (b.size + P.ptr), add_mod_mod, Nat.add_comm]
        · intro b1 hb1
          have : b1 = b := by simpa using hb1
          subst this
          by_cases hbig : r.bytes > kBlockSize / 4
          · simp only [hbig, if_true] at e3
            exact Or.inr ⟨by rw [e3]; exact hbig, e3.symm⟩
          · simp only [hbig, if_false] at e3
            exact Or.inl e3
    obtain ⟨hm1, bs1, hb1, hbs1⟩ := hm1
    obtain ⟨addrs, a2, bs2, hrun, hb2, hm2, hbs2⟩ :=
      ih a1 (fun n hn => hpos n (by simp [hn])) hm1
    refine ⟨p :: addrs, a2, bs1 ++ bs2, by simp [Arena.run, hserve, hrun],
      by rw [hb2, hb1, List.append_assoc], hm2, ?_⟩
    intro b hb
    rcases List.mem_append.mp hb with hb | hb
    · rcases hbs1 b hb with h | ⟨h1, h2⟩
      · exact Or.inl h
      · exact Or.inr ⟨h1, r, by simp, h2⟩
    · rcases hbs2 b hb with h | ⟨h1, r1, hr1, h2⟩
      · exact Or.inl h
      · exact Or.inr ⟨h1, r1, by simp [hr1], h2⟩

/-- C10: on a platform whose `align` is a power of two and whose `new char[]`
returns aligned blocks, every sequence of `Allocate` (positive sizes) and
`AllocateAligned` calls on a fresh arena returns, and afterwards
`memory_usage()` is the sum over the created blocks of block size plus
`sizeof(char*)`, as a `size_t` (so exactly that sum whenever the sum is
representable); every block is a standard `kBlockSize` block or a dedicated block
of exactly the size of a request above `kBlockSize / 4`; and a single request
served from the current block leaves blocks and `memory_usage()` unchanged, while
one that does not fit adds exactly one block and counts it. -/
theorem C10_memory_usage_sum (P : Platform) (hP : ∃ k, P.align = 2 ^ k)
    (hnew : ∀ k n, P.newChar k n % P.align = 0) (reqs : List Request)
    (hpos : ∀ n, Request.allocate n ∈ reqs → 0 < n) :
    (∃ addrs a, Arena.run P Arena.new reqs = .ok (addrs, a) ∧
      a.memory_usage = blocksTotal P a.blocks_ % P.sizeMax ∧
      (blocksTotal P a.blocks_ < P.sizeMax → a.memory_usage = blocksTotal P a.blocks_) ∧
      (∀ b ∈ a.blocks_, b.size = kBlockSize ∨
        (kBlockSize / 4 < b.size ∧ ∃ r ∈ reqs, r.bytes = b.size))) ∧
    (∀ (a0 a1 : Arena) (r : Request) (p : Nat), a0.serve P r = .ok (p, a1) →
      (a0.fits P r = true → a1.blocks_ = a0.blocks_ ∧ a1.memory_usage = a0.memory_usage) ∧
      (a0.fits P r = false → ∃ b, a1.blocks_ = a0.blocks_ ++ [b] ∧ b.base = p ∧
        b.size = (if r.bytes > kBlockSize / 4 then r.bytes else kBlockSize) ∧
        a1.memory_usage = (a0.memory_usage + (b.size + P.ptr)) % P.sizeMax)) := by
  refine ⟨?_, serve_spec P⟩
  obtain ⟨addrs, a, bs, hrun, hb, hm, hbs⟩ := run_spec P hP hnew reqs Arena.new hpos (by
    simp [Arena.new, blocksTotal])
  have hb' : a.blocks_ = bs := by simpa [Arena.new] using hb
  refine ⟨addrs, a, hrun, hm, fun hlt => ?_, fun b hb0 => hbs b (hb' ▸ hb0)⟩
  show a.memory_usage_ = _
  rw [hm, Nat.mod_eq_of_lt hlt]

/-- Witness of C10: `Allocate(10)` then `Allocate(4090)` on a fresh arena of a
64-bit platform gives `memory_usage() = 4096 + 4090 + 2 * sizeof(char*)`. -/
theorem C10_memory_usage_sum_witness :
    ((∃ addrs a, Arena.run P64 Arena.new [.allocate 10, .allocate 4090] = .ok (addrs, a) ∧
      a.memory_usage = blocksTotal P64 a.blocks_ % P64.sizeMax ∧
      (blocksTotal P64 a.blocks_ < P64.sizeMax → a.memory_usage = blocksTotal P64 a.blocks_) ∧
      (∀ b ∈ a.blocks_, b.size = kBlockSize ∨
        (kBlockSize / 4 < b.size ∧
          ∃ r ∈ [Request.allocate 10, Request.allocate 4090], r.bytes = b.size))) ∧
     (∀ (a0 a1 : Arena) (r : Request) (p : Nat), a0.serve P64 r = .ok (p, a1) →
      (a0.fits P64 r = true → a1.blocks_ = a0.blocks_ ∧ a1.memory_usage = a0.memory_usage) ∧
      (a0.fits P64 r = false → ∃ b, a1.blocks_ = a0.blocks_ ++ [b] ∧ b.base = p ∧
        b.size = (if r.bytes > kBlockSize / 4 then r.bytes else kBlockSize) ∧
        a1.memory_usage = (a0.memory_usage + (b.size + P64.ptr)) % P64.sizeMax))) ∧
    Arena.run P64 Arena.new [.allocate 10, .allocate 4090] =
      .ok ([65536, 131072],
        { alloc_ptr_ := 65546, alloc_bytes_remaining_ := 4086,
          blocks_ := [⟨65536, 4096⟩, ⟨131072, 4090⟩],
          memory_usage_ := 4096 + 4090 + 2 * P64.ptr }) :=
  ⟨C10_memory_usage_sum P64 ⟨3, rfl⟩ (fun k n => by simp [P64, Platform.align]; omega)
    [.allocate 10, .allocate 4090] (fun n hn => by simp at hn; omega), rfl⟩

/-- The result address of `AllocateAligned` is a multiple of `align` on both
paths, on every arena state. -/
theorem body_aligned (P : Platform) (hP : ∃ k, P.align = 2 ^ k)
    (hnew : ∀ k n, P.newChar k n % P.align = 0) (a : Arena) (n : Nat) :
    (Arena.AllocateAligned.body P a n).1 % P.align = 0 ∧
    (a.fits P (.aligned n) = true →
      (Arena.AllocateAligned.body P a n).1 = a.alloc_ptr_ + a.slop P) ∧
    (a.fits P (.aligned n) = false →
      Arena.AllocateAligned.body P a n = a.AllocateFallback P n) := by
  by_cases hfit : (n + a.slop P) % P.sizeMax ≤ a.alloc_bytes_remaining_
  · have hb : (Arena.AllocateAligned.body P a n).1 = a.alloc_ptr_ + a.slop P := by
      simp only [Arena.AllocateAligned.body, hfit, if_true]
    refine ⟨?_, fun _ => hb, fun hf => by simp [Arena.fits, hfit] at hf⟩
    rw [hb]
    simp only [Arena.slop, align_mask P hP]
    exact add_slop_mod _ _ (align_pos P)
  · have hb : Arena.AllocateAligned.body P a n = a.AllocateFallback P n := by
      simp only [Arena.AllocateAligned.body, hfit, if_false]
    refine ⟨?_, fun hf => by simp [Arena.fits, hfit] at hf, fun _ => hb⟩
    rw [hb, (AllocateFallback_spec P a n).1]
    exact hnew _ _

/-- C11: when `align` is a power of two and every block returned by
`new char[]` starts at a multiple of `align`, then after any earlier mix of
`Allocate` (positive sizes) and `AllocateAligned` calls on a fresh arena, every
call `AllocateAligned(n)` passes its closing assertion and returns an address
that is a multiple of `align`: the padded cursor `alloc_ptr_ + slop` when the
request fits, the base of the block made by `AllocateFallback` otherwise. -/
theorem C11_AllocateAligned_aligned (P : Platform) (hP : ∃ k, P.align = 2 ^ k)
    (hnew : ∀ k n, P.newChar k n % P.align = 0) (reqs : List Request)
    (hpos : ∀ n, Request.allocate n ∈ reqs → 0 < n) (n : Nat) :
    ∃ addrs a p a1, Arena.run P Arena.new reqs = .ok (addrs, a) ∧
      a.AllocateAligned P n = .ok (p, a1) ∧ p % P.align = 0 ∧ p &&& (P.align - 1) = 0 ∧
      (a.fits P (.aligned n) = true → p = a.alloc_ptr_ + a.slop P) ∧
      (a.fits P (.aligned n) = false → (p, a1) = a.AllocateFallback P n) := by
  obtain ⟨addrs, a, -, hrun, -⟩ := run_spec P hP hnew reqs Arena.new hpos (by
    simp [Arena.new, blocksTotal])
  obtain ⟨h1, h2, h3⟩ := body_aligned P hP hnew a n
  have hmask : (Arena.AllocateAligned.body P a n).1 &&& (P.align - 1) = 0 := by
    rw [align_mask P hP]; exact h1
  exact ⟨addrs, a, (Arena.AllocateAligned.body P a n).1, (Arena.AllocateAligned.body P a n).2,
    hrun, by simp only [Arena.AllocateAligned, hmask, if_true], h1, hmask, h2, h3⟩

/-- Witness of C11 on a 64-bit platform: after `Allocate(3)`, `AllocateAligned(5)`
returns the address 65544, a multiple of 8. -/
theorem C11_AllocateAligned_aligned_witness :
    (∃ addrs a p a1, Arena.run P64 Arena.new [.allocate 3] = .ok (addrs, a) ∧
      a.AllocateAligned P64 5 = .ok (p, a1) ∧ p % P64.align = 0 ∧
      p &&& (P64.align - 1) = 0 ∧
      (a.fits P64 (.aligned 5) = true → p = a.alloc_ptr_ + a.slop P64) ∧
      (a.fits P64 (.aligned 5) = false → (p, a1) = a.AllocateFallback P64 5)) ∧
    Arena.run P64 Arena.new [.allocate 3, .aligned 5] =
      .ok ([65536, 65544],
        { alloc_ptr_ := 65549, alloc_bytes_remaining_ := 4083,
          blocks_ := [⟨65536, 4096⟩], memory_usage_ := 4104 }) :=
  ⟨C11_AllocateAligned_aligned P64 ⟨3, rfl⟩ (fun k n => by simp [P64, Platform.align]; omega)
    [.allocate 3] (fun n hn => by simp at hn; omega) 5, rfl⟩

/-- C12: `AllocateFallback(n)`, which `Allocate` and `AllocateAligned` call when
the request does not fit in the active block.  For `n > kBlockSize / 4` it creates
a dedicated block of exactly `n` bytes, returns its base and leaves `alloc_ptr_`
and `alloc_bytes_remaining_` unchanged, so that a later `Allocate(m)` that fits
is still served at the old cursor; for `n <= kBlockSize / 4` it creates a block
of `kBlockSize` bytes, returns its base and makes it the active block with
`kBlockSize - n` bytes remaining. -/
theorem C12_fallback_policy (P : Platform) (a : Arena) (n : Nat) :
    (n > kBlockSize / 4 →
      (a.AllocateFallback P n).1 = P.newChar a.blocks_.length n ∧
      (a.AllocateFallback P n).2.blocks_ = a.blocks_ ++ [⟨P.newChar a.blocks_.length n, n⟩] ∧
      (a.AllocateFallback P n).2.alloc_ptr_ = a.alloc_ptr_ ∧
      (a.AllocateFallback P n).2.alloc_bytes_remaining_ = a.alloc_bytes_remaining_ ∧
      ∀ m, 0 < m → m ≤ a.alloc_bytes_remaining_ →
        ∃ a2, (a.AllocateFallback P n).2.Allocate P m = .ok (a.alloc_ptr_, a2) ∧
          a2.blocks_ = (a.AllocateFallback P n).2.blocks_) ∧
    (n ≤ kBlockSize / 4 →
      (a.AllocateFallback P n).1 = P.newChar a.blocks_.length kBlockSize ∧
      (a.AllocateFallback P n).2.blocks_ =
        a.blocks_ ++ [⟨P.newChar a.blocks_.length kBlockSize, kBlockSize⟩] ∧
      (a.AllocateFallback P n).2.alloc_ptr_ = P.newChar a.blocks_.length kBlockSize + n ∧
      (a.AllocateFallback P n).2.alloc_bytes_remaining_ = kBlockSize - n) ∧
    (0 < n → ¬ n ≤ a.alloc_bytes_remaining_ →
      a.Allocate P n = .ok (a.AllocateFallback P n)) ∧
    (a.fits P (.aligned n) = false →
      Arena.AllocateAligned.body P a n = a.AllocateFallback P n) := by
  refine ⟨?_, ?_, ?_, ?_⟩
  · intro h
    have e : a.AllocateFallback P n = a.AllocateNewBlock P n := by
      simp [Arena.AllocateFallback, h]
    rw [e]
    refine ⟨rfl, rfl, rfl, rfl, ?_⟩
    intro m hm hfit
    have hfit1 : m ≤ (a.AllocateNewBlock P n).2.alloc_bytes_remaining_ := hfit
    exact ⟨⟨(a.AllocateNewBlock P n).2.alloc_ptr_ + m,
        (a.AllocateNewBlock P n).2.alloc_bytes_remaining_ - m,
        (a.AllocateNewBlock P n).2.blocks_, (a.AllocateNewBlock P n).2.memory_usage_⟩,
      by simp only [Arena.Allocate, hm, not_true, if_false, hfit1, if_true]; rfl, rfl⟩
  · intro h
    have h1 : ¬ n > kBlockSize / 4 := by omega
    simp [Arena.AllocateFallback, h1, Arena.AllocateNewBlock]
  · intro h0 hfit
    simp only [Arena.Allocate, h0, not_true, if_false, hfit]
  · intro hfit
    have hfit1 : ¬ (n + a.slop P) % P.sizeMax ≤ a.alloc_bytes_remaining_ := by
      simpa [Arena.fits] using hfit
    simp only [Arena.AllocateAligned.body, hfit1, if_false]

/-- Witness of C12 on the platform `P64`, from the arena left by `Allocate(10)`:
`AllocateFallback(4090)` makes a dedicated block and keeps the cursor,
`AllocateFallback(100)` opens a new standard block. -/
theorem C12_fallback_policy_witness :
    Arena.Allocate P64 Arena.new 10 = .ok (65536, afterTen) ∧
    ((afterTen.AllocateFallback P64 4090).1 = P64.newChar afterTen.blocks_.length 4090 ∧
      (afterTen.AllocateFallback P64 4090).2.blocks_ =
        afterTen.blocks_ ++ [⟨P64.newChar afterTen.blocks_.length 4090, 4090⟩] ∧
      (afterTen.AllocateFallback P64 4090).2.alloc_ptr_ = afterTen.alloc_ptr_ ∧
      (afterTen.AllocateFallback P64 4090).2.alloc_bytes_remaining_ =
        afterTen.alloc_bytes_remaining_ ∧
      ∀ m, 0 < m → m ≤ afterTen.alloc_bytes_remaining_ →
        ∃ a2, (afterTen.AllocateFallback P64 4090).2.Allocate P64 m =
            .ok (afterTen.alloc_ptr_, a2) ∧
          a2.blocks_ = (afterTen.AllocateFallback P64 4090).2.blocks_) ∧
    ((afterTen.AllocateFallback P64 100).1 = P64.newChar afterTen.blocks_.length kBlockSize ∧
      (afterTen.AllocateFallback P64 100).2.blocks_ =
        afterTen.blocks_ ++ [⟨P64.newChar afterTen.blocks_.length kBlockSize, kBlockSize⟩] ∧
      (afterTen.AllocateFallback P64 100).2.alloc_ptr_ =
        P64.newChar afterTen.blocks_.length kBlockSize + 100 ∧
      (afterTen.AllocateFallback P64 100).2.alloc_bytes_remaining_ = kBlockSize - 100) ∧
    afterTen.Allocate P64 4090 = .ok (afterTen.AllocateFallback P64 4090) ∧
    Arena.AllocateAligned.body P64 Arena.new 1 = Arena.new.AllocateFallback P64 1 :=
  ⟨rfl, (C12_fallback_policy P64 afterTen 4090).1 (by decide),
    (C12_fallback_policy P64 afterTen 100).2.1 (by decide),
    (C12_fallback_policy P64 afterTen 4090).2.2.1 (by decide) (by decide),
    (C12_fallback_policy P64 Arena.new 1).2.2.2 (by decide)⟩

/-- C13 (the claim fails): on the platform `P64`, after `Allocate(10)` and
`Allocate(4090)` on a fresh arena, the next request `Allocate(100)` is served at
address 65546, inside the unused tail `[65546, 69632)` of the first block; so it
is not true that no later request is served from that tail. -/
theorem C13_tail_stranded_counterexample :
    Arena.run P64 Arena.new [.allocate 10, .allocate 4090] = .ok ([65536, 131072], afterTwo) ∧
    ¬ (∀ (rs : List Request) (addrs : List Nat) (a : Arena),
        Arena.run P64 afterTwo rs = .ok (addrs, a) →
        ∀ p ∈ addrs, ¬ (65536 + 10 ≤ p ∧ p < 65536 + 4096)) :=
  ⟨rfl, fun h =>
    h [.allocate 100] [65546]
      { alloc_ptr_ := 65646, alloc_bytes_remaining_ := 3986,
        blocks_ := [⟨65536, 4096⟩, ⟨131072, 4090⟩], memory_usage_ := 8202 }
      rfl 65546 (by simp) ⟨by decide, by decide⟩⟩

/-- A sequence of `Allocate` calls with positive sizes whose total fits in the
active block is served back to back from the cursor, without a new block. -/
theorem run_fitting (P : Platform) : ∀ (ms : List Nat) (a : Arena),
    (∀ m ∈ ms, 0 < m) → ms.sum ≤ a.alloc_bytes_remaining_ →
    Arena.run P a (ms.map Request.allocate) =
      .ok (backToBack a.alloc_ptr_ ms,
        ⟨a.alloc_ptr_ + ms.sum, a.alloc_bytes_remaining_ - ms.sum, a.blocks_,
          a.memory_usage_⟩) := by
  intro ms
  induction ms with
  | nil => intro a _ _; rfl
  | cons m ms ih =>
    intro a hpos hsum
    have hm : 0 < m := hpos m (by simp)
    have hs : m + ms.sum ≤ a.alloc_bytes_remaining_ := by simpa using hsum
    have hfit : m ≤ a.alloc_bytes_remaining_ := by omega
    have e1 : a.Allocate P m = .ok (a.alloc_ptr_,
        ⟨a.alloc_ptr_ + m, a.alloc_bytes_remaining_ - m, a.blocks_, a.memory_usage_⟩) := by
      simp only [Arena.Allocate, hm, not_true, if_false, hfit, if_true]
    have e2 := ih ⟨a.alloc_ptr_ + m, a.alloc_bytes_remaining_ - m, a.blocks_, a.memory_usage_⟩
      (fun x hx => hpos x (by simp [hx])) (by simp only; omega)
    simp only at e2
    simp only [List.map, Arena.run, Arena.serve, e1, e2, backToBack, List.sum_cons,
      Nat.add_assoc, Nat.sub_add_eq]

/-- C13 (amended): on a fresh arena, `Allocate(10)` followed by `Allocate(4090)`
creates a standard block and then a dedicated block of 4090 bytes for the second
request, and the first block stays the active block with its 4086 unused bytes:
any later sequence of `Allocate` calls with positive sizes whose total is at most
4086 is served from the first block's tail, back to back from offset 10, without
a new block. -/
theorem C13_first_block_stays_active (P : Platform) (ms : List Nat)
    (hpos : ∀ m ∈ ms, 0 < m) (hsum : ms.sum ≤ 4086) :
    ∃ a2 a3, Arena.run P Arena.new [.allocate 10, .allocate 4090] =
        .ok ([P.newChar 0 kBlockSize, P.newChar 1 4090], a2) ∧
      a2.blocks_ = [⟨P.newChar 0 kBlockSize, kBlockSize⟩, ⟨P.newChar 1 4090, 4090⟩] ∧
      a2.alloc_ptr_ = P.newChar 0 kBlockSize + 10 ∧ a2.alloc_bytes_remaining_ = 4086 ∧
      Arena.run P a2 (ms.map Request.allocate) =
        .ok (backToBack (P.newChar 0 kBlockSize + 10) ms, a3) ∧
      a3.alloc_ptr_ = P.newChar 0 kBlockSize + 10 + ms.sum ∧
      a3.blocks_ = a2.blocks_ ∧ a3.memory_usage = a2.memory_usage := by
  refine ⟨⟨P.newChar 0 kBlockSize + 10, 4086,
    [⟨P.newChar 0 kBlockSize, kBlockSize⟩, ⟨P.newChar 1 4090, 4090⟩],
    ((0 + (kBlockSize + P.ptr) % P.sizeMax) % P.sizeMax + (4090 + P.ptr) % P.sizeMax)
      % P.sizeMax⟩,
    ⟨P.newChar 0 kBlockSize + 10 + ms.sum, 4086 - ms.sum,
    [⟨P.newChar 0 kBlockSize, kBlockSize⟩, ⟨P.newChar 1 4090, 4090⟩],
    ((0 + (kBlockSize + P.ptr) % P.sizeMax) % P.sizeMax + (4090 + P.ptr) % P.sizeMax)
      % P.sizeMax⟩, ?_, rfl, rfl, rfl, ?_, rfl, rfl, rfl⟩
  · simp [Arena.run, Arena.serve, Arena.Allocate, Arena.AllocateFallback,
      Arena.AllocateNewBlock, Arena.new, kBlockSize]
  · exact run_fitting P ms _ hpos hsum

/-- Witness of C13 (amended) on the platform `P64`, with the later requests
`Allocate(100)` and `Allocate(3986)`, which use up the tail of the first block. -/
theorem C13_first_block_stays_active_witness :
    ((∀ m ∈ [100, 3986], 0 < m) ∧ [100, 3986].sum ≤ 4086) ∧
    (∃ a2 a3, Arena.run P64 Arena.new [.allocate 10, .allocate 4090] =
        .ok ([P64.newChar 0 kBlockSize, P64.newChar 1 4090], a2) ∧
      a2.blocks_ = [⟨P64.newChar 0 kBlockSize, kBlockSize⟩, ⟨P64.newChar 1 4090, 4090⟩] ∧
      a2.alloc_ptr_ = P64.newChar 0 kBlockSize + 10 ∧ a2.alloc_bytes_remaining_ = 4086 ∧
      Arena.run P64 a2 ([100, 3986].map Request.allocate) =
        .ok (backToBack (P64.newChar 0 kBlockSize + 10) [100, 3986], a3) ∧
      a3.alloc_ptr_ = P64.newChar 0 kBlockSize + 10 + [100, 3986].sum ∧
      a3.blocks_ = a2.blocks_ ∧ a3.memory_usage = a2.memory_usage) ∧
    Arena.run P64 afterTwo [.allocate 100, .allocate 3986] =
      .ok ([65546, 65646],
        { alloc_ptr_ := 69632, alloc_bytes_remaining_ := 0,
          blocks_ := [⟨65536, 4096⟩, ⟨131072, 4090⟩], memory_usage_ := 8202 }) :=
  ⟨⟨by decide, by decide⟩,
    C13_first_block_stays_active P64 [100, 3986] (by decide) (by decide), rfl⟩

/-! ## `Slice::compare` and the bytewise comparator -/

theorem compare_nil_nil : Slice.compare ⟨[]⟩ ⟨[]⟩ = 0 := rfl

theorem compare_nil_cons (y : Nat) (ys : List Nat) : Slice.compare ⟨[]⟩ ⟨y :: ys⟩ = -1 := by
  simp [Slice.compare, Slice.size, memcmp]

theorem compare_cons_nil (x : Nat) (xs : List Nat) : Slice.compare ⟨x :: xs⟩ ⟨[]⟩ = 1 := by
  simp [Slice.compare, Slice.size, memcmp]

theorem compare_cons_cons (x y : Nat) (xs ys : List Nat) :
    Slice.compare ⟨x :: xs⟩ ⟨y :: ys⟩ =
      if x = y then Slice.compare ⟨xs⟩ ⟨ys⟩ else (x : Int) - (y : Int) := by
  by_cases h : x = y
  · subst h
    by_cases hl : xs.length < ys.length
    · simp [Slice.compare, Slice.size, memcmp, hl]
    · simp [Slice.compare, Slice.size, memcmp, hl]
  · have hne : (x : Int) - (y : Int) ≠ 0 := by omega
    by_cases hl : xs.length < ys.length
    · simp [Slice.compare, Slice.size, memcmp, hl, h, hne]
    · simp [Slice.compare, Slice.size, memcmp, hl, h, hne]

/-- The sign of `Slice::compare` against the lexicographic order and equality. -/
theorem compare_sign : ∀ (a b : List Nat),
    (Slice.compare ⟨a⟩ ⟨b⟩ < 0 ↔ lexLess a b = true) ∧
    (0 < Slice.compare ⟨a⟩ ⟨b⟩ ↔ lexLess b a = true) ∧
    (Slice.compare ⟨a⟩ ⟨b⟩ = 0 ↔ a = b) := by
  intro a
  induction a with
  | nil =>
    intro b
    cases b with
    | nil => simp [compare_nil_nil, lexLess]
    | cons y ys => simp [compare_nil_cons, lexLess]
  | cons x xs ih =>
    intro b
    cases b with
    | nil => simp [compare_cons_nil, lexLess]
    | cons y ys =>
      rw [compare_cons_cons]
      by_cases h : x = y
      · subst h
        simp only [if_true, lexLess, Nat.lt_irrefl, if_false]
        obtain ⟨h1, h2, h3⟩ := ih ys
        exact ⟨h1, h2, by rw [h3]; simp⟩
      · simp only [h, if_false, lexLess]
        by_cases hlt : x < y
        · have hyx : ¬ y < x := by omega
          simp only [hlt, hyx, if_true, if_false]
          refine ⟨by simp; omega, by simp; omega, ?_⟩
          constructor
          · intro e; omega
          · intro e; exact absurd (List.cons.inj e).1 h
        · have hyx : y < x := by omega
          simp only [hlt, hyx, if_true, if_false]
          refine ⟨by simp; omega, by simp; omega, ?_⟩
          constructor
          · intro e; omega
          · intro e; exact absurd (List.cons.inj e).1 h

/-- The specification's order is the lexicographic order `<` of lists. -/
theorem lexLess_iff_lt : ∀ (a b : List Nat), lexLess a b = true ↔ a < b := by
  intro a
  induction a with
  | nil =>
    intro b
    cases b with
    | nil =>
      simp only [lexLess]
      exact ⟨fun e => (by cases e), fun e => (by cases e)⟩
    | cons y ys =>
      simp only [lexLess, true_iff]
      exact List.Lex.nil
  | cons x xs ih =>
    intro b
    cases b with
    | nil =>
      simp only [lexLess]
      exact ⟨fun e => (by cases e), fun e => (by cases e)⟩
    | cons y ys =>
      simp only [lexLess]
      by_cases hlt : x < y
      · simp only [hlt, if_true, true_iff]
        exact List.Lex.rel hlt
      · by_cases hyx : y < x
        · simp only [hlt, hyx, if_true, if_false]
          constructor
          · intro e; cases e
          · intro e
            cases e with
            | cons _ => exact absurd hyx (Nat.lt_irrefl _)
            | rel h => exact absurd h hlt
        · simp only [hlt, hyx, if_false]
          have hxy : x = y := by omega
          subst hxy
          rw [ih ys]
          constructor
          · intro e; exact List.Lex.cons e
          · intro e
            cases e with
            | cons h3 => exact h3
            | rel h => exact absurd h hlt

theorem memcmp_self_length : ∀ (a b : List Nat), a.length = b.length →
    (memcmp a b a.length = 0 ↔ a = b) := by
  intro a
  induction a with
  | nil =>
    intro b hb
    cases b with
    | nil => simp [memcmp]
    | cons y ys => simp at hb
  | cons x xs ih =>
    intro b hb
    cases b with
    | nil => simp at hb
    | cons y ys =>
      have hl : xs.length = ys.length := by simpa using hb
      by_cases h : x = y
      · subst h
        simp [memcmp, ih ys hl]
      · have hne : (x : Int) - (y : Int) ≠ 0 := by omega
        simp [memcmp, h, hne]

/-- C14: `Slice::compare`, and with it `BytewiseComparator`'s `Compare`, is the
byte-wise lexicographic order on unsigned bytes: the result is negative exactly
when `a` is lexicographically less than `b` (first mismatching byte decides, a
proper prefix is less), positive exactly when `a` is lexicographically greater,
and zero exactly when `a` and `b` have the same length and bytes, which is
exactly when `operator==` holds. -/
theorem C14_compare_lexicographic (a b : Slice) :
    BytewiseComparator.Compare a b = a.compare b ∧
    (a.compare b < 0 ↔ lexLess a.data_ b.data_ = true) ∧
    (a.compare b < 0 ↔ a.data_ < b.data_) ∧
    (0 < a.compare b ↔ lexLess b.data_ a.data_ = true) ∧
    (0 < a.compare b ↔ b.data_ < a.data_) ∧
    (a.compare b = 0 ↔ a.size = b.size ∧ a.data_ = b.data_) ∧
    (a.compare b = 0 ↔ Slice.operatorEq a b = true) := by
  obtain ⟨a⟩ := a
  obtain ⟨b⟩ := b
  obtain ⟨h1, h2, h3⟩ := compare_sign a b
  have heq : Slice.operatorEq ⟨a⟩ ⟨b⟩ = true ↔ a = b := by
    simp only [Slice.operatorEq, Slice.size, Bool.and_eq_true, beq_iff_eq]
    constructor
    · rintro ⟨hl, hm⟩
      exact (memcmp_self_length a b hl).mp hm
    · intro e
      subst e
      exact ⟨rfl, (memcmp_self_length a a rfl).mpr rfl⟩
  refine ⟨rfl, h1, by rw [← lexLess_iff_lt]; exact h1, h2, by rw [← lexLess_iff_lt]; exact h2,
    ?_, by rw [heq]; exact h3⟩
  rw [h3]
  exact ⟨fun e => ⟨by rw [e], e⟩, fun e => e.2⟩

/-- C15: `BytewiseComparator`'s `Compare` is a total order on byte strings: the
sign of `Compare(a, b)` is the negation of the sign of `Compare(b, a)`,
`Compare(a, a)` is zero, and `Compare(a, b) < 0` with `Compare(b, c) < 0` gives
`Compare(a, c) < 0`. -/
theorem C15_Compare_total_order (a b c : Slice) :
    Int.sign (BytewiseComparator.Compare a b) = - Int.sign (BytewiseComparator.Compare b a) ∧
    BytewiseComparator.Compare a a = 0 ∧
    (BytewiseComparator.Compare a b < 0 → BytewiseComparator.Compare b c < 0 →
      BytewiseComparator.Compare a c < 0) := by
  obtain ⟨a⟩ := a
  obtain ⟨b⟩ := b
  obtain ⟨c⟩ := c
  simp only [BytewiseComparator.Compare]
  obtain ⟨hab1, hab2, hab3⟩ := compare_sign a b
  obtain ⟨hba1, hba2, hba3⟩ := compare_sign b a
  refine ⟨?_, (compare_sign a a).2.2.mpr rfl, ?_⟩
  · rcases Int.lt_trichotomy (Slice.compare ⟨a⟩ ⟨b⟩) 0 with h | h | h
    · have h2 : 0 < Slice.compare ⟨b⟩ ⟨a⟩ := hba2.mpr (hab1.mp h)
      rw [Int.sign_eq_neg_one_of_neg h, Int.sign_eq_one_of_pos h2]
    · have h2 : Slice.compare ⟨b⟩ ⟨a⟩ = 0 := hba3.mpr (hab3.mp h).symm
      rw [h, h2]; rfl
    · have h2 : Slice.compare ⟨b⟩ ⟨a⟩ < 0 := hba1.mpr (hab2.mp h)
      rw [Int.sign_eq_one_of_pos h, Int.sign_eq_neg_one_of_neg h2]; rfl
  · intro h1 h2
    have e1 := (lexLess_iff_lt a b).mp (hab1.mp h1)
    have e2 := (lexLess_iff_lt b c).mp ((compare_sign b c).1.mp h2)
    exact (compare_sign a c).1.mpr ((lexLess_iff_lt a c).mpr (lt_trans e1 e2))

/-- Witness of C15 on the byte strings "ab", "abc" and "b". -/
theorem C15_Compare_total_order_witness :
    BytewiseComparator.Compare ⟨[97, 98]⟩ ⟨[97, 98, 99]⟩ < 0 ∧
    BytewiseComparator.Compare ⟨[97, 98, 99]⟩ ⟨[98]⟩ < 0 ∧
    BytewiseComparator.Compare ⟨[97, 98]⟩ ⟨[98]⟩ < 0 :=
  ⟨by decide, by decide,
    (C15_Compare_total_order ⟨[97, 98]⟩ ⟨[97, 98, 99]⟩ ⟨[98]⟩).2.2 (by decide) (by decide)⟩

/-! ## `Status` -/

/-- An in-bounds write succeeds, keeps the length and the bytes before the
written range. -/
theorem writeBytes_spec (buf : List (Option Nat)) (off : Nat) (src : List Nat)
    (h : off + src.length ≤ buf.length) :
    ∃ r, writeBytes buf off src = .ok r ∧ r.length = buf.length ∧
      (∀ i, i < off → r[i]? = buf[i]?) ∧
      (∀ i, i < src.length → r[off + i]? = (src[i]?).map some) := by
  refine ⟨buf.take off ++ src.map some ++ buf.drop (off + src.length),
    by simp [writeBytes, h], ?_, ?_, ?_⟩
  · simp [List.length_take, List.length_drop]; omega
  · intro i hi
    rw [List.append_assoc, List.getElem?_append_left (by simp [List.length_take]; omega)]
    rw [List.getElem?_take_of_lt hi]
  · intro i hi
    have hlen : (List.take off buf).length = off := by simp [List.length_take]; omega
    rw [List.append_assoc, List.getElem?_append_right (by omega), hlen,
      List.getElem?_append_left (by simp; omega)]
    simp

theorem u32_eq : u32 = 4294967296 := by norm_num [u32]

/-- When the `uint32_t` size computations do not wrap, the constructor returns a
non-null state whose byte 4 is the code. -/
theorem Status_new_code (code : Nat) (msg msg2 : Slice) (hc : code ≠ kOk) (hc1 : code < 256)
    (hsz : msg.size + msg2.size + 7 < u32) :
    ∃ st, Status.new code msg msg2 = .ok st ∧ st.IsOk = false ∧ st.code = .ok code := by
  rw [u32_eq] at hsz
  have e1 : msg.size % u32 = msg.size := Nat.mod_eq_of_lt (by rw [u32_eq]; omega)
  have e2 : msg2.size % u32 = msg2.size := Nat.mod_eq_of_lt (by rw [u32_eq]; omega)
  have e3 : (2 + msg2.size) % u32 = 2 + msg2.size := Nat.mod_eq_of_lt (by rw [u32_eq]; omega)
  have e4 : (5 + msg.size) % u32 = 5 + msg.size := Nat.mod_eq_of_lt (by rw [u32_eq]; omega)
  have e5 : (6 + msg2.size) % u32 = 6 + msg2.size := Nat.mod_eq_of_lt (by rw [u32_eq]; omega)
  have e6 : code % 256 = code := Nat.mod_eq_of_lt hc1
  have ht1 : (msg.data_.take msg.size).length = msg.size := by simp [Slice.size]
  have ht2 : (msg2.data_.take msg2.size).length = msg2.size := by simp [Slice.size]
  have hfin : ∀ r : List (Option Nat), r[4]? = some (some code) →
      (⟨some r⟩ : Status).IsOk = false ∧ (⟨some r⟩ : Status).code = .ok code := by
    intro r hr
    exact ⟨rfl, by simp [Status.code, hr]⟩
  unfold Status.new
  simp only [hc, not_true, not_false_eq_true, if_false, e1, e2, e3, e4, e5, e6, ne_eq]
  by_cases h2 : msg2.size = 0
  · simp only [h2, not_true, if_false, Nat.add_zero]
    have e7 : (msg.size + 5) % u32 = msg.size + 5 :=
      Nat.mod_eq_of_lt (by rw [u32_eq]; omega)
    simp only [e1, e7]
    obtain ⟨r1, h1, l1, -, -⟩ := writeBytes_spec (List.replicate (msg.size + 5) none) 0
      (enc32 msg.size) (by simp [enc32])
    obtain ⟨r2, h2', l2, -, c2⟩ := writeBytes_spec r1 4 [code] (by
      rw [l1]; simp)
    obtain ⟨r3, h3, l3, k3, -⟩ := writeBytes_spec r2 5 (msg.data_.take msg.size) (by
      rw [l2, l1, ht1]; simp; omega)
    rw [h1]; simp only [Except.bind]
    rw [h2']; simp only [Except.bind]
    rw [h3]; simp only [Except.bind]
    refine ⟨_, rfl, hfin r3 ?_⟩
    rw [k3 4 (by omega)]
    simpa using c2 0 (by simp)
  · simp only [h2, not_false_eq_true, if_true]
    have e7 : (msg.size + (2 + msg2.size)) % u32 = msg.size + (2 + msg2.size) :=
      Nat.mod_eq_of_lt (by rw [u32_eq]; omega)
    have e8 : (msg.size + (2 + msg2.size) + 5) % u32 = msg.size + (2 + msg2.size) + 5 :=
      Nat.mod_eq_of_lt (by rw [u32_eq]; omega)
    simp only [e1, e7, e8]
    obtain ⟨r1, h1, l1, -, -⟩ := writeBytes_spec
      (List.replicate (msg.size + (2 + msg2.size) + 5) none)
      0 (enc32 (msg.size + (2 + msg2.size))) (by simp [enc32])
    obtain ⟨r2, h2', l2, -, c2⟩ := writeBytes_spec r1 4 [code] (by
      rw [l1]; simp)
    obtain ⟨r3, h3, l3, k3, -⟩ := writeBytes_spec r2 5 (msg.data_.take msg.size) (by
      rw [l2, l1, ht1]; simp; omega)
    obtain ⟨r4, h4, l4, k4, -⟩ := writeBytes_spec r3 (5 + msg.size) [58] (by
      rw [l3, l2, l1]; simp; omega)
    obtain ⟨r5, h5, l5, k5, -⟩ := writeBytes_spec r4 (6 + msg2.size) [32] (by
      rw [l4, l3, l2, l1]; simp; omega)
    obtain ⟨r6, h6, l6, k6, -⟩ := writeBytes_spec r5 (7 + msg.size)
      (msg2.data_.take msg2.size) (by rw [l5, l4, l3, l2, l1, ht2]; simp; omega)
    rw [h1]; simp only [Except.bind]
    rw [h2']; simp only [Except.bind]
    rw [h3]; simp only [Except.bind]
    rw [h4]; simp only [Except.bind]
    rw [h5]; simp only [Except.bind]
    rw [h6]; simp only [Except.bind]
    refine ⟨_, rfl, hfin r6 ?_⟩
    rw [k6 4 (by omega), k5 4 (by omega), k4 4 (by omega), k3 4 (by omega)]
    simpa using c2 0 (by simp)

/-- C16 (code evaluated at the failing input): `Status::NotFound("abcd", "x")`
stores the bytes `a b ' ' d ':' ? x` as its message, where byte 5 is never
written, instead of `"abcd: x"`: the space goes to index `6 + len2`, into the
first fragment; `ToString()` then reads the unwritten byte.  With fragments of
equal length, as in `NotFound("ab", "cd")`, the message is `"ab: cd"`. -/
theorem C16_separator_misplaced :
    ((Status.NotFound ⟨bytesOf "abcd"⟩ ⟨bytesOf "x"⟩).bind fun s => s.message) =
      .ok [some 97, some 98, some 32, some 100, some 58, none, some 120] ∧
    joined ⟨bytesOf "abcd"⟩ ⟨bytesOf "x"⟩ = [97, 98, 99, 100, 58, 32, 120] ∧
    ((Status.NotFound ⟨bytesOf "abcd"⟩ ⟨bytesOf "x"⟩).bind fun s => s.ToString) =
      .error .undefined ∧
    ((Status.NotFound ⟨bytesOf "ab"⟩ ⟨bytesOf "cd"⟩).bind fun s => s.ToString) =
      .ok (bytesOf "NotFound: " ++ joined ⟨bytesOf "ab"⟩ ⟨bytesOf "cd"⟩) :=
  ⟨rfl, rfl, rfl, rfl⟩

theorem reports_of_code {st : Status} {c : Nat} (h1 : st.IsOk = false) (h2 : st.code = .ok c) :
    st.reports false (c == kNotFound) (c == kCorruption) (c == kNotSupported)
      (c == kInvalidArgument) (c == kIOError) := by
  simp [Status.reports, h1, Status.IsNotFound, Status.IsCorruption, Status.IsNotSupportedError,
    Status.IsInvalidArgument, Status.IsIOError, h2, Except.map]

/-- A message of `2^32 - 5` bytes makes `size + 5` wrap to 0, and the first
store of the constructor falls outside the array. -/
theorem Status_new_wrap (code : Nat) (msg msg2 : Slice) (hc : code ≠ kOk)
    (h1 : msg.size = 4294967291) (h2 : msg2.size = 0) :
    Status.new code msg msg2 = .error .undefined := by
  simp [Status.new, hc, h1, h2, u32_eq, writeBytes, enc32, Except.bind]

/-- C17 (the claim fails): for a message of `2^32 - 5` bytes, `Status::NotFound(msg)`
does not build a Status that reports `IsNotFound`: the `uint32_t` buffer size
`size + 5` wraps to 0 and the constructor writes outside the array. -/
theorem C17_status_variant_counterexample :
    ¬ ∃ st, Status.NotFound ⟨List.replicate 4294967291 0⟩ ⟨[]⟩ = .ok st ∧
      st.reports false true false false false false := by
  rintro ⟨st, h, -⟩
  have e : Status.NotFound ⟨List.replicate 4294967291 0⟩ ⟨[]⟩ = .error .undefined :=
    Status_new_wrap kNotFound _ _ (by decide) (List.length_replicate _ _) rfl
  rw [e] at h
  cases h

/-- C17 (amended): a default-constructed / `Status::Ok()` value has `IsOk()` true
and the five error predicates false; and for all fragments with
`msg.size() + msg2.size() + 7 < 2^32`, each of the five error factories returns
a Status with `IsOk()` false and exactly its own predicate true. -/
theorem C17_status_variant (msg msg2 : Slice) (hsz : msg.size + msg2.size + 7 < u32) :
    Status.Ok.reports true false false false false false ∧
    (∃ st, Status.NotFound msg msg2 = .ok st ∧
      st.reports false true false false false false) ∧
    (∃ st, Status.Corruption msg msg2 = .ok st ∧
      st.reports false false true false false false) ∧
    (∃ st, Status.NotSupported msg msg2 = .ok st ∧
      st.reports false false false true false false) ∧
    (∃ st, Status.InvalidArgument msg msg2 = .ok st ∧
      st.reports false false false false true false) ∧
    (∃ st, Status.IOError msg msg2 = .ok st ∧
      st.reports false false false false false true) := by
  refine ⟨by simp [Status.reports, Status.Ok, Status.IsOk, Status.IsNotFound,
      Status.IsCorruption, Status.IsNotSupportedError, Status.IsInvalidArgument,
      Status.IsIOError, Status.code, Except.map, kOk, kNotFound, kCorruption, kNotSupported,
      kInvalidArgument, kIOError], ?_, ?_, ?_, ?_, ?_⟩
  · obtain ⟨st, h1, h2, h3⟩ := Status_new_code kNotFound msg msg2 (by decide) (by decide) hsz
    exact ⟨st, h1, reports_of_code h2 h3⟩
  · obtain ⟨st, h1, h2, h3⟩ := Status_new_code kCorruption msg msg2 (by decide) (by decide) hsz
    exact ⟨st, h1, reports_of_code h2 h3⟩
  · obtain ⟨st, h1, h2, h3⟩ := Status_new_code kNotSupported msg msg2 (by decide) (by decide) hsz
    exact ⟨st, h1, reports_of_code h2 h3⟩
  · obtain ⟨st, h1, h2, h3⟩ :=
      Status_new_code kInvalidArgument msg msg2 (by decide) (by decide) hsz
    exact ⟨st, h1, reports_of_code h2 h3⟩
  · obtain ⟨st, h1, h2, h3⟩ := Status_new_code kIOError msg msg2 (by decide) (by decide) hsz
    exact ⟨st, h1, reports_of_code h2 h3⟩

/-- Witness of C17 (amended) on the fragments "abcd" and "x". -/
theorem C17_status_variant_witness :
    (bytesOf "abcd").length + (bytesOf "x").length + 7 < u32 ∧
    (∃ st, Status.IOError ⟨bytesOf "abcd"⟩ ⟨bytesOf "x"⟩ = .ok st ∧
      st.reports false false false false false true) :=
  ⟨by decide, (C17_status_variant ⟨bytesOf "abcd"⟩ ⟨bytesOf "x"⟩ (by decide)).2.2.2.2.2⟩

/-! ## Intermediate states of `Insert` -/

/-- The linking loop, store by store: every state it passes through satisfies
the loop invariant for some number of finished levels, and its last state is the
result of `Insert.link`. -/
theorem linkTrace_spec (k0 : K) (t0 : SkipList K) (p q : List Nat) (n h : Nat)
    (prev : List (Option Nat))
    (hnd : (head_ :: (p ++ q)).Nodup) (hn0 : n ≠ head_) (hn : n ∉ p ++ q)
    (hh : t0.height n = h) (hh12 : h ≤ kMaxHeight)
    (hprev : ∀ L, L < h → prev[L]? = some (some (lastOf head_ (atLevel t0 L p)))) :
    ∀ (count i : Nat) (t : SkipList K), i + count = h → LinkInv k0 t0 t p q n i →
      ∃ tr, Insert.linkTrace prev n i count t = .ok tr ∧ tr.length = 2 * count ∧
        Insert.link prev n i count t = .ok (lastSt t tr) ∧
        ∀ u ∈ tr, ∃ j, j ≤ h ∧ LinkInv k0 t0 u p q n j := by
  intro count
  induction count with
  | zero =>
    intro i t hi hinv
    exact ⟨[], rfl, rfl, rfl, fun u hu => by simp at hu⟩
  | succ count ih =>
    intro i t hi hinv
    have hih : i < h := by omega
    have hi12 : i < kMaxHeight := by unfold kMaxHeight at *; omega
    have hchain := hinv.todo i (Nat.le_refl _) hi12
    have hlast := hchain.at_last
    have hslot := hlast.slot_eq
    obtain ⟨t1, hset1, hmh1, hlen1, hht1, hkey1, hs1, hfr1⟩ :=
      SetNext_spec k0 (s := t) (x := n) (n := i) (atLevel t0 i q).head?
        (by rw [hinv.height, hh]; exact hih)
    obtain ⟨t2, hset2, hmh2, hlen2, hht2, hkey2, hs2, hfr2⟩ :=
      SetNext_spec k0 (s := t1) (x := lastOf head_ (atLevel t0 i p)) (n := i) (some n)
        (by rw [hht1]; exact slot_lt_height hslot)
    have hxn : n ≠ lastOf head_ (atLevel t0 i p) := by
      intro e
      rcases lastOf_mem head_ (atLevel t0 i p) with h1 | h1
      · exact hn0 (e.trans h1)
      · apply hn
        rw [← e] at h1
        exact List.mem_append_left _ ((atLevel_sublist t0 i p).subset h1)
    have hsub : (atLevel t0 i p ++ atLevel t0 i q).Sublist (p ++ q) :=
      (atLevel_sublist t0 i p).append (atLevel_sublist t0 i q)
    -- after the store into the new node nothing reachable has changed
    have hinv1 : LinkInv k0 t0 t1 p q n i := by
      refine ⟨by rw [hlen1, hinv.len], by rw [hmh1, hinv.mh],
        fun y => by rw [hht1, hinv.height], fun y => by rw [hkey1, hinv.key],
        ?_, ?_, by rw [SetNext_shape hset1, hinv.shape]⟩
      · intro L hL hL12
        have hLi : L ≠ i := by omega
        refine Linked.congr (fun z _ => ?_) (hinv.done L hL hL12)
        rw [hfr1 z L (Or.inr hLi)]
      · intro L hL hL12
        refine Linked.congr (fun z hz => ?_) (hinv.todo L hL hL12)
        by_cases hLi : L = i
        · subst hLi
          have hzn : z ≠ n := by
            rintro rfl
            rcases hz with hz | hz
            · exact hn0 hz
            · exact hn (hsub.subset hz)
          rw [hfr1 z L (Or.inl hzn)]
        · rw [hfr1 z L (Or.inr hLi)]
    have hinv2 : LinkInv k0 t0 t2 p q n (i + 1) := by
      refine ⟨by rw [hlen2, hlen1, hinv.len], by rw [hmh2, hmh1, hinv.mh],
        fun y => by rw [hht2, hht1, hinv.height], fun y => by rw [hkey2, hkey1, hinv.key],
        ?_, ?_, by rw [SetNext_shape hset2, SetNext_shape hset1, hinv.shape]⟩
      · intro L hL hL12
        by_cases hLi : L = i
        · subst hLi
          refine Linked.splice hchain ?_ hn0 ?_ ?_ hs2 ?_
          · exact (List.nodup_cons.mpr ⟨fun hm => (List.nodup_cons.mp hnd).1 (hsub.subset hm),
              (List.nodup_cons.mp hnd).2.sublist hsub⟩)
          · exact fun hm => hn (hsub.subset hm)
          · rw [hfr2 n L (Or.inl hxn), hs1]
          · intro y hy1 hy2
            rw [hfr2 y L (Or.inl hy2), hfr1 y L (Or.inl hy1)]
        · refine Linked.congr (fun z _ => ?_) (hinv.done L (by omega) hL12)
          rw [hfr2 z L (Or.inr hLi), hfr1 z L (Or.inr hLi)]
      · intro L hL hL12
        have hLi : L ≠ i := by omega
        refine Linked.congr (fun z _ => ?_) (hinv.todo L (by omega) hL12)
        rw [hfr2 z L (Or.inr hLi), hfr1 z L (Or.inr hLi)]
    obtain ⟨tr, htr, hlen, hlk, hall⟩ := ih (i + 1) t2 (by omega) hinv2
    refine ⟨t1 :: t2 :: tr, ?_, by simp [hlen]; omega, ?_, ?_⟩
    · simp [Insert.linkTrace, hprev i hih, Next_of_slot hslot, hset1, hset2, htr]
    · have hrun : Insert.link prev n i (count + 1) t = Insert.link prev n (i + 1) count t2 := by
        simp [Insert.link, hprev i hih, Next_of_slot hslot, hset1, hset2]
      rw [hrun, hlk]; rfl
    · intro u hu
      rcases List.mem_cons.mp hu with rfl | hu
      · exact ⟨i, by omega, hinv1⟩
      · rcases List.mem_cons.mp hu with rfl | hu
        · exact ⟨i + 1, by omega, hinv2⟩
        · exact hall u hu

theorem Linked.of_nodes_eq {s t : SkipList K} (h : t.nodes = s.nodes) {L x : Nat}
    {c : List Nat} (hl : Linked s L x c) : Linked t L x c :=
  Linked.congr (fun z _ => by unfold SkipList.slot; rw [h]) hl

/-- A state with the nodes of a list that satisfies the invariant is safe for
readers. -/
theorem readerSafe_of_nodes [LinearOrder K] {k0 : K} {s : SkipList K} {l : List Nat}
    (hinv : Inv k0 s l) (key : K) {t : SkipList K} (h : t.nodes = s.nodes) :
    ReaderSafe k0 s l key t := by
  have hk : t.keyD k0 = s.keyD k0 := by
    funext y; unfold SkipList.keyD; rw [h]
  have hl0 : atLevel s 0 l = l := atLevel_zero hinv.scan
  refine ⟨fun i _ => by rw [hk], l, ?_, fun i hi => hi, fun i hi => Or.inl hi, ?_⟩
  · have := hinv.links 0 (by decide)
    rw [hl0] at this
    exact this.of_nodes_eq h
  · intro L hL
    refine ⟨atLevel s L l, (hinv.links L hL).of_nodes_eq h,
      Nat.le_succ_of_le (atLevel_sublist s L l).length_le, ?_,
      fun y hy => (mem_atLevel.mp hy).1⟩
    rw [hk]
    exact atLevel_pairwise hinv.sorted

/-- The keys stay sorted when the new node is put between `p` and `q`. -/
theorem sorted_insert [LinearOrder K] (f g : Nat → K) (key : K) (p q : List Nat) (n : Nat)
    (hs : (p ++ q).Pairwise (fun i j => f i < f j))
    (hp : ∀ a ∈ p, f a < key) (hq : ∀ b ∈ q, key < f b)
    (hg : ∀ y ∈ p ++ q, g y = f y) (hn : g n = key) :
    (p ++ n :: q).Pairwise (fun i j => g i < g j) := by
  rw [List.pairwise_append] at hs ⊢
  have hgp : ∀ y ∈ p, g y = f y := fun y hy => hg y (by simp [hy])
  have hgq : ∀ y ∈ q, g y = f y := fun y hy => hg y (by simp [hy])
  refine ⟨hs.1.imp_of_mem (fun {a b} ha hb hab => ?_), ?_, ?_⟩
  · rw [hgp a ha, hgp b hb]; exact hab
  · rw [List.pairwise_cons]
    refine ⟨fun b hb => ?_, hs.2.1.imp_of_mem (fun {a b} ha hb hab => ?_)⟩
    · rw [hn, hgq b hb]; exact hq b hb
    · rw [hgq a ha, hgq b hb]; exact hab
  · intro a ha b hb
    rw [hgp a ha]
    rcases List.mem_cons.mp hb with rfl | hb
    · rw [hn]; exact hp a ha
    · rw [hgq b hb]; exact lt_trans (hp a ha) (hq b hb)

/-- A state of the linking loop is safe for readers. -/
theorem readerSafe_of_LinkInv [LinearOrder K] {k0 : K} {s : SkipList K} {l : List Nat}
    (key : K) {t0 u : SkipList K} {p q : List Nat} {j : Nat}
    (hl : l = p ++ q) (hlt : ∀ y ∈ l, y < s.nodes.length)
    (hk0 : ∀ y, y < s.nodes.length → t0.keyD k0 y = s.keyD k0 y)
    (hkn : t0.keyD k0 s.nodes.length = key)
    (hh0 : ∀ y ∈ l, 0 < t0.height y)
    (hsorted : (p ++ s.nodes.length :: q).Pairwise (fun i j => t0.keyD k0 i < t0.keyD k0 j))
    (hu : LinkInv k0 t0 u p q s.nodes.length j) :
    ReaderSafe k0 s l key u := by
  have hk : u.keyD k0 = t0.keyD k0 := funext hu.key
  have hp0 : atLevel t0 0 p = p := by
    simp only [atLevel, List.filter_eq_self]
    intro z hz; simpa using hh0 z (by simp [hl, hz])
  have hq0 : atLevel t0 0 q = q := by
    simp only [atLevel, List.filter_eq_self]
    intro z hz; simpa using hh0 z (by simp [hl, hz])
  have hsub1 : ∀ L, (atLevel t0 L p ++ s.nodes.length :: atLevel t0 L q).Sublist
      (p ++ s.nodes.length :: q) := fun L =>
    (atLevel_sublist t0 L p).append ((atLevel_sublist t0 L q).cons₂ _)
  have hsub2 : ∀ L, (atLevel t0 L p ++ atLevel t0 L q).Sublist
      (p ++ s.nodes.length :: q) := fun L =>
    (atLevel_sublist t0 L p).append ((atLevel_sublist t0 L q).cons _)
  have hlen1 : ∀ L, (atLevel t0 L p ++ s.nodes.length :: atLevel t0 L q).length
      ≤ l.length + 1 := fun L => by
    have := (hsub1 L).length_le
    rw [hl]; simp at this ⊢; omega
  have hlen2 : ∀ L, (atLevel t0 L p ++ atLevel t0 L q).length ≤ l.length + 1 := fun L => by
    have := (hsub2 L).length_le
    rw [hl]; simp at this ⊢; omega
  refine ⟨fun i hi => by rw [hk, hk0 i (hlt i hi)], ?_⟩
  by_cases hj : 0 < j
  · refine ⟨p ++ s.nodes.length :: q, ?_, ?_, ?_, ?_⟩
    · have := hu.done 0 hj (by decide)
      rw [hp0, hq0] at this
      exact this
    · intro i hi
      rw [hl] at hi
      rcases List.mem_append.mp hi with hi | hi
      · simp [hi]
      · simp [hi]
    · intro i hi
      rcases List.mem_append.mp hi with hi | hi
      · exact Or.inl (by simp [hl, hi])
      · rcases List.mem_cons.mp hi with rfl | hi
        · exact Or.inr ⟨rfl, by rw [hk, hkn]⟩
        · exact Or.inl (by simp [hl, hi])
    · intro L hL
      rw [hk]
      by_cases hLj : L < j
      · exact ⟨_, hu.done L hLj hL, hlen1 L, hsorted.sublist (hsub1 L),
          fun y hy => (hsub1 L).subset hy⟩
      · exact ⟨_, hu.todo L (by omega) hL, hlen2 L, hsorted.sublist (hsub2 L),
          fun y hy => (hsub2 L).subset hy⟩
  · have hj0 : j = 0 := by omega
    subst hj0
    have hsubl : (p ++ q).Sublist (p ++ s.nodes.length :: q) :=
      (List.Sublist.refl p).append ((List.Sublist.refl q).cons _)
    refine ⟨p ++ q, ?_, fun i hi => by rw [← hl]; exact hi,
      fun i hi => Or.inl (by rw [hl]; exact hi), ?_⟩
    · have := hu.todo 0 (Nat.le_refl _) (by decide)
      rw [hp0, hq0] at this
      exact this
    · intro L hL
      rw [hk]
      exact ⟨_, hu.todo L (Nat.zero_le _) hL, hlen2 L, hsorted.sublist (hsub2 L),
        fun y hy => ((atLevel_sublist t0 L p).append (atLevel_sublist t0 L q)).subset hy⟩

/-- `Insert` of a new key, store by store: the run returns `2 + 2 * h` states,
its last state is the result of `Insert`, and every state is safe for readers. -/
theorem Insert_trace_spec [LinearOrder K] {cmp : K → K → Int} (hc : LawfulCmp cmp) {k0 : K}
    {s : SkipList K} {l : List Nat} (hinv : Inv k0 s l) (key : K)
    (hkey : ∀ i ∈ l, s.keyD k0 i ≠ key) {h : Nat} (h1 : 1 ≤ h) (h12 : h ≤ kMaxHeight)
    (fuel : Nat) (hf : l.length + s.max_height_ ≤ fuel) :
    ∃ tr, Insert.trace cmp fuel s key h = .ok tr ∧ tr.length = 2 + 2 * h ∧
      Insert cmp fuel s key h = .ok (lastSt s tr) ∧
      ∀ u ∈ tr, ReaderSafe k0 s l key u := by
  have hmh := hinv.mh
  have h0 := hinv.head_lt
  obtain ⟨p, q, prev1, hl, hp, hq, hfge, -, hsome⟩ :=
    FGE_spec hc hinv key fuel hf (some (List.replicate kMaxHeight none)) (fun a ha => by
      cases ha; simp)
  obtain ⟨a1, rfl, hlen1, hlow1, hhigh1⟩ := hsome _ rfl
  have hlen1 : a1.length = kMaxHeight := by simpa using hlen1
  have hmemp : ∀ y ∈ p, y ∈ l := fun y hy => by simp [hl, hy]
  have hmemq : ∀ y ∈ q, y ∈ l := fun y hy => by simp [hl, hy]
  have hcheck : Insert.check cmp s key q.head? = .ok true := by
    cases hq0 : q.head? with
    | none => rfl
    | some y =>
      have hyq : y ∈ q := List.mem_of_mem_head? hq0
      have hyl := hmemq y hyq
      have hne : cmp key (s.keyD k0 y) ≠ 0 := fun e =>
        hkey y hyl (((hc _ _).2.mp e).symm)
      simp [Insert.check, keyAt_of_lt k0 ((hinv.mem y).mp hyl).2, Equal, hne]
  obtain ⟨a2, hfill, hprev2⟩ : ∃ a2,
      (if h > s.GetMaxHeight then Insert.fill a1 s.GetMaxHeight (h - s.GetMaxHeight)
        else .ok a1) = .ok a2 ∧
      ∀ L, L < h → a2[L]? = some (some (lastOf head_ (atLevel s L p))) := by
    unfold SkipList.GetMaxHeight
    by_cases hgt : h > s.max_height_
    · obtain ⟨a2, e1, _, e3, e4⟩ := fill_spec (h - s.max_height_) s.max_height_ a1
        (by rw [hlen1]; omega)
      refine ⟨a2, by simp [hgt, e1], ?_⟩
      intro L hL
      by_cases hLm : L < s.max_height_
      · rw [e4 L (Or.inl hLm)]; exact hlow1 L hLm
      · rw [e3 L (by omega) (by omega)]
        have : atLevel s L p = [] := atLevel_eq_nil s (fun z hz => by
          have := (hinv.hpos z (hmemp z hz)).2; omega)
        rw [this]; rfl
    · exact ⟨a1, by simp [hgt], fun L hL => hlow1 L (by omega)⟩
  obtain ⟨sA, hsA, hsAn⟩ : ∃ sA : SkipList K,
      (if h > s.GetMaxHeight then { s with max_height_ := h } else s) = sA ∧
      sA.nodes = s.nodes := by
    unfold SkipList.GetMaxHeight
    by_cases hgt : h > s.max_height_
    · exact ⟨_, rfl, by simp [hgt]⟩
    · exact ⟨_, rfl, by simp [hgt]⟩
  obtain ⟨t0, hnew, ht0m, ht0n, ht0h, ht0k, ht0s, ht0hn, ht0kn⟩ :=
    NewNode_spec k0 sA key (by omega : 0 < h)
  have hA_h : ∀ y, sA.height y = s.height y := fun y => by
    unfold SkipList.height; rw [hsAn]
  have hA_k : ∀ y, sA.keyD k0 y = s.keyD k0 y := fun y => by
    unfold SkipList.keyD; rw [hsAn]
  have hA_s : ∀ y m, sA.slot y m = s.slot y m := fun y m => by
    unfold SkipList.slot; rw [hsAn]
  rw [hsAn] at hnew ht0h ht0k ht0s ht0hn ht0kn
  have hlt : ∀ y ∈ l, y < s.nodes.length := fun y hy => ((hinv.mem y).mp hy).2
  have hhp : ∀ y ∈ p, t0.height y = s.height y := fun y hy => by
    rw [ht0h y (hlt y (hmemp y hy)), hA_h]
  have hhq : ∀ y ∈ q, t0.height y = s.height y := fun y hy => by
    rw [ht0h y (hlt y (hmemq y hy)), hA_h]
  have hnl : s.nodes.length ∉ p ++ q := by
    rw [← hl]; intro hm; exact Nat.lt_irrefl _ (hlt _ hm)
  have hn0 : s.nodes.length ≠ head_ := fun e => by rw [e] at h0; exact Nat.lt_irrefl _ h0
  have hnd : (head_ :: (p ++ q)).Nodup := by
    rw [← hl]
    exact List.nodup_cons.mpr ⟨fun hm => Nat.lt_irrefl _ ((hinv.mem _).mp hm).1, hinv.nodup⟩
  have hinit : LinkInv k0 t0 t0 p q s.nodes.length 0 := by
    refine ⟨rfl, rfl, fun _ => rfl, fun _ => rfl, fun L hL => by omega, ?_, rfl⟩
    intro L _ hL12
    have hlk := hinv.links L hL12
    rw [hl, atLevel_append] at hlk
    rw [atLevel_congr_mem hhp, atLevel_congr_mem hhq]
    refine Linked.congr (fun z hz => ?_) hlk
    have hz : z < s.nodes.length := by
      rcases hz with rfl | hz
      · exact h0
      · rw [← atLevel_append, ← hl] at hz
        exact hlt z (mem_atLevel.mp hz).1
    rw [ht0s z L hz, hA_s]
  obtain ⟨tr, htr, htrlen, hlink, hall⟩ :=
    linkTrace_spec k0 t0 p q s.nodes.length h a2 hnd hn0 hnl ht0hn h12
      (fun L hL => by rw [hprev2 L hL, atLevel_congr_mem hhp]) h 0 t0 (by omega) hinit
  have hq1 : ∀ y ∈ q, key < s.keyD k0 y := fun y hy =>
    lt_of_le_of_ne (not_lt.mp (hq y hy)) (fun e => hkey y (hmemq y hy) e.symm)
  have hk0 : ∀ y, y < s.nodes.length → t0.keyD k0 y = s.keyD k0 y := fun y hy => by
    rw [ht0k y hy, hA_k]
  have hsorted : (p ++ s.nodes.length :: q).Pairwise
      (fun i j => t0.keyD k0 i < t0.keyD k0 j) :=
    sorted_insert (s.keyD k0) (t0.keyD k0) key p q s.nodes.length (hl ▸ hinv.sorted) hp hq1
      (fun y hy => hk0 y (hlt y (hl ▸ hy))) ht0kn
  have hh0 : ∀ y ∈ l, 0 < t0.height y := fun y hy => by
    rw [ht0h y (hlt y hy), hA_h]
    exact (hinv.hpos y hy).1
  have hsafe : ∀ u, (∃ j, j ≤ h ∧ LinkInv k0 t0 u p q s.nodes.length j) →
      ReaderSafe k0 s l key u := fun u ⟨j, _, hj⟩ =>
    readerSafe_of_LinkInv key hl hlt hk0 ht0kn hh0 hsorted hj
  refine ⟨sA :: t0 :: tr, ?_, by simp [htrlen]; omega, ?_, ?_⟩
  · simp only [Insert.trace, hfge, hcheck, hfill, hsA, hnew, htr]
  · simp only [Insert, hfge, hcheck, hfill, hsA, hnew, hlink]
    cases tr with
    | nil => rfl
    | cons a b => rfl
  · intro u hu
    rcases List.mem_cons.mp hu with rfl | hu
    · exact readerSafe_of_nodes hinv key hsAn
    · rcases List.mem_cons.mp hu with rfl | hu
      · exact hsafe u ⟨0, Nat.zero_le _, hinit⟩
      · exact hsafe u (hall u hu)

theorem chain_unique {s : SkipList K} {L : Nat} : ∀ {c1 c2 : List Nat} {x : Nat},
    Linked s L x c1 → Linked s L x c2 → c1 = c2 := by
  intro c1
  induction c1 with
  | nil =>
    intro c2 x h1 h2
    cases c2 with
    | nil => rfl
    | cons y c2 =>
      have e1 : s.slot x L = some none := h1
      have e2 : s.slot x L = some (some y) := h2.1
      rw [e1] at e2; cases e2
  | cons y c1 ih =>
    intro c2 x h1 h2
    cases c2 with
    | nil =>
      have e1 : s.slot x L = some (some y) := h1.1
      have e2 : s.slot x L = some none := h2
      rw [e1] at e2; cases e2
    | cons z c2 =>
      have e1 : s.slot x L = some (some y) := h1.1
      have e2 : s.slot x L = some (some z) := h2.1
      rw [e1] at e2
      have hyz : y = z := by injection e2 with e3; injection e3
      subst hyz
      rw [ih h1.2 h2.2]

/-- From the state `SkipList.new`: model `Insert` of a new key (height in `1..kMaxHeight`) into a list
built from pairwise-distinct keys as the sequence of its stores: the store to
`max_height_`, the construction of the node, then for each level `0..height-1`
the store of the new node's link followed by the store of the predecessor's
link.  The run returns `2 + 2 * height` states and ends in the result of
`Insert`; in the state before and in every state of the run, the chain of every
level can be followed from the head to `nullptr` (every link on it has been
written), its keys are strictly increasing and its nodes lie on the level-0
chain, and the level-0 chain holds every previously inserted key and besides
them at most the new key. -/
theorem intermediate_states_from_new [LinearOrder K] (cmp : K → K → Int) (hc : LawfulCmp cmp)
    (k0 : K) (khs : List (K × Nat)) (hnd : (khs.map Prod.fst).Nodup)
    (hh : ∀ kh ∈ khs, 1 ≤ kh.2 ∧ kh.2 ≤ kMaxHeight) (fuel : Nat)
    (hf : khs.length + kMaxHeight ≤ fuel) (key : K) (hnew : key ∉ khs.map Prod.fst)
    (h : Nat) (h1 : 1 ≤ h) (h12 : h ≤ kMaxHeight) :
    ∃ s tr, insertAll cmp fuel (SkipList.new k0) khs = .ok s ∧
      Insert.trace cmp fuel s key h = .ok tr ∧ tr.length = 2 + 2 * h ∧
      Insert cmp fuel s key h = .ok (lastSt s tr) ∧
      ∀ t ∈ s :: tr, ∃ c0, t.chain fuel 0 = .ok c0 ∧
        (∀ k ∈ khs.map Prod.fst, k ∈ c0.map (t.keyD k0)) ∧
        (∀ k ∈ c0.map (t.keyD k0), k ∈ khs.map Prod.fst ∨ k = key) ∧
        ∀ L, L < kMaxHeight → ∃ c, t.chain fuel L = .ok c ∧
          (c.map (t.keyD k0)).Sorted (· < ·) ∧ ∀ y ∈ c, y ∈ c0 := by
  obtain ⟨s, l, hrun, hinv, hshape, -⟩ := build_spec hc k0 khs hnd hh fuel hf
  have hlen : l.length = khs.length := by
    simpa using (hinv.keys_perm hshape).length_eq
  have hmh := hinv.mh
  have hfresh : ∀ i ∈ l, s.keyD k0 i ≠ key := fun i hi e =>
    hnew ((mem_keys_iff hinv hshape key).mpr ⟨i, hi, e⟩)
  obtain ⟨tr, htr, htrlen, hins, hall⟩ :=
    Insert_trace_spec hc hinv key hfresh h1 h12 fuel (by omega)
  refine ⟨s, tr, hrun, htr, htrlen, hins, ?_⟩
  intro t ht
  have hsafe : ReaderSafe k0 s l key t := by
    rcases List.mem_cons.mp ht with rfl | ht
    · exact readerSafe_of_nodes hinv key rfl
    · exact hall t ht
  obtain ⟨hkeys, c0, hc0, hold, hnewc, hlev⟩ := hsafe
  have hfuel : ∀ c : List Nat, c.length ≤ l.length + 1 → c.length < fuel := fun c hcl => by
    unfold kMaxHeight at hf; omega
  obtain ⟨c00, hc00, hlen00, -, -⟩ := hlev 0 (by decide)
  have e0 : c00 = c0 := chain_unique hc00 hc0
  subst e0
  refine ⟨c00, chainFrom_of_Linked _ _ hc0 (hfuel _ hlen00), ?_, ?_, ?_⟩
  · intro k hk
    obtain ⟨j, hj, rfl⟩ := (mem_keys_iff hinv hshape k).mp hk
    exact List.mem_map.mpr ⟨j, hold j hj, hkeys j hj⟩
  · intro k hk
    obtain ⟨i, hi, rfl⟩ := List.mem_map.mp hk
    rcases hnewc i hi with hil | ⟨-, hik⟩
    · exact Or.inl ((mem_keys_iff hinv hshape _).mpr ⟨i, hil, (hkeys i hil).symm⟩)
    · exact Or.inr hik
  · intro L hL
    obtain ⟨c, hcL, hcl, hcs, hcsub⟩ := hlev L hL
    exact ⟨c, chainFrom_of_Linked _ _ hcL (hfuel _ hcl), List.pairwise_map.mpr hcs, hcsub⟩

/-- Example from the state `SkipList.new`: inserting key 7 with height 3 into the scenario 5, 1, 9, 3
passes through 8 states. -/
theorem intermediate_states_from_new_example :
    ∃ s tr, insertAll intCmp 16 (SkipList.new 0) scenario = .ok s ∧
      Insert.trace intCmp 16 s 7 3 = .ok tr ∧ tr.length = 2 + 2 * 3 ∧
      Insert intCmp 16 s 7 3 = .ok (lastSt s tr) ∧
      ∀ t ∈ s :: tr, ∃ c0, t.chain 16 0 = .ok c0 ∧
        (∀ k ∈ scenario.map Prod.fst, k ∈ c0.map (t.keyD 0)) ∧
        (∀ k ∈ c0.map (t.keyD 0), k ∈ scenario.map Prod.fst ∨ k = 7) ∧
        ∀ L, L < kMaxHeight → ∃ c, t.chain 16 L = .ok c ∧
          (c.map (t.keyD 0)).Sorted (· < ·) ∧ ∀ y ∈ c, y ∈ c0 :=
  intermediate_states_from_new intCmp lawful_intCmp 0 scenario (by decide) (by decide) 16
    (by decide) 7 (by decide) 3 (by decide) (by decide)

/-- From the state `SkipList.new`: on a list built from pairwise-distinct keys, `FindGreaterOrEqual(key,
prev)` with a non-null `prev` of `kMaxHeight` entries returns, and afterwards,
for every level `L` below `GetMaxHeight()`, the level-`L` chain splits into the
nodes with key below `key` followed by the nodes with key not below `key`,
`prev[L]` is the last node of the first part (the head sentinel if it is empty),
and the level-`L` successor of `prev[L]` is the first node of the second part
(null if it is empty); the entries `prev[L]` with `L >= GetMaxHeight()` are as
they were before the call. -/
theorem prev_array_from_new [LinearOrder K] (cmp : K → K → Int) (hc : LawfulCmp cmp)
    (k0 : K) (khs : List (K × Nat)) (hnd : (khs.map Prod.fst).Nodup)
    (hh : ∀ kh ∈ khs, 1 ≤ kh.2 ∧ kh.2 ≤ kMaxHeight) (fuel : Nat)
    (hf : khs.length + kMaxHeight ≤ fuel) (key : K) (prev : List (Option Nat))
    (hprev : prev.length = kMaxHeight) :
    ∃ s x prev1, insertAll cmp fuel (SkipList.new k0) khs = .ok s ∧
      FindGreaterOrEqual cmp fuel s key (some prev) = .ok (x, some prev1) ∧
      prev1.length = prev.length ∧
      (∀ L, L < s.GetMaxHeight → ∃ cp cq, s.chain fuel L = .ok (cp ++ cq) ∧
        (∀ y ∈ cp, s.keyD k0 y < key) ∧ (∀ y ∈ cq, key ≤ s.keyD k0 y) ∧
        prev1[L]? = some (some (lastOf head_ cp)) ∧
        s.Next (lastOf head_ cp) L = .ok cq.head?) ∧
      (∀ L, s.GetMaxHeight ≤ L → prev1[L]? = prev[L]?) := by
  obtain ⟨s, l, hrun, hinv, hshape, -⟩ := build_spec hc k0 khs hnd hh fuel hf
  have hlen : l.length = khs.length := by
    simpa using (hinv.keys_perm hshape).length_eq
  have hmh := hinv.mh
  obtain ⟨p, q, prev1, hl, hp, hq, hfge, -, hsome⟩ :=
    FGE_spec hc hinv key fuel (by omega) (some prev) (fun a ha => by cases ha; exact hprev)
  obtain ⟨a1, rfl, hlen1, hlow, hhigh⟩ := hsome _ rfl
  refine ⟨s, q.head?, a1, hrun, hfge, hlen1, ?_, hhigh⟩
  intro L hL
  have hL12 : L < kMaxHeight := by unfold SkipList.GetMaxHeight at hL; omega
  have hlk := hinv.links L hL12
  have hlk2 := hlk
  rw [hl, atLevel_append] at hlk2
  have hfuel : (atLevel s L l).length < fuel := by
    have := (atLevel_sublist s L l).length_le
    unfold kMaxHeight at hf; omega
  refine ⟨atLevel s L p, atLevel s L q, ?_, fun y hy => hp y (mem_atLevel.mp hy).1,
    fun y hy => not_lt.mp (hq y (mem_atLevel.mp hy).1), hlow L hL,
    Next_of_slot hlk2.at_last.slot_eq⟩
  rw [← atLevel_append, ← hl]
  exact chainFrom_of_Linked _ _ hlk hfuel

/-- Example from the state `SkipList.new` on the scenario 5, 1, 9, 3 with the probe key 4. -/
theorem prev_array_from_new_example :
    ∃ s x prev1, insertAll intCmp 16 (SkipList.new 0) scenario = .ok s ∧
      FindGreaterOrEqual intCmp 16 s 4 (some (List.replicate kMaxHeight none)) =
        .ok (x, some prev1) ∧
      prev1.length = (List.replicate kMaxHeight (none : Option Nat)).length ∧
      (∀ L, L < s.GetMaxHeight → ∃ cp cq, s.chain 16 L = .ok (cp ++ cq) ∧
        (∀ y ∈ cp, s.keyD 0 y < 4) ∧ (∀ y ∈ cq, 4 ≤ s.keyD 0 y) ∧
        prev1[L]? = some (some (lastOf head_ cp)) ∧
        s.Next (lastOf head_ cp) L = .ok cq.head?) ∧
      (∀ L, s.GetMaxHeight ≤ L →
        prev1[L]? = (List.replicate kMaxHeight (none : Option Nat))[L]?) :=
  prev_array_from_new intCmp lawful_intCmp 0 scenario (by decide) (by decide) 16 (by decide) 4
    (List.replicate kMaxHeight none) (by decide)

/-- From the state `SkipList.new`: on every skip list built by inserting pairwise-distinct keys (heights
in `1..kMaxHeight`) into an empty list, and for every probe key,
`FindGreaterOrEqual`, `FindLessThan` and `FindLast` return within
`n + GetMaxHeight()` loop iterations, where `n` is the number of inserted nodes:
with any iteration budget of at least that size none of them runs out of it. -/
theorem searches_terminate_from_new [LinearOrder K] (cmp : K → K → Int) (hc : LawfulCmp cmp)
    (k0 : K) (khs : List (K × Nat)) (hnd : (khs.map Prod.fst).Nodup)
    (hh : ∀ kh ∈ khs, 1 ≤ kh.2 ∧ kh.2 ≤ kMaxHeight) (fuel : Nat)
    (hf : khs.length + kMaxHeight ≤ fuel) :
    ∃ s, insertAll cmp fuel (SkipList.new k0) khs = .ok s ∧
      s.nodes.length = khs.length + 1 ∧
      ∀ (key : K) (budget : Nat), khs.length + s.GetMaxHeight ≤ budget →
        (∃ r, FindGreaterOrEqual cmp budget s key none = .ok r) ∧
        (∃ r, FindLessThan cmp budget s key = .ok r) ∧
        (∃ r, FindLast budget s = .ok r) := by
  obtain ⟨s, l, hrun, hinv, hshape, -⟩ := build_spec hc k0 khs hnd hh fuel hf
  have hlen : l.length = khs.length := by
    simpa using (hinv.keys_perm hshape).length_eq
  have hmh := hinv.mh
  have hnl : s.nodes.length = khs.length + 1 := by
    rw [← shape_length, hshape]; simp
  refine ⟨s, hrun, hnl, ?_⟩
  intro key budget hb
  have hb1 : l.length + s.max_height_ ≤ budget := by
    unfold SkipList.GetMaxHeight at hb; omega
  have hne : s.GetMaxHeight ≠ 0 := by unfold SkipList.GetMaxHeight; omega
  refine ⟨?_, ?_, ?_⟩
  · obtain ⟨p, q, prev1, -, -, -, hfge, -, -⟩ :=
      FGE_spec hc hinv key budget hb1 none (fun a ha => by simp at ha)
    exact ⟨_, hfge⟩
  · obtain ⟨p, q, -, -, -, hflt⟩ :=
      FLT_loop_spec hc k0 s key budget head_ (s.max_height_ - 1) l hinv.scan (Or.inl rfl)
        (by omega)
    exact ⟨lastOf head_ p, by simp only [FindLessThan, hne, if_false]; exact hflt⟩
  · have hlast := FindLast_loop_spec k0 s budget head_ (s.max_height_ - 1) l hinv.scan
      (by omega)
    exact ⟨lastOf head_ l, by simp only [FindLast, hne, if_false]; exact hlast⟩

/-- Example from the state `SkipList.new` on the scenario 5, 1, 9, 3. -/
theorem searches_terminate_from_new_example :
    ∃ s, insertAll intCmp 16 (SkipList.new 0) scenario = .ok s ∧
      s.nodes.length = scenario.length + 1 ∧
      ∀ (key : Int) (budget : Nat), scenario.length + s.GetMaxHeight ≤ budget →
        (∃ r, FindGreaterOrEqual intCmp budget s key none = .ok r) ∧
        (∃ r, FindLessThan intCmp budget s key = .ok r) ∧
        (∃ r, FindLast budget s = .ok r) :=
  searches_terminate_from_new intCmp lawful_intCmp 0 scenario (by decide) (by decide) 16
    (by decide)

/-! ## `Allocate` from the current block -/

/-- C22: `Allocate(n)` with `0 < n <= alloc_bytes_remaining_` returns the current
cursor `alloc_ptr_`, advances the cursor by exactly `n`, lowers
`alloc_bytes_remaining_` by exactly `n`, creates no block and leaves
`memory_usage()` unchanged; a second such call `Allocate(m)` (with
`0 < m <=` the bytes then remaining) returns the address exactly `n` bytes after
the first one, again without a new block. -/
theorem C22_Allocate_bump (P : Platform) (a : Arena) (n : Nat) (hn : 0 < n)
    (hfit : n ≤ a.alloc_bytes_remaining_) :
    ∃ a1, a.Allocate P n = .ok (a.alloc_ptr_, a1) ∧
      a1.alloc_ptr_ = a.alloc_ptr_ + n ∧
      a1.alloc_bytes_remaining_ + n = a.alloc_bytes_remaining_ ∧
      a1.blocks_ = a.blocks_ ∧ a1.memory_usage = a.memory_usage ∧
      ∀ m, 0 < m → m ≤ a1.alloc_bytes_remaining_ →
        ∃ a2, a1.Allocate P m = .ok (a.alloc_ptr_ + n, a2) ∧
          Arena.run P a [.allocate n, .allocate m] =
            .ok ([a.alloc_ptr_, a.alloc_ptr_ + n], a2) ∧
          a2.blocks_ = a.blocks_ ∧ a2.memory_usage = a.memory_usage := by
  have e1 : a.Allocate P n = .ok (a.alloc_ptr_,
      ⟨a.alloc_ptr_ + n, a.alloc_bytes_remaining_ - n, a.blocks_, a.memory_usage_⟩) := by
    simp only [Arena.Allocate, hn, not_true, if_false, hfit, if_true]
  refine ⟨_, e1, rfl, Nat.sub_add_cancel hfit, rfl, rfl, ?_⟩
  intro m hm hfit2
  have e2 : Arena.Allocate P
      ⟨a.alloc_ptr_ + n, a.alloc_bytes_remaining_ - n, a.blocks_, a.memory_usage_⟩ m =
      .ok (a.alloc_ptr_ + n,
        ⟨a.alloc_ptr_ + n + m, a.alloc_bytes_remaining_ - n - m, a.blocks_,
          a.memory_usage_⟩) := by
    simp only [Arena.Allocate, hm, not_true, if_false]
    rw [if_pos hfit2]
  exact ⟨_, e2, by simp only [Arena.run, Arena.serve, e1, e2], rfl, rfl⟩

/-- Witness of C22 on the platform `P64`: from the arena left by `Allocate(10)`
(cursor 65546, 4086 bytes remaining), `Allocate(5)` returns 65546 and a following
`Allocate(7)` returns 65551. -/
theorem C22_Allocate_bump_witness :
    (0 < 5 ∧ 5 ≤ afterTen.alloc_bytes_remaining_) ∧
    ∃ a1, afterTen.Allocate P64 5 = .ok (afterTen.alloc_ptr_, a1) ∧
      a1.alloc_ptr_ = afterTen.alloc_ptr_ + 5 ∧
      a1.alloc_bytes_remaining_ + 5 = afterTen.alloc_bytes_remaining_ ∧
      a1.blocks_ = afterTen.blocks_ ∧ a1.memory_usage = afterTen.memory_usage ∧
      ∀ m, 0 < m → m ≤ a1.alloc_bytes_remaining_ →
        ∃ a2, a1.Allocate P64 m = .ok (afterTen.alloc_ptr_ + 5, a2) ∧
          Arena.run P64 afterTen [.allocate 5, .allocate m] =
            .ok ([afterTen.alloc_ptr_, afterTen.alloc_ptr_ + 5], a2) ∧
          a2.blocks_ = afterTen.blocks_ ∧ a2.memory_usage = afterTen.memory_usage :=
  ⟨⟨by decide, by decide⟩, C22_Allocate_bump P64 afterTen 5 (by decide) (by decide)⟩

/-! ## The generator `Random` -/

theorem lehmer_ne_zero (s : Nat) (h1 : 1 ≤ s) (h2 : s ≤ 2147483646) :
    (s * 16807) % 2147483647 ≠ 0 := by
  intro h
  have hd : 2147483647 ∣ s * 16807 := Nat.dvd_of_mod_eq_zero h
  have hc : Nat.Coprime 2147483647 16807 := by norm_num
  have hs : 2147483647 ∣ s := hc.dvd_of_dvd_mul_right hd
  have := Nat.le_of_dvd (by omega) hs
  omega

/-- C25: the constructor of `Random` maps every seed into `[1, 2^31 - 2]`
(`seed & 0x7fffffff`, with 0 and `2^31 - 1` replaced by 1), and for every
`seed_` in `[1, 2^31 - 2]` the call `Next()` stores and returns exactly
`(seed_ * 16807) mod (2^31 - 1)`: the product fits in 64 bits, the sum of its
high and low parts fits in 32 bits, and the result again lies in
`[1, 2^31 - 2]`. -/
theorem C25_Lehmer_step (seed s : Nat) (h1 : 1 ≤ s) (h2 : s ≤ 2 ^ 31 - 2) :
    (1 ≤ (Random.new seed).seed_ ∧ (Random.new seed).seed_ ≤ 2 ^ 31 - 2 ∧
      (Random.new seed).seed_ =
        (if seed % 2 ^ 31 = 0 ∨ seed % 2 ^ 31 = 2 ^ 31 - 1 then 1 else seed % 2 ^ 31)) ∧
    ((Random.Next ⟨s⟩).1 = (s * 16807) % (2 ^ 31 - 1) ∧
      (Random.Next ⟨s⟩).2.seed_ = (s * 16807) % (2 ^ 31 - 1) ∧
      1 ≤ (Random.Next ⟨s⟩).1 ∧ (Random.Next ⟨s⟩).1 ≤ 2 ^ 31 - 2 ∧
      s * 16807 < 2 ^ 64 ∧
      s * 16807 / 2 ^ 31 + s * 16807 % 2 ^ 31 < 2 ^ 32) := by
  have hz := lehmer_ne_zero s h1 (by omega)
  constructor
  · have e : (Random.new seed).seed_ =
        (if seed % 2 ^ 31 = 0 ∨ seed % 2 ^ 31 = 2 ^ 31 - 1 then 1 else seed % 2 ^ 31) := by
      unfold Random.new
      exact apply_ite Random.seed_ _ _ _
    refine ⟨?_, ?_, e⟩
    · rw [e]; split <;> omega
    · rw [e]; split <;> omega
  · have hp : s * 16807 % 2 ^ 64 = s * 16807 := Nat.mod_eq_of_lt (by omega)
    have hsum : s * 16807 / 2 ^ 31 + s * 16807 % 2 ^ 31 < 2 ^ 32 := by omega
    have e : (Random.Next ⟨s⟩).1 = (s * 16807) % (2 ^ 31 - 1) := by
      simp only [Random.Next, hp, Nat.mod_eq_of_lt hsum]
      split <;> omega
    have e2 : (Random.Next ⟨s⟩).2.seed_ = (Random.Next ⟨s⟩).1 := rfl
    refine ⟨e, e2.trans e, ?_, ?_, by omega, hsum⟩
    · rw [e]; omega
    · rw [e]; omega

/-- Witness of C25: the constructor on the seed `0xdeadbeef` of the skip list,
and `Next()` from `seed_ = 1`, which returns 16807. -/
theorem C25_Lehmer_step_witness :
    (1 ≤ 1 ∧ 1 ≤ 2 ^ 31 - 2) ∧
    (Random.new 0xdeadbeef).seed_ = 1588444911 ∧ (Random.Next ⟨1⟩).1 = 16807 :=
  ⟨⟨by decide, by decide⟩,
    (C25_Lehmer_step 0xdeadbeef 1 (by decide) (by decide)).1.2.2.trans (by decide),
    (C25_Lehmer_step 0xdeadbeef 1 (by decide) (by decide)).2.1.trans (by decide)⟩

/-! ## `AllocateAligned` back to back -/

/-- The padded size `n + slop` is `n` rounded up to a multiple of `A`. -/
theorem roundUp_eq (n A : Nat) (hA : 0 < A) :
    n + (if n % A = 0 then 0 else A - n % A) = roundUp n A := by
  unfold roundUp
  have h1 := Nat.div_add_mod n A
  have h2 := Nat.mod_lt n hA
  have key : ∀ k x, k * A ≤ x → x < k * A + A → x / A * A = k * A := by
    intro k x lo hi
    have e : x / A = k := Nat.div_eq_of_lt_le lo (by rw [Nat.succ_mul]; exact hi)
    rw [e]
  have hc : n / A * A = A * (n / A) := Nat.mul_comm _ _
  have hc1 : (n / A + 1) * A = A * (n / A) + A := by rw [Nat.add_mul, hc, Nat.one_mul]
  generalize A * (n / A) = t at h1 hc hc1
  by_cases h : n % A = 0
  · simp only [h, if_true, Nat.add_zero]
    rw [key (n / A) (n + A - 1) (by omega) (by omega), hc]
    omega
  · simp only [h, if_false]
    rw [key (n / A + 1) (n + A - 1) (by omega) (by omega), hc1]
    omega

theorem roundUp_one (A : Nat) (hA : 0 < A) : roundUp 1 A = A := by
  unfold roundUp
  rw [show 1 + A - 1 = A by omega, Nat.div_self hA, Nat.one_mul]

/-- C23: on a fresh arena of a platform whose `align` is a power of two, whose
`new char[]` returns aligned blocks and whose `size_t` holds the block size,
`AllocateAligned(n)` followed by `AllocateAligned(m)`, with `1 <= n <= 1024` and
`n` rounded up to a multiple of `align` plus `m` at most 4096, returns two
addresses `p` and `q` in the one block `[p, p + 4096)` the arena then owns, with
`q - p` equal to `n` rounded up to a multiple of `align`; for `n = 1` the two
addresses are exactly `align` bytes apart. -/
theorem C23_aligned_back_to_back (P : Platform) (hP : ∃ k, P.align = 2 ^ k)
    (hnew : ∀ k n, P.newChar k n % P.align = 0) (hsz : kBlockSize < P.sizeMax)
    (n m : Nat) (h1 : 1 ≤ n) (h2 : n ≤ 1024) (h3 : roundUp n P.align + m ≤ 4096) :
    ∃ p q a, Arena.run P Arena.new [.aligned n, .aligned m] = .ok ([p, q], a) ∧
      a.blocks_ = [⟨p, kBlockSize⟩] ∧ q = p + roundUp n P.align ∧
      q + m ≤ p + kBlockSize ∧ (n = 1 → q = p + P.align) := by
  have hA := align_pos P
  have hk : kBlockSize = 4096 := rfl
  have hru := roundUp_eq n P.align hA
  -- the first call opens a standard block
  have hs0 : Arena.slop P Arena.new = 0 := by simp [Arena.slop, Arena.new]
  have hn : (n + 0) % P.sizeMax = n := Nat.mod_eq_of_lt (by omega)
  have hb1 : Arena.AllocateAligned.body P Arena.new n =
      (P.newChar 0 kBlockSize,
        ⟨P.newChar 0 kBlockSize + n, kBlockSize - n, [⟨P.newChar 0 kBlockSize, kBlockSize⟩],
          (0 + (kBlockSize + P.ptr) % P.sizeMax) % P.sizeMax⟩) := by
    have hnf : ¬ n ≤ Arena.new.alloc_bytes_remaining_ := by
      simp only [Arena.new]; omega
    have hsmall : ¬ n > kBlockSize / 4 := by rw [hk]; omega
    simp only [Arena.AllocateAligned.body, hs0, hn, hnf, if_false, Arena.AllocateFallback,
      hsmall, Arena.AllocateNewBlock]
    rfl
  have hm1 : P.newChar 0 kBlockSize &&& (P.align - 1) = 0 := by
    rw [align_mask P hP]; exact hnew _ _
  have e1 : Arena.AllocateAligned P Arena.new n =
      .ok (P.newChar 0 kBlockSize,
        ⟨P.newChar 0 kBlockSize + n, kBlockSize - n, [⟨P.newChar 0 kBlockSize, kBlockSize⟩],
          (0 + (kBlockSize + P.ptr) % P.sizeMax) % P.sizeMax⟩) := by
    simp only [Arena.AllocateAligned, hb1, hm1, if_true]
  -- the second call is served from that block
  generalize hp : P.newChar 0 kBlockSize = p at e1 hm1
  generalize (0 + (kBlockSize + P.ptr) % P.sizeMax) % P.sizeMax = u at e1
  have hpm : p % P.align = 0 := by rw [← hp]; exact hnew _ _
  have hmod : (p + n) % P.align = n % P.align := by
    rw [Nat.add_mod, hpm, Nat.zero_add, Nat.mod_mod]
  have hs1 : Arena.slop P ⟨p + n, kBlockSize - n, [⟨p, kBlockSize⟩], u⟩ =
      (if n % P.align = 0 then 0 else P.align - n % P.align) := by
    simp only [Arena.slop, align_mask P hP, hmod]
  generalize hs : (if n % P.align = 0 then 0 else P.align - n % P.align) = s at hs1 hru
  have hle : (m + s) % P.sizeMax ≤ m + s := Nat.mod_le _ _
  have hfit : (m + s) % P.sizeMax ≤ kBlockSize - n := by rw [hk]; omega
  have hb2 : Arena.AllocateAligned.body P ⟨p + n, kBlockSize - n, [⟨p, kBlockSize⟩], u⟩ m =
      (p + n + s,
        ⟨p + n + (m + s) % P.sizeMax, kBlockSize - n - (m + s) % P.sizeMax,
          [⟨p, kBlockSize⟩], u⟩) := by
    simp only [Arena.AllocateAligned.body, hs1, hfit, if_true]
  have hm2 : (p + n + s) &&& (P.align - 1) = 0 := by
    rw [align_mask P hP, ← hs, ← hmod]
    exact add_slop_mod _ _ hA
  have e2 : Arena.AllocateAligned P ⟨p + n, kBlockSize - n, [⟨p, kBlockSize⟩], u⟩ m =
      .ok (p + n + s,
        ⟨p + n + (m + s) % P.sizeMax, kBlockSize - n - (m + s) % P.sizeMax,
          [⟨p, kBlockSize⟩], u⟩) := by
    simp only [Arena.AllocateAligned, hb2, hm2, if_true]
  refine ⟨p, p + n + s,
    ⟨p + n + (m + s) % P.sizeMax, kBlockSize - n - (m + s) % P.sizeMax, [⟨p, kBlockSize⟩], u⟩,
    by simp only [Arena.run, Arena.serve, e1, e2], rfl,
    by omega, by rw [hk]; omega, ?_⟩
  intro h
  subst h
  rw [roundUp_one P.align hA] at hru
  omega

/-- Witness of C23 on the platform `P64`: `AllocateAligned(1)` twice on a fresh
arena returns 65536 and 65544, eight bytes apart. -/
theorem C23_aligned_back_to_back_witness :
    (1 ≤ 1 ∧ 1 ≤ 1024 ∧ roundUp 1 P64.align + 1 ≤ 4096 ∧ kBlockSize < P64.sizeMax) ∧
    (∃ p q a, Arena.run P64 Arena.new [.aligned 1, .aligned 1] = .ok ([p, q], a) ∧
      a.blocks_ = [⟨p, kBlockSize⟩] ∧ q = p + roundUp 1 P64.align ∧
      q + 1 ≤ p + kBlockSize ∧ (1 = 1 → q = p + P64.align)) ∧
    Arena.run P64 Arena.new [.aligned 1, .aligned 1] =
      .ok ([65536, 65544],
        { alloc_ptr_ := 65545, alloc_bytes_remaining_ := 4087,
          blocks_ := [⟨65536, 4096⟩], memory_usage_ := 4104 }) :=
  ⟨⟨by decide, by decide, by decide, by decide⟩,
    C23_aligned_back_to_back P64 ⟨3, rfl⟩ (fun k n => by simp [P64, Platform.align]; omega)
      (by decide) 1 1 (by decide) (by decide) (by decide), rfl⟩

/-! ## `FindShortestSeparator` -/

theorem lexLess_append_left (pre a b : List Nat) :
    lexLess (pre ++ a) (pre ++ b) = lexLess a b := by
  induction pre with
  | nil => rfl
  | cons x xs ih => simp [lexLess, ih]

theorem take_set_succ : ∀ (l : List Nat) (d v : Nat), d < l.length →
    (l.set d v).take (d + 1) = l.take d ++ [v] := by
  intro l
  induction l with
  | nil => intro d v h; simp at h
  | cons x xs ih =>
    intro d v h
    cases d with
    | zero => simp
    | succ d => simp [ih d v (by simpa using h)]

/-- The loop of `FindShortestSeparator` stops at the length of the longest
common prefix, capped by `min_length`. -/
theorem FindShortestSeparator_loop_spec (start limit : List Nat) (min_length : Nat)
    (hs : min_length ≤ start.length) (hl : min_length ≤ limit.length) :
    ∀ fuel i, i ≤ min_length → min_length - i < fuel → start.take i = limit.take i →
      ∃ d, BytewiseComparator.FindShortestSeparator.loop start limit min_length fuel i = .ok d ∧
        d ≤ min_length ∧ start.take d = limit.take d ∧
        (d < min_length → start[d]? ≠ limit[d]?) := by
  intro fuel
  induction fuel with
  | zero => intro i _ h; omega
  | succ fuel ih =>
    intro i hi hf hpre
    unfold BytewiseComparator.FindShortestSeparator.loop
    by_cases hlt : i < min_length
    · have h1 : i < start.length := by omega
      have h2 : i < limit.length := by omega
      simp only [hlt, if_true, List.getElem?_eq_getElem h1, List.getElem?_eq_getElem h2]
      by_cases hxy : start[i] = limit[i]
      · simp only [hxy, if_true]
        apply ih (i + 1) (by omega) (by omega)
        rw [List.take_succ, List.take_succ, hpre, List.getElem?_eq_getElem h1,
          List.getElem?_eq_getElem h2, hxy]
      · simp only [hxy, if_false]
        refine ⟨i, rfl, hi, hpre, fun _ => ?_⟩
        rw [List.getElem?_eq_getElem h1, List.getElem?_eq_getElem h2]
        intro e
        exact hxy (Option.some.inj e)
    · simp only [hlt, if_false]
      exact ⟨i, rfl, hi, hpre, fun h => absurd h hlt⟩

/-- C26 (the code diverges from the claim): `FindShortestSeparator(start, limit)`
either leaves `*start` unchanged and returns, or reaches its assertion, and then
it does not return: the condition `Compare(*start, limit) < 0` holds there (the
run never ends in a failed assertion), but evaluating it builds a temporary
`Slice` from `*start`, and the destructor of `Slice` runs `delete[]` on the
buffer of the string.  So the call never returns with a shortened `*start`: on
`start = "abcdefg"`, `limit = "abzz"`, where the claim has `*start` become
`"abd"`, the run ends in undefined behaviour; on `start = "ab"`, a prefix of
`limit`, it returns with `*start` unchanged. -/
theorem C26_separator_deletes_string_buffer (start : List Nat) (limit : Slice) :
    (BytewiseComparator.FindShortestSeparator start limit = .ok start ∨
      BytewiseComparator.FindShortestSeparator start limit = .error .undefined) ∧
    BytewiseComparator.FindShortestSeparator [97, 98, 99, 100, 101, 102, 103]
      ⟨[97, 98, 122, 122]⟩ = .error .undefined ∧
    BytewiseComparator.FindShortestSeparator [97, 98] ⟨[97, 98, 122, 122]⟩ = .ok [97, 98] := by
  refine ⟨?_, rfl, rfl⟩
  obtain ⟨lim⟩ := limit
  have hs : min start.length lim.length ≤ start.length := Nat.min_le_left _ _
  have hl : min start.length lim.length ≤ lim.length := Nat.min_le_right _ _
  obtain ⟨d, hloop, hd, hpre, hne⟩ := FindShortestSeparator_loop_spec start lim _ hs hl
    (min start.length lim.length + 1) 0 (Nat.zero_le _) (by omega) (by simp)
  by_cases hge : d ≥ min start.length lim.length
  · left
    simp only [BytewiseComparator.FindShortestSeparator, Slice.size, hloop, hge, if_true]
  · have hdlt : d < min start.length lim.length := by omega
    have h1 : d < start.length := by omega
    have h2 : d < lim.length := by omega
    by_cases hg : start[d] < 0xff ∧ start[d] + 1 < lim[d]
    · right
      have el : start.take d ++ lim[d] :: lim.drop (d + 1) = lim := by
        rw [hpre, ← List.drop_eq_getElem_cons h2, List.take_append_drop]
      have hout : resize (start.set d ((start[d] + 1) % 256)) (d + 1) =
          start.take d ++ [start[d] + 1] := by
        have hz : d + 1 - (start.set d ((start[d] + 1) % 256)).length = 0 := by
          rw [List.length_set]; omega
        rw [resize, take_set_succ _ _ _ h1, hz, Nat.mod_eq_of_lt (by omega)]
        simp
      have hlim : lexLess (start.take d ++ [start[d] + 1]) lim = true := by
        have h := lexLess_append_left (start.take d) [start[d] + 1] (lim[d] :: lim.drop (d + 1))
        rw [el] at h
        rw [h]
        simp [lexLess, hg.2]
      have hcmp : BytewiseComparator.Compare ⟨start.take d ++ [start[d] + 1]⟩ ⟨lim⟩ < 0 :=
        (compare_sign _ _).1.mpr hlim
      simp only [BytewiseComparator.FindShortestSeparator, Slice.size, hloop, hge, if_false,
        List.getElem?_eq_getElem h1, List.getElem?_eq_getElem h2]
      rw [if_pos hg]
      simp only [hout, hcmp, if_true, Slice.destroy]
    · left
      simp only [BytewiseComparator.FindShortestSeparator, Slice.size, hloop, hge, if_false,
        List.getElem?_eq_getElem h1, List.getElem?_eq_getElem h2]
      rw [if_neg hg]

/-! ## The constructor of the skip list -/

/-- With the members initialised in the order of the constructor's
mem-initializer list, `arena_` is set before `NewNode` runs: on the platform
`P64`, with a 16-byte `Node`, construction over a fresh arena at address 0 places
the head (104 bytes) at the start of the one standard block the arena then owns,
and writes all `kMaxHeight` links to null. -/
theorem construct_in_written_order :
    constructed (SkipList.construct initializerListOrder P64 16 intCmp 0 0 ⟨[Arena.new], []⟩) =
      some (some 65536, some 0, some 1,
        [{ alloc_ptr_ := 65640, alloc_bytes_remaining_ := 3992,
           blocks_ := [⟨65536, 4096⟩], memory_usage_ := 4104 }],
        some (List.replicate kMaxHeight (some none))) := rfl

/-- C21 (the code diverges from the claim): `head_` is declared before `arena_`,
so the constructor evaluates `head_(NewNode(0, kMaxHeight))` first, and `NewNode`
reads the member `arena_` while it is still uninitialised instead of the
constructor's `arena` argument: for every comparator, arena address, key and
memory the construction ends in undefined behaviour, no block is allocated from
the supplied arena and no link of a head is written. -/
theorem C21_head_allocated_before_arena_is_set (P : Platform) (sizeofNode : Nat)
    (cmp : K → K → Int) (arena : Nat) (k0 : K) (m : Memory K) :
    SkipList.ctor P sizeofNode cmp arena k0 m = .error .undefined ∧
    declarationOrder.indexOf Member.head_ < declarationOrder.indexOf Member.arena_ ∧
    initializerListOrder.indexOf Member.arena_ < initializerListOrder.indexOf Member.head_ :=
  ⟨rfl, by decide, by decide⟩

/-! ## Programs that construct a list and use it

Every program below first constructs the list.  With the members initialised in
the order of their declaration, which is the order of the language, the
construction reads `arena_` before it is initialised and the program ends there.
With the members initialised in the order of the mem-initializer list the same
program runs from the empty list `SkipList.new`. -/

/-- With the members initialised in the order of the mem-initializer list, on the
platform `P64`, with a 16-byte `Node` and a fresh arena at address 0, a program
runs its body from the empty list `SkipList.new 0`. -/
theorem constructThen_written_order {α : Type} (body : SkipList Int → Except Fault α) :
    SkipList.constructThen initializerListOrder P64 16 intCmp 0 0 ⟨[Arena.new], []⟩ body =
      body (SkipList.new 0) := rfl

/-- C9 (the code diverges from the claim): a program that constructs a skip list,
inserts keys (possibly none) and reads `max_height_` ends in undefined behaviour
inside the constructor, before the initialiser `max_height_(1)` has run, for
every input; `max_height_` is not 1 after construction.  Were the members
initialised in the order of the mem-initializer list, `max_height_` would be 1
after construction and 2 after inserting 5, 1, 9, 3 with heights 2, 1, 1, 1. -/
theorem C9_construction_faults_before_max_height (P : Platform) (sizeofNode : Nat)
    (cmp : K → K → Int) (arena : Nat) (k0 : K) (m : Memory K) (fuel : Nat)
    (khs : List (K × Nat)) :
    SkipList.constructThen declarationOrder P sizeofNode cmp arena k0 m
        (maxHeightAfter cmp fuel khs) = .error .undefined ∧
    SkipList.constructThen initializerListOrder P64 16 intCmp 0 0 ⟨[Arena.new], []⟩
        (maxHeightAfter intCmp 16 []) = .ok 1 ∧
    SkipList.constructThen initializerListOrder P64 16 intCmp 0 0 ⟨[Arena.new], []⟩
        (maxHeightAfter intCmp 16 scenario) = .ok 2 :=
  ⟨rfl, rfl, rfl⟩

theorem apart_of_holds (b c : Block) (p n q m : Nat) (hb : b.holds p n) (hc : c.holds q m)
    (h : blockApart b c) : apart p n q m := by
  unfold Block.holds at hb hc
  unfold blockApart apart at h
  unfold apart
  omega

/-- The two branches of `AllocateFallback`. -/
theorem AllocateFallback_cases (P : Platform) (a : Arena) (n : Nat) :
    ∃ q u, (n > 1024 → a.AllocateFallback P n =
        (q, ⟨a.alloc_ptr_, a.alloc_bytes_remaining_, a.blocks_ ++ [⟨q, n⟩], u⟩)) ∧
      (¬ n > 1024 → a.AllocateFallback P n =
        (q, ⟨q + n, 4096 - n, a.blocks_ ++ [⟨q, 4096⟩], u⟩)) := by
  by_cases h : n > 1024
  · exact ⟨P.newChar a.blocks_.length n, (a.memory_usage_ + (n + P.ptr)) % P.sizeMax,
      fun _ => by simp [Arena.AllocateFallback, kBlockSize, h, Arena.AllocateNewBlock],
      fun h1 => absurd h h1⟩
  · exact ⟨P.newChar a.blocks_.length 4096, (a.memory_usage_ + (4096 + P.ptr)) % P.sizeMax,
      fun h1 => absurd h1 h,
      fun _ => by simp [Arena.AllocateFallback, kBlockSize, h, Arena.AllocateNewBlock]⟩

/-- A request served by `AllocateFallback` keeps the invariant, when the new
block is disjoint from the blocks created before. -/
theorem fallback_inv (P : Platform) (a : Arena) (U : List (Nat × Nat)) (n : Nat)
    (hn : 0 < n) (h : ArenaInv a U)
    (hb : (a.AllocateFallback P n).2.blocks_.Pairwise blockApart) :
    ArenaInv (a.AllocateFallback P n).2 (((a.AllocateFallback P n).1, n) :: U) := by
  obtain ⟨q, u, hbig, hsmall⟩ := AllocateFallback_cases P a n
  by_cases hc : n > 1024
  · rw [hbig hc] at hb ⊢
    simp only at hb ⊢
    have hnew : ∀ b ∈ a.blocks_, blockApart b ⟨q, n⟩ := fun b hb1 =>
      (List.pairwise_append.mp hb).2.2 b hb1 _ (List.mem_singleton.mpr rfl)
    have hU : ∀ r ∈ U, apart q n r.1 r.2 := by
      intro r hr
      obtain ⟨b, hb1, hb2⟩ := h.inside r hr
      have := apart_of_holds b ⟨q, n⟩ r.1 r.2 q n hb2 ⟨le_refl _, le_refl _⟩ (hnew b hb1)
      unfold apart at this ⊢
      omega
    refine ⟨?_, ?_, ?_, ?_⟩
    · intro r hr
      rcases List.mem_cons.mp hr with e | hr
      · subst e
        exact ⟨⟨q, n⟩, by simp, le_refl _, le_refl _⟩
      · obtain ⟨b, hb1, hb2⟩ := h.inside r hr
        exact ⟨b, List.mem_append_left _ hb1, hb2⟩
    · exact List.pairwise_cons.mpr ⟨hU, h.pairwise⟩
    · intro hrem
      obtain ⟨b, hb1, hb2⟩ := h.free_inside hrem
      exact ⟨b, List.mem_append_left _ hb1, hb2⟩
    · intro hrem r hr
      rcases List.mem_cons.mp hr with e | hr
      · subst e
        obtain ⟨b, hb1, hb2⟩ := h.free_inside hrem
        have := apart_of_holds b ⟨q, n⟩ _ _ q n hb2 ⟨le_refl _, le_refl _⟩ (hnew b hb1)
        unfold apart at this ⊢
        simp only
        omega
      · exact h.free_apart hrem r hr
  · rw [hsmall hc] at hb ⊢
    simp only at hb ⊢
    have hnew : ∀ b ∈ a.blocks_, blockApart b ⟨q, 4096⟩ := fun b hb1 =>
      (List.pairwise_append.mp hb).2.2 b hb1 _ (List.mem_singleton.mpr rfl)
    have hU : ∀ r ∈ U, apart q 4096 r.1 r.2 := by
      intro r hr
      obtain ⟨b, hb1, hb2⟩ := h.inside r hr
      have := apart_of_holds b ⟨q, 4096⟩ r.1 r.2 q 4096 hb2 ⟨le_refl _, le_refl _⟩ (hnew b hb1)
      unfold apart at this ⊢
      omega
    refine ⟨?_, ?_, ?_, ?_⟩
    · intro r hr
      rcases List.mem_cons.mp hr with e | hr
      · subst e
        refine ⟨⟨q, 4096⟩, by simp, ?_⟩
        unfold Block.holds
        simp only
        omega
      · obtain ⟨b, hb1, hb2⟩ := h.inside r hr
        exact ⟨b, List.mem_append_left _ hb1, hb2⟩
    · refine List.pairwise_cons.mpr ⟨?_, h.pairwise⟩
      intro r hr
      have := hU r hr
      unfold apart at this ⊢
      simp only
      omega
    · intro _
      refine ⟨⟨q, 4096⟩, by simp, ?_⟩
      unfold Block.holds
      simp only
      omega
    · intro _ r hr
      rcases List.mem_cons.mp hr with e | hr
      · subst e
        unfold apart
        simp only
        omega
      · have := hU r hr
        unfold apart at this ⊢
        simp only
        omega

/-- A request served from the active block keeps the invariant: `s` is the
padding skipped, `n` the size handed out and `k = s + n` the bytes consumed. -/
theorem fit_inv (a : Arena) (U : List (Nat × Nat)) (s n k : Nat) (hn : 0 < n)
    (hk : k = s + n) (hfit : k ≤ a.alloc_bytes_remaining_) (h : ArenaInv a U) :
    ArenaInv ⟨a.alloc_ptr_ + k, a.alloc_bytes_remaining_ - k, a.blocks_, a.memory_usage_⟩
      ((a.alloc_ptr_ + s, n) :: U) := by
  have hrem : 0 < a.alloc_bytes_remaining_ := by omega
  obtain ⟨b, hb1, hb2⟩ := h.free_inside hrem
  have hfa := h.free_apart hrem
  unfold Block.holds at hb2
  refine ⟨?_, ?_, ?_, ?_⟩
  · intro r hr
    rcases List.mem_cons.mp hr with e | hr
    · subst e
      refine ⟨b, hb1, ?_⟩
      unfold Block.holds
      simp only
      omega
    · exact h.inside r hr
  · refine List.pairwise_cons.mpr ⟨?_, h.pairwise⟩
    intro r hr
    have := hfa r hr
    unfold apart at this ⊢
    simp only
    omega
  · intro _
    refine ⟨b, hb1, ?_⟩
    unfold Block.holds
    simp only
    omega
  · intro _ r hr
    rcases List.mem_cons.mp hr with e | hr
    · subst e
      unfold apart
      simp only
      omega
    · have := hfa r hr
      unfold apart at this ⊢
      simp only
      omega

theorem slop_lt_align (P : Platform) (a : Arena) : a.slop P < P.align := by
  have hA := align_pos P
  unfold Arena.slop
  simp only
  split
  · exact hA
  · omega

/-- One request keeps the invariant, when the blocks of the arena it leaves are
pairwise disjoint and an aligned request is small enough for `bytes + slop` not
to wrap. -/
theorem serve_inv (P : Platform) (a a1 : Arena) (U : List (Nat × Nat)) (r : Request) (p : Nat)
    (hpos : 0 < r.bytes) (hbound : ∀ n, r = .aligned n → n + P.align ≤ P.sizeMax)
    (h : ArenaInv a U) (hs : a.serve P r = .ok (p, a1))
    (hb : a1.blocks_.Pairwise blockApart) : ArenaInv a1 ((p, r.bytes) :: U) := by
  cases r with
  | allocate n =>
    simp only [Request.bytes] at hpos ⊢
    simp only [Arena.serve, Arena.Allocate, hpos, not_true, if_false] at hs
    by_cases hfit : n ≤ a.alloc_bytes_remaining_
    · simp only [hfit, if_true] at hs
      obtain ⟨rfl, rfl⟩ := Prod.mk.inj (Except.ok.inj hs)
      exact fit_inv a U 0 n n hpos (by omega) hfit h
    · simp only [hfit, if_false] at hs
      have e := Except.ok.inj hs
      have e1 : (a.AllocateFallback P n).1 = p := by rw [e]
      have e2 : (a.AllocateFallback P n).2 = a1 := by rw [e]
      rw [← e1, ← e2]
      exact fallback_inv P a U n hpos h (by rw [e2]; exact hb)
  | aligned n =>
    simp only [Request.bytes] at hpos ⊢
    simp only [Arena.serve, Arena.AllocateAligned] at hs
    by_cases hr : (Arena.AllocateAligned.body P a n).1 &&& (P.align - 1) = 0
    · simp only [hr, if_true] at hs
      have e := Except.ok.inj hs
      have hw : (n + a.slop P) % P.sizeMax = n + a.slop P :=
        Nat.mod_eq_of_lt (by have := slop_lt_align P a; have := hbound n rfl; omega)
      by_cases hfit : n + a.slop P ≤ a.alloc_bytes_remaining_
      · simp only [Arena.AllocateAligned.body, hw, hfit, if_true] at e
        obtain ⟨rfl, rfl⟩ := Prod.mk.inj e
        exact fit_inv a U (a.slop P) n (n + a.slop P) hpos (by omega) hfit h
      · simp only [Arena.AllocateAligned.body, hw, hfit, if_false] at e
        have e1 : (a.AllocateFallback P n).1 = p := by rw [e]
        have e2 : (a.AllocateFallback P n).2 = a1 := by rw [e]
        rw [← e1, ← e2]
        exact fallback_inv P a U n hpos h (by rw [e2]; exact hb)
    · simp [hr] at hs

theorem run_cons_ok (P : Platform) (a a2 : Arena) (r : Request) (rs : List Request)
    (addrs : List Nat) (h : Arena.run P a (r :: rs) = .ok (addrs, a2)) :
    ∃ p a1 ps, a.serve P r = .ok (p, a1) ∧ Arena.run P a1 rs = .ok (ps, a2) ∧
      addrs = p :: ps := by
  simp only [Arena.run] at h
  cases hs : a.serve P r with
  | error e => simp [hs] at h
  | ok v =>
    obtain ⟨p, a1⟩ := v
    simp only [hs] at h
    cases hr : Arena.run P a1 rs with
    | error e => simp [hr] at h
    | ok w =>
      obtain ⟨ps, a3⟩ := w
      simp only [hr] at h
      obtain ⟨rfl, rfl⟩ := Prod.mk.inj (Except.ok.inj h)
      exact ⟨p, a1, ps, rfl, hr, rfl⟩

/-- A run only appends blocks. -/
theorem run_blocks_prefix (P : Platform) : ∀ (reqs : List Request) (a a2 : Arena)
    (addrs : List Nat), Arena.run P a reqs = .ok (addrs, a2) →
    ∃ bs, a2.blocks_ = a.blocks_ ++ bs := by
  intro reqs
  induction reqs with
  | nil =>
    intro a a2 addrs h
    simp only [Arena.run] at h
    obtain ⟨-, rfl⟩ := Prod.mk.inj (Except.ok.inj h)
    exact ⟨[], by simp⟩
  | cons r rs ih =>
    intro a a2 addrs h
    obtain ⟨p, a1, ps, hs, hrun, -⟩ := run_cons_ok P a a2 r rs addrs h
    obtain ⟨bs, hbs⟩ := ih a1 a2 ps hrun
    have hspec := serve_spec P a a1 r p hs
    by_cases hfit : a.fits P r = true
    · exact ⟨bs, by rw [hbs, (hspec.1 hfit).1]⟩
    · obtain ⟨b, e, -⟩ := hspec.2 (by simpa using hfit)
      exact ⟨[b] ++ bs, by rw [hbs, e, List.append_assoc]⟩

/-- A run keeps the invariant and adds its regions. -/
theorem run_inv (P : Platform) : ∀ (reqs : List Request) (a a2 : Arena)
    (U : List (Nat × Nat)) (addrs : List Nat),
    (∀ r ∈ reqs, 0 < r.bytes) →
    (∀ n, Request.aligned n ∈ reqs → n + P.align ≤ P.sizeMax) →
    ArenaInv a U → Arena.run P a reqs = .ok (addrs, a2) →
    a2.blocks_.Pairwise blockApart →
    addrs.length = reqs.length ∧ ArenaInv a2 ((regions addrs reqs).reverse ++ U) := by
  intro reqs
  induction reqs with
  | nil =>
    intro a a2 U addrs _ _ h hrun _
    simp only [Arena.run] at hrun
    obtain ⟨rfl, rfl⟩ := Prod.mk.inj (Except.ok.inj hrun)
    exact ⟨rfl, by simpa [regions] using h⟩
  | cons r rs ih =>
    intro a a2 U addrs hpos hbound h hrun hb
    obtain ⟨p, a1, ps, hs, hrun1, rfl⟩ := run_cons_ok P a a2 r rs addrs hrun
    obtain ⟨bs, hbs⟩ := run_blocks_prefix P rs a1 a2 ps hrun1
    have hb1 : a1.blocks_.Pairwise blockApart := by
      rw [hbs] at hb
      exact (List.pairwise_append.mp hb).1
    have h1 := serve_inv P a a1 U r p (hpos r (by simp))
      (fun n hn => hbound n (by simp [hn])) h hs hb1
    obtain ⟨hl, h2⟩ := ih a1 a2 _ ps (fun x hx => hpos x (by simp [hx]))
      (fun n hn => hbound n (by simp [hn])) h1 hrun1 hb
    refine ⟨by simp [hl], ?_⟩
    have e : (regions (p :: ps) (r :: rs)).reverse ++ U =
        (regions ps rs).reverse ++ (p, r.bytes) :: U := by
      simp [regions]
    rw [e]
    exact h2

theorem arenaInv_new : ArenaInv Arena.new [] :=
  ⟨fun r hr => by simp at hr, List.Pairwise.nil,
    fun h => by simp [Arena.new] at h, fun h => by simp [Arena.new] at h⟩

/-- C24 (the claim fails): on the platform `P64`, `Allocate(1)`,
`AllocateAligned(2^64 - 1)`, `Allocate(4)` on a fresh arena all return, with a
single block `[65536, 65536 + 4096)`.  In the second call `bytes + slop` wraps
to 6, so the call is served from the active block: its region
`[65544, 65544 + 2^64 - 1)` lies in no block, and the third region
`[65543, 65547)` overlaps it. -/
theorem C24_huge_aligned_counterexample :
    Arena.run P64 Arena.new [.allocate 1, .aligned (2 ^ 64 - 1), .allocate 4] =
      .ok ([65536, 65544, 65543],
        { alloc_ptr_ := 65547, alloc_bytes_remaining_ := 4085,
          blocks_ := [⟨65536, 4096⟩], memory_usage_ := 4104 }) ∧
    (∀ r ∈ [Request.allocate 1, .aligned (2 ^ 64 - 1), .allocate 4], 0 < r.bytes) ∧
    List.Pairwise blockApart [(⟨65536, 4096⟩ : Block)] ∧
    ¬ (∀ r ∈ regions [65536, 65544, 65543]
          [.allocate 1, .aligned (2 ^ 64 - 1), .allocate 4],
        ∃ b ∈ [(⟨65536, 4096⟩ : Block)], b.holds r.1 r.2) ∧
    ¬ (regions [65536, 65544, 65543]
        [.allocate 1, .aligned (2 ^ 64 - 1), .allocate 4]).Pairwise
          (fun x y => apart x.1 x.2 y.1 y.2) := by
  refine ⟨rfl, by decide, by decide, ?_, ?_⟩
  · intro h
    obtain ⟨b, hb, h1, h2⟩ := h (65544, 2 ^ 64 - 1) (by simp [regions, Request.bytes])
    have e : b = ⟨65536, 4096⟩ := by simpa using hb
    subst e
    simp only at h2
    omega
  · intro h
    simp only [regions, List.map, Request.bytes, List.zip_cons_cons, List.pairwise_cons] at h
    have h1 := h.2.1 (65543, 4) (by simp)
    unfold apart at h1
    simp only at h1
    omega

/-- C24 (amended): take any sequence of `Allocate` and `AllocateAligned` calls
with positive sizes on a fresh arena, in which every `AllocateAligned(n)` has
`n + align <= SIZE_MAX + 1` (so that `bytes + slop` does not wrap).  Whenever the
run returns and the blocks it created occupy disjoint address ranges, one address
is returned per call, every returned region `[p, p + n)` lies inside a single
block of the arena and no two returned regions overlap; and the run does return
when `align` is a power of two and `new char[]` returns aligned blocks. -/
theorem C24_regions_disjoint (P : Platform) (reqs : List Request)
    (hpos : ∀ r ∈ reqs, 0 < r.bytes)
    (hbound : ∀ n, Request.aligned n ∈ reqs → n + P.align ≤ P.sizeMax) :
    (∀ addrs a, Arena.run P Arena.new reqs = .ok (addrs, a) →
      a.blocks_.Pairwise blockApart →
      addrs.length = reqs.length ∧
      (∀ r ∈ regions addrs reqs, ∃ b ∈ a.blocks_, b.holds r.1 r.2) ∧
      (regions addrs reqs).Pairwise (fun x y => apart x.1 x.2 y.1 y.2)) ∧
    ((∃ k, P.align = 2 ^ k) → (∀ k n, P.newChar k n % P.align = 0) →
      ∃ addrs a, Arena.run P Arena.new reqs = .ok (addrs, a)) := by
  constructor
  · intro addrs a hrun hb
    obtain ⟨hl, h⟩ := run_inv P reqs Arena.new a [] addrs hpos hbound arenaInv_new hrun hb
    rw [List.append_nil] at h
    refine ⟨hl, fun r hr => h.inside r (List.mem_reverse.mpr hr), ?_⟩
    have hp := List.pairwise_reverse.mp h.pairwise
    refine hp.imp ?_
    intro x y hxy
    unfold apart at hxy ⊢
    omega
  · intro hP hnew
    obtain ⟨addrs, a, -, hrun, -⟩ := run_spec P hP hnew reqs Arena.new
      (fun n hn => by simpa [Request.bytes] using hpos _ hn)
      (by simp [Arena.new, blocksTotal])
    exact ⟨addrs, a, hrun⟩

/-- Witness of C24 (amended) on the platform `P64`: `Allocate(1)`,
`AllocateAligned(16)`, `Allocate(4)` and `Allocate(5000)` on a fresh arena return
the regions `[65536, +1)`, `[65544, +16)`, `[65560, +4)` in the first block and
`[131072, +5000)` in a dedicated block. -/
theorem C24_regions_disjoint_witness :
    ((∀ r ∈ [Request.allocate 1, .aligned 16, .allocate 4, .allocate 5000], 0 < r.bytes) ∧
      (∀ n, Request.aligned n ∈ [Request.allocate 1, .aligned 16, .allocate 4, .allocate 5000] →
        n + P64.align ≤ P64.sizeMax)) ∧
    [65536, 65544, 65560, 131072].length = 4 ∧
    (∀ r ∈ regions [65536, 65544, 65560, 131072]
        [.allocate 1, .aligned 16, .allocate 4, .allocate 5000],
      ∃ b ∈ [(⟨65536, 4096⟩ : Block), ⟨131072, 5000⟩], b.holds r.1 r.2) ∧
    (regions [65536, 65544, 65560, 131072]
      [.allocate 1, .aligned 16, .allocate 4, .allocate 5000]).Pairwise
        (fun x y => apart x.1 x.2 y.1 y.2) :=
  ⟨⟨by decide, fun n hn => by simp at hn; subst hn; decide⟩,
    (C24_regions_disjoint P64 [.allocate 1, .aligned 16, .allocate 4, .allocate 5000]
      (by decide) (fun n hn => by simp at hn; subst hn; decide)).1
      [65536, 65544, 65560, 131072]
      { alloc_ptr_ := 65564, alloc_bytes_remaining_ := 4068,
        blocks_ := [⟨65536, 4096⟩, ⟨131072, 5000⟩], memory_usage_ := 9112 }
      rfl (by decide)⟩

end massdb
